import Mathlib

/-!
# A verification model of the `wish` shell (`src/wish.c`)

The C program is embedded shallowly.

* C strings are lists of characters (line buffers) or `String`s (tokens);
  a `char*` array terminated by `NULL` is a `List String`.
* Arrays (`tokens`, `args`, `pids`, `path`) are lists; a write at an index
  is `writeAt`.  The capacities `MAX_LINE`, `MAX_TOKENS` and `MAX_PATHS` are
  constants of the model; the guards the source places on them are modelled
  as written, and statements about index bounds are made against them.
* A store past the end of a fixed array (`line0`, `line1`, `l`, `line2`,
  `line`, `tokens`, `args`, `path`), which C leaves undefined, makes the list
  of the model longer.  The model is the program on the runs in which no such
  store is made.  The hypotheses that keep a run inside the arrays are a line
  and its padded form shorter than `MAX_LINE`, at most `MAX_TOKENS` tokens,
  and groups of fewer than `MAX_TOKENS` tokens before the `>` or the end;
  a statement on a store past an array only gives the length reached.
* Loops are recursive functions.  A `for` loop over an index range recurses
  on the number of remaining iterations; a `while` loop takes a fuel argument
  that the caller sets to a bound on its iterations.
* The operating system is a parameter: a structure `OS σ` of primitives over
  an abstract state `σ`.  The shell state carries, besides the globals of the
  program, the list of primitive calls made so far (`trace`).
* Behaviour that C leaves undefined (dereferencing `NULL`, reading past the
  end of the input buffer) is the result `none`.
-/

namespace Wish

/-! ## Constants (lines 14-24) -/

def MAX_LINE : Nat := 512

def MAX_TOKENS : Nat := 100

def MAX_PATHS : Nat := 128

def default_path : String := "/bin"

/-! ## The grouper of `execute_line` (lines 373-428) -/

/-- The loop `while (begin < num_tokens && !strcmp(tokens[begin], "&")) begin++;`
(lines 379-381 and 406-408); the result is the final value of `begin`. -/
def skip_amps (tokens : List String) : Nat → Nat → Nat
  | 0, begin => begin
  | fuel + 1, begin =>
    if begin < tokens.length ∧ tokens.getD begin "" = "&" then
      skip_amps tokens fuel (begin + 1)
    else begin

/-- The loop `while (end < num_tokens && strcmp(tokens[end], "&")) end++;`
(lines 388-390 and 415-417); the result is the final value of `end`. -/
def scan_run (tokens : List String) : Nat → Nat → Nat
  | 0, end_ => end_
  | fuel + 1, end_ =>
    if end_ < tokens.length ∧ tokens.getD end_ "" ≠ "&" then
      scan_run tokens fuel (end_ + 1)
    else end_

/-- The first sliding-window pass (lines 375-394), which only counts the
groups: the state is `begin`, `end` and `num_groups`. -/
def count_loop (tokens : List String) : Nat → Nat → Nat → Nat → Nat
  | 0, _, _, num_groups => num_groups
  | fuel + 1, begin, end_, num_groups =>
    if end_ < tokens.length then
      let begin1 := skip_amps tokens tokens.length begin
      if begin1 ≥ tokens.length then num_groups
      else
        let end1 := scan_run tokens tokens.length begin1
        count_loop tokens fuel end1 end1 (num_groups + 1)
    else num_groups

/-- The copy `for (i = 0; i < sz; i++) groups[gi][i] = tokens[begin + i];`
(lines 419-424). -/
def copy_group (tokens : List String) (begin sz : Nat) : List String :=
  (List.range sz).map (fun i => tokens.getD (begin + i) "")

/-- The second sliding-window pass (lines 402-428), which builds the groups:
the state is `begin`, `end` and the groups stored so far (`groups[0..gi)`). -/
def build_loop (tokens : List String) :
    Nat → Nat → Nat → List (List String) → List (List String)
  | 0, _, _, groups => groups
  | fuel + 1, begin, end_, groups =>
    if end_ < tokens.length then
      let begin1 := skip_amps tokens tokens.length begin
      if begin1 ≥ tokens.length then groups
      else
        let end1 := scan_run tokens tokens.length begin1
        build_loop tokens fuel end1 end1 (groups ++ [copy_group tokens begin1 (end1 - begin1)])
    else groups

/-- The value of `num_groups` after the first pass, started as the source
does with `begin = end = 0`. -/
def count_groups (tokens : List String) : Nat :=
  count_loop tokens (tokens.length + 1) 0 0 0

/-- The array `groups` after the second pass. -/
def build_groups (tokens : List String) : List (List String) :=
  build_loop tokens (tokens.length + 1) 0 0 []

/-- The maximal runs of tokens different from `"&"`, as the specification
words them: the pieces between the operators, the empty pieces dropped. -/
def maximal_runs (tokens : List String) : List (List String) :=
  (tokens.splitOn "&").filter (fun g => g ≠ [])

/-! ## Arrays and the operating system -/

/-- The assignment `xs[i] = v` on an array modelled as a list; the slots
between the end of the list and `i` have not been written and hold `pad`. -/
def writeAt {α : Type} (xs : List α) (i : Nat) (v pad : α) : List α :=
  if i < xs.length then xs.set i v else xs ++ List.replicate (i - xs.length) pad ++ [v]

/-- One slot of a `char*` array such as `args`: never written, `NULL`, or a
string. -/
inductive Slot where
  | uninit
  | null
  | str (s : String)
deriving DecidableEq, Repr

/-- The element `group[j]` of a `NULL`-terminated array: the slot after the
last token is the terminator. -/
def group_at (group : List String) (j : Nat) : Slot :=
  match group[j]? with
  | some s => Slot.str s
  | none => Slot.null

/-- The program a created child runs (lines 237-252): when `redirect` is
`some fd` it calls `dup2(fd, STDOUT_FILENO)`, then `execv(cmd, args)`; it
leaves with `_exit(1)` when either call fails. -/
structure Child where
  cmd : String
  args : List Slot
  redirect : Option Int
deriving DecidableEq, Repr

/-- The argument vector `execv` reads from `args`: the strings up to the
first `NULL`.  There is none when a slot that was never written comes first. -/
def argv : List Slot → Option (List String)
  | [] => none
  | Slot.uninit :: _ => none
  | Slot.null :: _ => some []
  | Slot.str s :: rest => (argv rest).map (fun v => s :: v)

/-- The calls the shell process makes that are visible from outside. -/
inductive Event where
  | error
  | open_trunc (file : String) (fd : Int)
  | open_creat (file : String) (fd : Int)
  | chdir (dir : String) (rc : Int)
  | fork (pid : Int) (child : Child)
  | waitpid (pid : Int) (rc : Int)
  | call (group : List String)
deriving DecidableEq, Repr

/-- The `mode` argument of `access`. -/
inductive Mode where
  | F_OK
  | W_OK
  | X_OK
deriving DecidableEq, Repr

/-- The primitives of the operating system the shell calls, over an abstract
system state.  `access` and `stat` only read the state; `stat` gives `none`
for the return value `-1` and otherwise whether `S_ISDIR` holds.  `fork` is
the call as the shell process sees it, whose result is never `0`. -/
structure OS (σ : Type) where
  access : σ → String → Mode → Int
  stat : σ → String → Option Bool
  open_trunc : σ → String → Int × σ
  open_creat : σ → String → Int × σ
  chdir : σ → String → Int × σ
  fork : σ → { pid : Int // pid ≠ 0 } × σ
  waitpid : σ → Int → Int × σ

/-- The state of the shell process: the global `path` (with `num_path` its
length), the state of the operating system, and the calls made so far. -/
structure Shell (σ : Type) where
  path : List String
  os : σ
  trace : List Event
deriving DecidableEq, Repr

/-- The global `num_path`. -/
def Shell.num_path {σ : Type} (sh : Shell σ) : Nat := sh.path.length

/-- `log_error()` (line 60). -/
def log_error {σ : Type} (sh : Shell σ) : Shell σ :=
  { sh with trace := sh.trace ++ [Event.error] }

/-! ## The path registry (lines 32-57) -/

/-- `init_path()` on the zero-initialised globals. -/
def init_path : List String := [default_path]

/-- `append_path(new_path)`: the return value and the registry after the
call. -/
def append_path (path : List String) (new_path : String) : Int × List String :=
  if path.length > MAX_PATHS then (-1, path) else (0, path ++ [new_path])

/-- `free_path()`. -/
def free_path : List String := []

/-! ## `execute_group` (lines 84-262) -/

/-- The variables of the scan of lines 85-99. -/
structure RedirScan where
  i : Nat
  redir_op_index : Option Nat
  num_redir_ops : Nat
  num_redir_files : Nat
deriving DecidableEq, Repr

/-- One iteration of the loop of lines 90-99 on the token `group[i]`. -/
def scan_step (st : RedirScan) (tok : String) : RedirScan :=
  let files := if st.num_redir_ops > 0 then st.num_redir_files + 1 else st.num_redir_files
  if tok = ">" then
    { i := st.i + 1, redir_op_index := some st.i, num_redir_ops := st.num_redir_ops + 1,
      num_redir_files := files }
  else
    { i := st.i + 1, redir_op_index := st.redir_op_index, num_redir_ops := st.num_redir_ops,
      num_redir_files := files }

/-- The loop of lines 89-99. -/
def scan_redir (group : List String) : RedirScan :=
  group.foldl scan_step
    { i := 0, redir_op_index := none, num_redir_ops := 0, num_redir_files := 0 }

/-- The test of lines 102-103. -/
def redir_invalid (sc : RedirScan) : Bool :=
  decide (sc.num_redir_ops > 1) || decide (sc.num_redir_files > 1) ||
    (decide (sc.num_redir_ops ≥ 1) && decide (sc.num_redir_files = 0))

/-- The loops `for (j = 1; j < bound; j++) { args[j] = group[j]; num_args++; }`
(lines 118-121 and 126-129): the arguments are the iterations left, `j`, and
the pair of `args` and `num_args`. -/
def copy_args (group : List String) : Nat → Nat → List Slot × Nat → List Slot × Nat
  | 0, _, st => st
  | n + 1, j, st =>
    copy_args group n (j + 1) (writeAt st.1 j (group_at group j) Slot.uninit, st.2 + 1)

/-- Lines 116-131: `args` and `num_args` once the arguments are copied and
the terminator is stored at `bound`, which is `i` without a redirection and
`redir_op_index` with one.  The array `args` has `MAX_TOKENS` slots and the
list has no capacity: the result is what the code computes when `bound` is
less than `MAX_TOKENS`, that is when the list has at most `MAX_TOKENS`
slots. -/
def compose_args (group : List String) (sc : RedirScan) : List Slot × Nat :=
  let bound := match sc.redir_op_index with
    | none => sc.i
    | some k => k
  let st := copy_args group (bound - 1) 1 ([], 0)
  (writeAt st.1 bound Slot.null Slot.uninit, st.2)

/-- Lines 135-164: the checks on the redirection file and its opening.  The
result is the descriptor, or `none` once an error has been reported. -/
def open_redir {σ : Type} (os : OS σ) (sh : Shell σ) (redir_file : String) :
    Option Int × Shell σ :=
  if os.access sh.os redir_file Mode.F_OK ≠ -1 then
    if os.access sh.os redir_file Mode.W_OK = -1 then (none, log_error sh)
    else
      match os.stat sh.os redir_file with
      | none => (none, log_error sh)
      | some true => (none, log_error sh)
      | some false =>
        let r := os.open_trunc sh.os redir_file
        let sh1 := { sh with os := r.2, trace := sh.trace ++ [Event.open_trunc redir_file r.1] }
        if r.1 = -1 then (none, log_error sh1) else (some r.1, sh1)
  else
    let r := os.open_creat sh.os redir_file
    let sh1 := { sh with os := r.2, trace := sh.trace ++ [Event.open_creat redir_file r.1] }
    if r.1 = -1 then (none, log_error sh1) else (some r.1, sh1)

/-- The loop of lines 211-226: the arguments are the iterations left and `i`;
the result is `cmd0` of the iteration that set `good`, if there is one. -/
def search_loop {σ : Type} (os : OS σ) (s : σ) (path : List String) (cmd : String) :
    Nat → Nat → Option String
  | 0, _ => none
  | n + 1, i =>
    let cmd0 := path.getD i "" ++ "/" ++ cmd
    if os.access s cmd0 Mode.X_OK ≠ -1 then some cmd0
    else search_loop os s path cmd n (i + 1)

/-- Lines 206-231: the command to run, or `none` when `good` stays `0`. -/
def resolve {σ : Type} (os : OS σ) (s : σ) (path : List String) (cmd : String) :
    Option String :=
  if os.access s cmd Mode.X_OK = -1 then search_loop os s path cmd path.length 0
  else some cmd

/-- The loop of lines 195-201 after `free_path()`: the arguments are the
iterations left, `i` and the registry; the result tells whether every
`append_path` returned `0`.  It is `none` when `args[i + 1]` is no string. -/
def path_loop (args : List Slot) : Nat → Nat → List String → Option (Bool × List String)
  | 0, _, path => some (true, path)
  | n + 1, i, path =>
    match args.getD (i + 1) Slot.uninit with
    | Slot.str a =>
      let r := append_path path a
      if r.1 = -1 then some (false, r.2) else path_loop args n (i + 1) r.2
    | _ => none

/-- What `execute_group` returns and leaves behind: the return value, the
shell state, the array `pids` and the counter `*index`. -/
structure GroupResult (σ : Type) where
  rc : Int
  sh : Shell σ
  pids : List Int
  index : Nat
deriving DecidableEq, Repr

/-- Lines 167-261: builtin dispatch, command resolution and process launch,
with `fd` the descriptor of the redirection file (`-1` without one). -/
def run_command {σ : Type} (os : OS σ) (sh : Shell σ) (group : List String)
    (redir_op_index : Option Nat) (args : List Slot) (num_args : Nat) (fd : Int)
    (pids : List Int) (index : Nat) : Option (GroupResult σ) :=
  match group_at group 0 with
  | Slot.str cmd =>
    if cmd = "exit" then
      some { rc := 1, sh := if num_args > 0 then log_error sh else sh,
             pids := pids, index := index }
    else if cmd = "cd" then
      if num_args = 0 ∨ num_args > 1 then
        some { rc := 0, sh := log_error sh, pids := pids, index := index }
      else
        match args.getD 1 Slot.uninit with
        | Slot.str dir =>
          let r := os.chdir sh.os dir
          let sh1 := { sh with os := r.2, trace := sh.trace ++ [Event.chdir dir r.1] }
          some { rc := 0, sh := if r.1 = -1 then log_error sh1 else sh1,
                 pids := pids, index := index }
        | _ => none
    else if cmd = "path" then
      match path_loop args num_args 0 free_path with
      | some (ok, path1) =>
        let sh1 := { sh with path := path1 }
        some { rc := 0, sh := if ok then sh1 else log_error sh1, pids := pids, index := index }
      | none => none
    else
      match resolve os sh.os sh.path cmd with
      | none => some { rc := 0, sh := log_error sh, pids := pids, index := index }
      | some cmd1 =>
        let args1 := writeAt args 0 (group_at group 0) Slot.uninit
        let r := os.fork sh.os
        let child : Child :=
          { cmd := cmd1, args := args1,
            redirect := if redir_op_index ≠ none then some fd else none }
        some { rc := 0,
               sh := { sh with os := r.2, trace := sh.trace ++ [Event.fork r.1.val child] },
               pids := writeAt pids index r.1.val 0, index := index + 1 }
  | _ => none

/-- `execute_group(group, pids, index)`. -/
def execute_group {σ : Type} (os : OS σ) (sh : Shell σ) (group : List String)
    (pids : List Int) (index : Nat) : Option (GroupResult σ) :=
  let sc := scan_redir group
  if redir_invalid sc then
    some { rc := 0, sh := log_error sh, pids := pids, index := index }
  else
    let a := compose_args group sc
    match sc.redir_op_index with
    | none => run_command os sh group none a.1 a.2 (-1) pids index
    | some k =>
      match group_at group (k + 1) with
      | Slot.str redir_file =>
        match open_redir os sh redir_file with
        | (none, sh1) => some { rc := 0, sh := sh1, pids := pids, index := index }
        | (some fd, sh1) => run_command os sh1 group (some k) a.1 a.2 fd pids index
      | _ => none

/-- The number of tokens of a group that follow its first `">"`, for the
statements on the validation of lines 102-103. -/
def tokens_after_redir (group : List String) : Nat :=
  ((group.dropWhile (fun t => t ≠ ">")).drop 1).length

/-- Whether a group gets past lines 102-165: its redirection syntax is valid
and, when it has a redirection, the file is opened. -/
def passes_redirection {σ : Type} (os : OS σ) (sh : Shell σ) (group : List String) : Bool :=
  !redir_invalid (scan_redir group) &&
    match (scan_redir group).redir_op_index with
    | none => true
    | some k =>
      match group_at group (k + 1) with
      | Slot.str redir_file => (open_redir os sh redir_file).1.isSome
      | _ => false

/-- Command resolution as the specification words it, over a predicate `X`
that tells which paths can be executed: the name itself when `X` holds of it,
otherwise the first `dir/name`, in registry order, of which `X` holds. -/
def resolve_ref (X : String → Bool) (path : List String) (name : String) : Option String :=
  if X name then some name else (path.map (fun dir => dir ++ "/" ++ name)).find? X

/-- The executability probe `access(f, X_OK) != -1` as a predicate on
paths. -/
def executable {σ : Type} (os : OS σ) (s : σ) (f : String) : Bool :=
  decide (os.access s f Mode.X_OK ≠ -1)

/-! ## The line normaliser and the tokenizer of `execute_line` (lines 265-371) -/

/-- The loop of lines 272-282 with the store of the newline after it: the
arguments are the input from `p` on and `p - line_`; the result is what was
written to `line0`.  It is `none` when the loop reads past the input. -/
def erase_tabs : List Char → Nat → Option (List Char)
  | [], _ => none
  | c :: rest, n =>
    if c = '\n' then some ['\n']
    else
      let out := if c ≠ '\t' then [c] else []
      if n + 1 ≥ MAX_LINE then some (out ++ ['\n'])
      else (erase_tabs rest (n + 1)).map (fun r => out ++ r)

/-- The C string held by a zero-filled buffer: its content up to the first
zero byte. -/
def cstr (buf : List Char) : List Char :=
  buf.takeWhile (fun c => c ≠ Char.ofNat 0)

/-- The offset `strchr(s, c) - s`, or `none` for `NULL`. -/
def strchr : List Char → Char → Option Nat
  | [], _ => none
  | x :: xs, c => if x = c then some 0 else (strchr xs c).map (fun k => k + 1)

/-- Lines 290-303: `line1`.  The buffer `line1` has `MAX_LINE` bytes and the
list has no capacity: the result is what the code computes when it is
shorter than `MAX_LINE`. -/
def pad_redirect (line0 : List Char) : List Char :=
  match strchr line0 '>' with
  | some off => line0.take off ++ [' ', '>', ' '] ++ line0.drop (off + 1)
  | none => line0

/-- The loop of lines 310-343 on the buffer `l` and the offset `ll - l`; the
result is the buffer when the loop is left.  The buffers `l` and `line2` have
`MAX_LINE` bytes and the list has no capacity: the result is what the code
computes when it is shorter than `MAX_LINE`. -/
def pad_amps : Nat → List Char → Nat → List Char
  | 0, l, _ => l
  | fuel + 1, l, ll =>
    let s := l.drop ll
    match strchr s '&' with
    | none => l
    | some off =>
      let bad_spacing :=
        (decide (0 < off) && s.getD (off - 1) ' ' != ' ') ||
          (decide (off + 2 < s.length) && s.getD (off + 1) ' ' != ' ')
      if bad_spacing then
        let line2 := s.take off ++ [' ', '&', ' '] ++ s.drop (off + 1)
        let l1 := l.take ll ++ line2
        let ll1 := ll + off + 2
        if ll + off ≥ ll1 + (l1.drop ll1).length then l1 else pad_amps fuel l1 ll1
      else
        let ll1 := ll + off + 1
        if ll + off ≥ ll1 + (l.drop ll1).length then l else pad_amps fuel l ll1

/-- The call `strtok(s, " ")` on what is left of the line: the token and
what is left after it, or `none` for `NULL`. -/
def strtok (s : List Char) : Option (List Char × List Char) :=
  let s1 := s.dropWhile (fun c => c = ' ')
  if s1 = [] then none
  else some (s1.takeWhile (fun c => c ≠ ' '), (s1.dropWhile (fun c => c ≠ ' ')).drop 1)

/-- The loop of lines 351-364: the arguments are what is left of the line
and `tokens[0..i)`.  The array `tokens` has `MAX_TOKENS` slots and the list
has no capacity: the result is what the code computes when it has at most
`MAX_TOKENS` tokens. -/
def tokenize : Nat → List Char → List String → List String
  | 0, _, tokens => tokens
  | fuel + 1, rest, tokens =>
    match strtok rest with
    | none => tokens
    | some (token, rest1) =>
      if '\n' ∈ token then
        if token.dropLast = [] then tokens
        else tokenize fuel rest1 (tokens ++ [String.mk token.dropLast])
      else tokenize fuel rest1 (tokens ++ [String.mk token])

/-- Lines 289-346: the normalised line, from `line0`. -/
def normalize (line0 : List Char) : List Char :=
  let line1 := pad_redirect line0
  pad_amps (line1.length + 1) line1 0

/-- Lines 348-366: the array `tokens` of a normalised line. -/
def tokens_of (line : List Char) : List String :=
  tokenize (line.length + 1) line []

/-! ## The supervisor of `execute_line` (lines 430-468) -/

/-- How `execute_line` ends: it returns `rc`, or the process is left through
`Exit(status)`. -/
inductive Outcome where
  | ret (rc : Int)
  | exited (status : Int)
deriving DecidableEq, Repr

/-- The loop of lines 434-443: the arguments are the iterations left, `i`,
the shell state, `pids` and `num_forks`.  The return value is `1` when a
group made the loop return, `0` when the loop ran to its end. -/
def group_loop {σ : Type} (os : OS σ) (groups : List (List String)) :
    Nat → Nat → Shell σ → List Int → Nat → Option (GroupResult σ)
  | 0, _, sh, pids, num_forks => some { rc := 0, sh := sh, pids := pids, index := num_forks }
  | n + 1, i, sh, pids, num_forks =>
    match groups[i]? with
    | none => none
    | some g =>
      match execute_group os { sh with trace := sh.trace ++ [Event.call g] } g pids num_forks with
      | none => none
      | some r =>
        if r.rc ≠ 0 then some { rc := 1, sh := r.sh, pids := r.pids, index := r.index }
        else group_loop os groups n (i + 1) r.sh r.pids r.index

/-- The loop of lines 446-456 and the return after it: the arguments are the
iterations left, `i` and the shell state. -/
def wait_loop {σ : Type} (os : OS σ) (pids : List Int) :
    Nat → Nat → Shell σ → Outcome × Shell σ
  | 0, _, sh => (Outcome.ret 0, sh)
  | n + 1, i, sh =>
    let pid := pids.getD i 0
    let r := os.waitpid sh.os pid
    let sh1 := { sh with os := r.2, trace := sh.trace ++ [Event.waitpid pid r.1] }
    if r.1 = -1 then (Outcome.exited 1, { log_error sh1 with path := free_path })
    else wait_loop os pids n (i + 1) sh1

/-- Lines 430-468: the groups are run, then the children are reaped. -/
def run_groups {σ : Type} (os : OS σ) (sh : Shell σ) (groups : List (List String))
    (num_groups : Nat) : Option (Outcome × Shell σ) :=
  match group_loop os groups num_groups 0 sh (List.replicate num_groups 0) 0 with
  | none => none
  | some r =>
    if r.rc ≠ 0 then some (Outcome.ret 1, r.sh)
    else some (wait_loop os r.pids r.index 0 r.sh)

/-- `execute_line(line_)`. -/
def execute_line {σ : Type} (os : OS σ) (sh : Shell σ) (line_ : List Char) :
    Option (Outcome × Shell σ) :=
  match erase_tabs line_ 0 with
  | none => none
  | some buf0 =>
    if buf0.head? = some '\n' then some (Outcome.ret 0, sh)
    else
      let tokens := tokens_of (normalize (cstr buf0))
      if tokens.length = 0 then some (Outcome.ret 0, sh)
      else if count_groups tokens = 0 then some (Outcome.ret 0, sh)
      else run_groups os sh (build_groups tokens) (count_groups tokens)

/-! ## Reading the calls made -/

/-- The groups on which `execute_group` was called, in call order. -/
def calls (t : List Event) : List (List String) :=
  t.filterMap (fun e => match e with
    | Event.call g => some g
    | _ => none)

/-- The process handles passed to `waitpid`, in call order. -/
def waits (t : List Event) : List Int :=
  t.filterMap (fun e => match e with
    | Event.waitpid pid _ => some pid
    | _ => none)

/-- The results of the `fork` calls, in call order. -/
def forks (t : List Event) : List Int :=
  t.filterMap (fun e => match e with
    | Event.fork pid _ => some pid
    | _ => none)

/-- The number of errors reported. -/
def errors (t : List Event) : Nat := t.count Event.error

/-- The groups run one after the other as the specification words it, each
on the state the one before left, as long as each returns `0`: the state
after the last group, or `none` when a group returns non-zero. -/
def continue_all {σ : Type} (os : OS σ) :
    List (List String) → GroupResult σ → Option (GroupResult σ)
  | [], st => some st
  | g :: gs, st =>
    match execute_group os { st.sh with trace := st.sh.trace ++ [Event.call g] } g
        st.pids st.index with
    | some r => if r.rc = 0 then continue_all os gs r else none
    | none => none

/-- No two `&` of a line are next to each other. -/
def amps_apart (u : List Char) : Prop :=
  List.Chain' (fun a b => ¬ (a = '&' ∧ b = '&')) u

/-- The non-empty maximal space-free pieces of a line's content, as the
specification words the token list: the pieces between the spaces, the empty
pieces dropped. -/
def space_free_pieces (u : List Char) : List (List Char) :=
  (u.splitOn ' ').filter (fun w => w ≠ [])

/-- The line normaliser of `execute_line` as a whole (lines 266-346): the
tabs are erased, then the first `>` and every `&` are padded.  It is `none`
when the tab loop reads past the input. -/
def normalize_line (line_ : List Char) : Option (List Char) :=
  (erase_tabs line_ 0).map (fun buf => normalize (cstr buf))

/-- Every `&` of a line's content stands at the start or after a space, and
at the end or before a space: of two neighbours of which one is `&`, the
other is a space. -/
def amps_spaced (u : List Char) : Prop :=
  List.Chain' (fun a b => (a = '&' → b = ' ') ∧ (b = '&' → a = ' ')) u

/-! ## A system for the examples -/

/-- A system in which the paths of `exe` can be executed, the paths of `dirs`
are the existing directories, no other path exists, every `open` gives the
descriptor `3`, the `n`-th `fork` gives the process `n` and every `waitpid`
returns `wait_rc`. -/
def demo_os (exe dirs : List String) (wait_rc : Int) : OS Nat :=
  { access := fun _ f m =>
      match m with
      | Mode.X_OK => if f ∈ exe then 0 else -1
      | _ => if f ∈ dirs then 0 else -1
    stat := fun _ f => if f ∈ dirs then some true else none
    open_trunc := fun s _ => (3, s)
    open_creat := fun s _ => (3, s)
    chdir := fun s d => (if d ∈ dirs then 0 else -1, s)
    fork := fun s => (⟨(s : Int) + 1, by omega⟩, s + 1)
    waitpid := fun s _ => (wait_rc, s) }

/-- The shell state after `init_path()`, before any call. -/
def demo_sh : Shell Nat := { path := init_path, os := 0, trace := [] }

/-- A system like `demo_os exe [] 0` in which process creation fails: every
`fork` returns `-1`. -/
def fork_fail_os (exe : List String) : OS Nat :=
  { access := fun _ f m =>
      match m with
      | Mode.X_OK => if f ∈ exe then 0 else -1
      | _ => -1
    stat := fun _ _ => none
    open_trunc := fun s _ => (3, s)
    open_creat := fun s _ => (3, s)
    chdir := fun s _ => (-1, s)
    fork := fun s => (⟨-1, by decide⟩, s)
    waitpid := fun s _ => (-1, s) }

/-- An input line of 202 characters: 101 words `a` with one space between
them, and the newline. -/
def many_tokens_line : List Char :=
  (List.replicate 100 ['a', ' ']).flatten ++ ['a', '\n']

/-- An input line of 121 characters: 60 times `a&`, and the newline. -/
def many_amps_line : List Char :=
  (List.replicate 60 ['a', '&']).flatten ++ ['\n']

/-! ## Lemmas on the grouper -/

theorem drop_eq_getD_cons (tokens : List String) (b : Nat) (hb : b < tokens.length) :
    tokens.drop b = tokens.getD b "" :: tokens.drop (b + 1) := by
  rw [List.getD_eq_getElem _ _ hb]
  exact List.drop_eq_getElem_cons hb

theorem skip_amps_eq (tokens : List String) :
    ∀ (fuel begin : Nat), tokens.length ≤ begin + fuel →
      skip_amps tokens fuel begin
        = begin + ((tokens.drop begin).takeWhile (fun t => decide (t = "&"))).length := by
  intro fuel
  induction fuel with
  | zero =>
    intro b h
    have : tokens.drop b = [] := List.drop_eq_nil_of_le (by omega)
    simp [skip_amps, this]
  | succ f ih =>
    intro b h
    unfold skip_amps
    by_cases hb : b < tokens.length
    · have hd := drop_eq_getD_cons tokens b hb
      by_cases ha : tokens.getD b "" = "&"
      · rw [if_pos ⟨hb, ha⟩, ih (b + 1) (by omega), hd]
        generalize tokens.getD b "" = x at ha
        subst ha
        simp [List.takeWhile_cons]
        omega
      · rw [if_neg (fun hh => ha hh.2), hd]
        generalize tokens.getD b "" = x at ha
        simp [List.takeWhile_cons, ha]
    · rw [if_neg (fun hh => hb hh.1)]
      have : tokens.drop b = [] := List.drop_eq_nil_of_le (by omega)
      simp [this]

theorem scan_run_eq (tokens : List String) :
    ∀ (fuel end_ : Nat), tokens.length ≤ end_ + fuel →
      scan_run tokens fuel end_
        = end_ + ((tokens.drop end_).takeWhile (fun t => !decide (t = "&"))).length := by
  intro fuel
  induction fuel with
  | zero =>
    intro b h
    have : tokens.drop b = [] := List.drop_eq_nil_of_le (by omega)
    simp [scan_run, this]
  | succ f ih =>
    intro b h
    unfold scan_run
    by_cases hb : b < tokens.length
    · have hd := drop_eq_getD_cons tokens b hb
      by_cases ha : tokens.getD b "" = "&"
      · rw [if_neg (fun hh => hh.2 ha), hd]
        generalize tokens.getD b "" = x at ha
        subst ha
        simp [List.takeWhile_cons]
      · rw [if_pos ⟨hb, ha⟩, ih (b + 1) (by omega), hd]
        generalize tokens.getD b "" = x at ha
        simp [List.takeWhile_cons, ha]
        omega
    · rw [if_neg (fun hh => hb hh.1)]
      have : tokens.drop b = [] := List.drop_eq_nil_of_le (by omega)
      simp [this]

theorem copy_group_eq (tokens : List String) (b : Nat) :
    ∀ sz, b + sz ≤ tokens.length → copy_group tokens b sz = (tokens.drop b).take sz := by
  intro sz
  induction sz with
  | zero => intro _; simp [copy_group]
  | succ k ih =>
    intro h
    have ih1 := ih (by omega)
    unfold copy_group at ih1 ⊢
    rw [List.range_succ, List.map_append, ih1, List.take_succ]
    have hk : k < (tokens.drop b).length := by simp; omega
    have hb : b + k < tokens.length := by omega
    simp [List.getElem?_eq_getElem hk, List.getElem?_eq_getElem hb]

theorem dropWhile_cons_head {α : Type} (p : α → Bool) (l : List α) (x : α) (xs : List α)
    (h : l.dropWhile p = x :: xs) : p x = false := by
  induction l with
  | nil => simp at h
  | cons a as ih =>
    rw [List.dropWhile_cons] at h
    split at h
    · exact ih h
    · rename_i hp
      injection h with h1 h2
      subst h1
      simpa using hp

theorem drop_length_takeWhile {α : Type} (p : α → Bool) (l : List α) :
    l.drop (l.takeWhile p).length = l.dropWhile p := by
  induction l with
  | nil => simp
  | cons x xs ih =>
    by_cases hx : p x = true
    · simp [List.takeWhile_cons, List.dropWhile_cons, hx, ih]
    · simp [List.takeWhile_cons, List.dropWhile_cons, hx]

theorem take_length_takeWhile {α : Type} (p : α → Bool) (l : List α) :
    l.take (l.takeWhile p).length = l.takeWhile p := by
  induction l with
  | nil => simp
  | cons x xs ih =>
    by_cases hx : p x = true
    · simp [List.takeWhile_cons, hx, ih]
    · simp [List.takeWhile_cons, hx]

theorem drop_skip (tokens : List String) (b : Nat) :
    tokens.drop (b + ((tokens.drop b).takeWhile (fun t => decide (t = "&"))).length)
      = (tokens.drop b).dropWhile (fun t => decide (t = "&")) := by
  rw [← drop_length_takeWhile, List.drop_drop]

theorem drop_scan (tokens : List String) (b : Nat) :
    tokens.drop (b + ((tokens.drop b).takeWhile (fun t => !decide (t = "&"))).length)
      = (tokens.drop b).dropWhile (fun t => !decide (t = "&")) := by
  rw [← drop_length_takeWhile, List.drop_drop]

/-- The pieces of a list cut at the elements satisfying `p`: the first piece
and the pieces of what follows the first cut. -/
theorem splitOnP_eq_takeWhile_cons (p : String → Bool) (l : List String) :
    l.splitOnP p = l.takeWhile (fun t => !p t) ::
      (match l.dropWhile (fun t => !p t) with
        | [] => []
        | _ :: r => r.splitOnP p) := by
  induction l with
  | nil => simp
  | cons x xs ih =>
    rw [List.splitOnP_cons]
    by_cases hx : p x = true
    · simp [hx, List.takeWhile_cons, List.dropWhile_cons]
    · simp only [hx, if_false]
      rw [ih]
      simp [hx, List.takeWhile_cons, List.dropWhile_cons, List.modifyHead]

theorem maximal_runs_nil : maximal_runs [] = [] := by
  simp [maximal_runs, List.splitOn]

theorem maximal_runs_cons_amp (xs : List String) :
    maximal_runs ("&" :: xs) = maximal_runs xs := by
  simp [maximal_runs, List.splitOn, List.splitOnP_cons]

theorem maximal_runs_cons_ne (x : String) (xs : List String) (hx : x ≠ "&") :
    maximal_runs (x :: xs)
      = (x :: xs).takeWhile (fun t => !decide (t = "&"))
          :: maximal_runs ((x :: xs).dropWhile (fun t => !decide (t = "&"))) := by
  unfold maximal_runs List.splitOn
  rw [splitOnP_eq_takeWhile_cons]
  have hb : ∀ t : String, (t == "&") = decide (t = "&") := fun _ => rfl
  simp only [hb]
  have hne : (x :: xs).takeWhile (fun t => !decide (t = "&")) ≠ [] := by
    simp [List.takeWhile_cons, hx]
  rw [List.filter_cons, if_pos (by simpa using hne)]
  congr 1
  cases hd : (x :: xs).dropWhile (fun t => !decide (t = "&")) with
  | nil => simp [List.splitOnP_nil]
  | cons c r =>
    have hc : (!decide (c = "&")) = false := by
      have := List.head_dropWhile_not (fun t => !decide (t = "&")) (x :: xs) (by simp [hd])
      simpa [hd] using this
    have hc1 : c = "&" := by simpa using hc
    subst hc1
    simp [List.splitOnP_cons]

theorem maximal_runs_dropWhile (l : List String) :
    maximal_runs (l.dropWhile (fun t => decide (t = "&"))) = maximal_runs l := by
  induction l with
  | nil => simp
  | cons x xs ih =>
    by_cases hx : x = "&"
    · subst hx
      simp only [List.dropWhile_cons, decide_True, if_true]
      rw [ih, maximal_runs_cons_amp]
    · simp [List.dropWhile_cons, hx]

/-- What one turn of the sliding window finds at `b`: either only operators
are left, or a run starts at `b1` and ends before `e1`. -/
theorem window_step (tokens : List String) (b : Nat) :
    let b1 := skip_amps tokens tokens.length b
    let e1 := scan_run tokens tokens.length b1
    b ≤ b1 ∧
    (tokens.length ≤ b1 → maximal_runs (tokens.drop b) = []) ∧
    (b1 < tokens.length →
      b1 < e1 ∧ e1 ≤ tokens.length ∧
      maximal_runs (tokens.drop b)
        = copy_group tokens b1 (e1 - b1) :: maximal_runs (tokens.drop e1)) := by
  intro b1 e1
  have hb1 : b1 = b + ((tokens.drop b).takeWhile (fun t => decide (t = "&"))).length :=
    skip_amps_eq tokens tokens.length b (by omega)
  have he1 : e1 = b1 + ((tokens.drop b1).takeWhile (fun t => !decide (t = "&"))).length :=
    scan_run_eq tokens tokens.length b1 (by omega)
  have hdrop : tokens.drop b1 = (tokens.drop b).dropWhile (fun t => decide (t = "&")) := by
    rw [hb1]; exact drop_skip tokens b
  refine ⟨by omega, ?_, ?_⟩
  · intro h
    rw [← maximal_runs_dropWhile, ← hdrop, List.drop_eq_nil_of_le h, maximal_runs_nil]
  · intro h
    obtain ⟨x, xs, hx⟩ : ∃ x xs, tokens.drop b1 = x :: xs := by
      cases hd : tokens.drop b1 with
      | nil =>
        have := List.drop_eq_nil_iff.mp hd
        omega
      | cons x xs => exact ⟨x, xs, rfl⟩
    have hxne : x ≠ "&" := by
      have hne : (tokens.drop b).dropWhile (fun t => decide (t = "&")) ≠ [] := by
        rw [← hdrop, hx]; simp
      have := List.head_dropWhile_not (fun t => decide (t = "&")) (tokens.drop b) hne
      simp only [← hdrop, hx, List.head_cons] at this
      simpa using this
    have hlen : ((tokens.drop b1).takeWhile (fun t => !decide (t = "&"))).length
        ≤ (tokens.drop b1).length := by
      have := congrArg List.length
        (List.takeWhile_append_dropWhile (fun t => !decide (t = "&")) (tokens.drop b1))
      simp only [List.length_append] at this
      omega
    have hpos : 0 < ((tokens.drop b1).takeWhile (fun t => !decide (t = "&"))).length := by
      rw [hx]; simp [List.takeWhile_cons, hxne]
    have hdl : (tokens.drop b1).length = tokens.length - b1 := by simp
    refine ⟨by omega, by omega, ?_⟩
    rw [copy_group_eq tokens b1 _ (by omega)]
    have hsz : e1 - b1 = ((tokens.drop b1).takeWhile (fun t => !decide (t = "&"))).length := by
      omega
    rw [hsz, take_length_takeWhile, he1, drop_scan, ← maximal_runs_dropWhile (tokens.drop b),
      ← hdrop, hx]
    exact maximal_runs_cons_ne x xs hxne

theorem build_loop_eq (tokens : List String) :
    ∀ (fuel b : Nat) (groups : List (List String)),
      b ≤ tokens.length → tokens.length < b + fuel →
      build_loop tokens fuel b b groups = groups ++ maximal_runs (tokens.drop b) := by
  intro fuel
  induction fuel with
  | zero => intro b _ h1 h2; omega
  | succ f ih =>
    intro b groups h1 h2
    obtain ⟨hle, hend, hrun⟩ := window_step tokens b
    unfold build_loop
    by_cases hb : b < tokens.length
    · rw [if_pos hb]
      simp only []
      by_cases hb1 : skip_amps tokens tokens.length b ≥ tokens.length
      · rw [if_pos hb1, hend hb1, List.append_nil]
      · rw [if_neg hb1]
        obtain ⟨hlt, hle2, heq⟩ := hrun (by omega)
        rw [ih _ _ hle2 (by omega), heq]
        simp
    · rw [if_neg hb, List.drop_eq_nil_of_le (by omega), maximal_runs_nil, List.append_nil]

theorem count_loop_eq (tokens : List String) :
    ∀ (fuel b e k : Nat) (groups : List (List String)),
      count_loop tokens fuel b e k + groups.length
        = (build_loop tokens fuel b e groups).length + k := by
  intro fuel
  induction fuel with
  | zero => intro b e k groups; simp [count_loop, build_loop]; omega
  | succ f ih =>
    intro b e k groups
    unfold count_loop build_loop
    by_cases he : e < tokens.length
    · rw [if_pos he, if_pos he]
      simp only []
      by_cases hb1 : skip_amps tokens tokens.length b ≥ tokens.length
      · rw [if_pos hb1, if_pos hb1]; omega
      · rw [if_neg hb1, if_neg hb1]
        have := ih (scan_run tokens tokens.length (skip_amps tokens tokens.length b))
          (scan_run tokens tokens.length (skip_amps tokens tokens.length b)) (k + 1)
          (groups ++ [copy_group tokens (skip_amps tokens tokens.length b)
            (scan_run tokens tokens.length (skip_amps tokens tokens.length b)
              - skip_amps tokens tokens.length b)])
        simp only [List.length_append, List.length_singleton] at this
        omega
    · rw [if_neg he, if_neg he]; omega

theorem build_groups_eq (tokens : List String) : build_groups tokens = maximal_runs tokens := by
  unfold build_groups
  rw [build_loop_eq tokens _ 0 [] (by omega) (by omega)]
  simp

theorem count_groups_eq (tokens : List String) :
    count_groups tokens = (build_groups tokens).length := by
  have := count_loop_eq tokens (tokens.length + 1) 0 0 0 []
  simpa [count_groups, build_groups] using this

/-- Induction along the runs of a token list. -/
theorem runs_induction (P : List String → Prop) (hnil : P [])
    (hamp : ∀ xs, P xs → P ("&" :: xs))
    (hrun : ∀ x xs, x ≠ "&" →
      P ((x :: xs).dropWhile (fun t => !decide (t = "&"))) → P (x :: xs)) :
    ∀ l, P l := by
  intro l
  generalize hn : l.length = n
  induction n using Nat.strong_induction_on generalizing l with
  | _ n ih =>
    cases l with
    | nil => exact hnil
    | cons x xs =>
      by_cases hx : x = "&"
      · subst hx
        exact hamp xs (ih xs.length (by simp at hn; omega) xs rfl)
      · apply hrun x xs hx
        refine ih _ ?_ _ rfl
        have h1 : (x :: xs).dropWhile (fun t => !decide (t = "&"))
            = xs.dropWhile (fun t => !decide (t = "&")) := by
          simp [List.dropWhile_cons, hx]
        have h2 := congrArg List.length
          (List.takeWhile_append_dropWhile (fun t => !decide (t = "&")) xs)
        simp only [List.length_append] at h2
        rw [h1]
        simp only [List.length_cons] at hn
        omega

theorem maximal_runs_mem (l : List String) :
    ∀ g ∈ maximal_runs l, g ≠ [] ∧ "&" ∉ g := by
  induction l using runs_induction with
  | hnil => simp [maximal_runs_nil]
  | hamp xs ih => rw [maximal_runs_cons_amp]; exact ih
  | hrun x xs hx ih =>
    rw [maximal_runs_cons_ne x xs hx]
    intro g hg
    rcases List.mem_cons.mp hg with h | h
    · subst h
      refine ⟨by simp [List.takeWhile_cons, hx], ?_⟩
      intro hmem
      have := List.mem_takeWhile_imp hmem
      simp at this
    · exact ih g h

theorem maximal_runs_join (l : List String) :
    (maximal_runs l).flatten = l.filter (fun t => t ≠ "&") := by
  induction l using runs_induction with
  | hnil => simp [maximal_runs_nil]
  | hamp xs ih => rw [maximal_runs_cons_amp, ih]; simp
  | hrun x xs hx ih =>
    rw [maximal_runs_cons_ne x xs hx, List.flatten_cons, ih]
    conv_rhs =>
      rw [← List.takeWhile_append_dropWhile (fun t => !decide (t = "&")) (x :: xs)]
    rw [List.filter_append]
    congr 1
    symm
    rw [List.filter_eq_self]
    intro a ha
    have := List.mem_takeWhile_imp ha
    simpa using this

/-! ## Lemmas on `execute_group` -/

theorem scan_fold (g : List String) :
    ∀ st0 : RedirScan,
      (g.foldl scan_step st0).i = st0.i + g.length ∧
      (g.foldl scan_step st0).num_redir_ops = st0.num_redir_ops + g.count ">" ∧
      (0 < st0.num_redir_ops →
        (g.foldl scan_step st0).num_redir_files = st0.num_redir_files + g.length) ∧
      (st0.num_redir_ops = 0 →
        (g.foldl scan_step st0).num_redir_files = st0.num_redir_files + tokens_after_redir g) ∧
      (g.count ">" = 0 → (g.foldl scan_step st0).redir_op_index = st0.redir_op_index) ∧
      (g.count ">" = 1 →
        (g.foldl scan_step st0).redir_op_index
          = some (st0.i + (g.takeWhile (fun t => t ≠ ">")).length)) := by
  induction g with
  | nil => intro st0; simp [tokens_after_redir]
  | cons x xs ih =>
    intro st0
    obtain ⟨h1, h2, h3, h4, h5, h6⟩ := ih (scan_step st0 x)
    simp only [List.foldl_cons]
    by_cases hx : x = ">"
    · subst hx
      have e1 : (scan_step st0 ">").i = st0.i + 1 := by simp [scan_step]
      have e2 : (scan_step st0 ">").num_redir_ops = st0.num_redir_ops + 1 := by
        simp [scan_step]
      have e3 : (scan_step st0 ">").num_redir_files
          = if st0.num_redir_ops > 0 then st0.num_redir_files + 1 else st0.num_redir_files := by
        simp [scan_step]
      have e4 : (scan_step st0 ">").redir_op_index = some st0.i := by simp [scan_step]
      refine ⟨by rw [h1, e1]; simp; omega, by rw [h2, e2]; simp; omega, ?_, ?_, ?_, ?_⟩
      · intro hp
        rw [h3 (by omega), e3, if_pos hp]; simp; omega
      · intro hz
        rw [h3 (by omega), e3, if_neg (by omega)]
        simp [tokens_after_redir]
      · intro hc; simp at hc
      · intro hc
        have hc0 : xs.count ">" = 0 := by simp at hc; simpa using hc
        rw [h5 hc0, e4]; simp
    · have e1 : (scan_step st0 x).i = st0.i + 1 := by simp [scan_step, hx]
      have e2 : (scan_step st0 x).num_redir_ops = st0.num_redir_ops := by
        simp [scan_step, hx]
      have e3 : (scan_step st0 x).num_redir_files
          = if st0.num_redir_ops > 0 then st0.num_redir_files + 1 else st0.num_redir_files := by
        simp [scan_step, hx]
      have e4 : (scan_step st0 x).redir_op_index = st0.redir_op_index := by
        simp [scan_step, hx]
      have hcount : (x :: xs).count ">" = xs.count ">" := by
        simp [List.count_cons, hx]
      refine ⟨by rw [h1, e1]; simp; omega, by rw [h2, e2, hcount], ?_, ?_, ?_, ?_⟩
      · intro hp
        rw [h3 (by omega), e3, if_pos hp]; simp; omega
      · intro hz
        rw [h4 (by omega), e3, if_neg (by omega)]
        simp [tokens_after_redir, List.dropWhile_cons, hx]
      · intro hc
        rw [h5 (by omega), e4]
      · intro hc
        rw [h6 (by omega), e1]
        simp [List.takeWhile_cons, hx]; omega

theorem scan_redir_spec (group : List String) :
    (scan_redir group).i = group.length ∧
    (scan_redir group).num_redir_ops = group.count ">" ∧
    (scan_redir group).num_redir_files = tokens_after_redir group ∧
    (group.count ">" = 0 → (scan_redir group).redir_op_index = none) ∧
    (group.count ">" = 1 →
      (scan_redir group).redir_op_index
        = some (group.takeWhile (fun t => t ≠ ">")).length) := by
  obtain ⟨h1, h2, _, h4, h5, h6⟩ := scan_fold group
    { i := 0, redir_op_index := none, num_redir_ops := 0, num_redir_files := 0 }
  refine ⟨by simpa [scan_redir] using h1, by simpa [scan_redir] using h2,
    by simpa [scan_redir] using h4 rfl, by simpa [scan_redir] using h5, ?_⟩
  intro hc
  simpa [scan_redir] using h6 hc

theorem tokens_after_redir_of_count_zero (group : List String) (h : group.count ">" = 0) :
    tokens_after_redir group = 0 := by
  have : group.dropWhile (fun t => t ≠ ">") = [] := by
    rw [List.dropWhile_eq_nil_iff]
    intro x hx
    have : x ≠ ">" := by
      rintro rfl
      exact (List.count_eq_zero.mp h) hx
    simpa using this
  unfold tokens_after_redir
  rw [this]
  rfl

theorem redir_invalid_iff (group : List String) :
    redir_invalid (scan_redir group) = true ↔
      (2 ≤ group.count ">" ∨ (group.count ">" = 1 ∧ 2 ≤ tokens_after_redir group) ∨
        (group.count ">" = 1 ∧ tokens_after_redir group = 0)) := by
  obtain ⟨_, h2, h3, _, _⟩ := scan_redir_spec group
  unfold redir_invalid
  rw [h2, h3]
  have h0 := tokens_after_redir_of_count_zero group
  simp only [Bool.or_eq_true, Bool.and_eq_true, decide_eq_true_eq]
  constructor
  · rintro ((h | h) | ⟨h, h'⟩)
    · left; omega
    · by_cases hc : group.count ">" = 0
      · have := h0 hc; omega
      · by_cases hc1 : group.count ">" = 1
        · right; left; exact ⟨hc1, by omega⟩
        · left; omega
    · by_cases hc1 : group.count ">" = 1
      · right; right; exact ⟨hc1, h'⟩
      · left; omega
  · rintro (h | ⟨h, h'⟩ | ⟨h, h'⟩)
    · left; left; omega
    · left; right; omega
    · right; exact ⟨by omega, h'⟩

theorem group_at_lt (group : List String) (j : Nat) (h : j < group.length) :
    group_at group j = Slot.str (group.getD j "") := by
  simp [group_at, List.getElem?_eq_getElem h]

theorem writeAt_length {α : Type} (xs : List α) (v pad : α) :
    writeAt xs xs.length v pad = xs ++ [v] := by
  simp [writeAt]

theorem copy_args_eq (group : List String) :
    ∀ (n j : Nat) (A : List Slot) (m : Nat), A.length = j → j + n ≤ group.length →
      copy_args group n j (A, m) = (A ++ ((group.drop j).take n).map Slot.str, m + n) := by
  intro n
  induction n with
  | zero => intro j A m _ _; simp [copy_args]
  | succ k ih =>
    intro j A m hA hj
    unfold copy_args
    have hlt : j < group.length := by omega
    simp only []
    rw [group_at_lt group j hlt, ← hA, writeAt_length, ih (A.length + 1) _ _ (by simp) (by omega)]
    rw [hA, drop_eq_getD_cons group j hlt]
    simp
    omega

theorem copy_then_terminate (group : List String) (bound : Nat) (h1 : 1 ≤ bound)
    (h2 : bound ≤ group.length) :
    (writeAt (copy_args group (bound - 1) 1 ([], 0)).1 bound Slot.null Slot.uninit,
      (copy_args group (bound - 1) 1 ([], 0)).2)
      = (Slot.uninit :: ((group.drop 1).take (bound - 1)).map Slot.str ++ [Slot.null],
          bound - 1) := by
  obtain ⟨n, rfl⟩ : ∃ n, bound = n + 1 := ⟨bound - 1, by omega⟩
  cases n with
  | zero => simp [copy_args, writeAt]
  | succ k =>
    have hlt : 1 < group.length := by omega
    have hstep : copy_args group (k + 1 + 1 - 1) 1 ([], 0)
        = copy_args group k 2 ([Slot.uninit, Slot.str (group.getD 1 "")], 1) := by
      show copy_args group (k + 1) 1 ([], 0) = _
      rw [copy_args]
      simp only []
      rw [group_at_lt group 1 hlt]
      simp [writeAt]
    rw [hstep, copy_args_eq group k 2 _ 1 (by simp) (by omega)]
    have hlen : ([Slot.uninit, Slot.str (group.getD 1 "")]
        ++ ((group.drop 2).take k).map Slot.str).length = k + 1 + 1 := by
      simp; omega
    simp only []
    rw [← hlen, writeAt_length, hlen, drop_eq_getD_cons group 1 hlt]
    simp
    omega

/-- A group without `">"` goes straight to the dispatch, its tokens after the
first being the arguments. -/
theorem execute_group_plain {σ : Type} (os : OS σ) (sh : Shell σ) (cmd : String)
    (rest : List String) (pids : List Int) (index : Nat) (h : ">" ∉ cmd :: rest) :
    execute_group os sh (cmd :: rest) pids index
      = run_command os sh (cmd :: rest) none
          (Slot.uninit :: rest.map Slot.str ++ [Slot.null]) rest.length (-1) pids index := by
  have hc : (cmd :: rest).count ">" = 0 := List.count_eq_zero.mpr h
  obtain ⟨hi, _, _, hidx, _⟩ := scan_redir_spec (cmd :: rest)
  have hv : redir_invalid (scan_redir (cmd :: rest)) = false := by
    rw [← Bool.not_eq_true, redir_invalid_iff]; omega
  have hcomp := copy_then_terminate (cmd :: rest) (cmd :: rest).length (by simp) (le_refl _)
  unfold execute_group
  simp only [hv, Bool.false_eq_true, if_false]
  rw [hidx hc]
  simp only [compose_args, hidx hc, hi]
  have h1 := congrArg Prod.fst hcomp
  have h2 := congrArg Prod.snd hcomp
  simp only [List.length_cons, Nat.add_sub_cancel, List.drop_succ_cons, List.drop_zero,
    List.take_length] at h1 h2
  simp only [List.length_cons, Nat.add_sub_cancel]
  rw [h1, h2]

theorem scan_redir_shape (pre : List String) (f : String) (h : ">" ∉ pre) (hf : f ≠ ">") :
    (scan_redir (pre ++ [">", f])).redir_op_index = some pre.length ∧
    redir_invalid (scan_redir (pre ++ [">", f])) = false := by
  have hc : (pre ++ [">", f]).count ">" = 1 := by
    rw [List.count_append, List.count_eq_zero.mpr h]
    simp [List.count_cons, hf]
  have hall : ∀ a ∈ pre, (fun t : String => decide (t ≠ ">")) a = true := by
    intro a ha
    have : a ≠ ">" := by rintro rfl; exact h ha
    simpa using this
  have htw : (pre ++ [">", f]).takeWhile (fun t => decide (t ≠ ">")) = pre := by
    rw [List.takeWhile_append_of_pos hall]
    simp [List.takeWhile_cons]
  have hdw : (pre ++ [">", f]).dropWhile (fun t => decide (t ≠ ">")) = [">", f] := by
    rw [List.dropWhile_append_of_pos hall]
    simp [List.dropWhile_cons]
  have hafter : tokens_after_redir (pre ++ [">", f]) = 1 := by
    unfold tokens_after_redir
    rw [hdw]
    rfl
  obtain ⟨_, _, _, _, hidx⟩ := scan_redir_spec (pre ++ [">", f])
  refine ⟨?_, ?_⟩
  · rw [hidx hc, htw]
  · rw [← Bool.not_eq_true, redir_invalid_iff]
    omega

/-- A group with one `">"` after its command and one token after the `">"`
has that token opened, and goes to the dispatch with the tokens between the
command and the `">"` as arguments. -/
theorem execute_group_redir {σ : Type} (os : OS σ) (sh : Shell σ) (cmd : String)
    (rest : List String) (f : String) (pids : List Int) (index : Nat)
    (h : ">" ∉ cmd :: rest) (hf : f ≠ ">") :
    execute_group os sh (cmd :: rest ++ [">", f]) pids index
      = match open_redir os sh f with
        | (none, sh1) => some { rc := 0, sh := sh1, pids := pids, index := index }
        | (some fd, sh1) =>
          run_command os sh1 (cmd :: rest ++ [">", f]) (some (rest.length + 1))
            (Slot.uninit :: rest.map Slot.str ++ [Slot.null]) rest.length fd pids index := by
  obtain ⟨hidx, hv⟩ := scan_redir_shape (cmd :: rest) f h hf
  have hg : (cmd :: rest) ++ [">", f] = cmd :: rest ++ [">", f] := rfl
  rw [hg] at hidx hv
  have hcomp := copy_then_terminate (cmd :: rest ++ [">", f]) (rest.length + 1) (by omega)
    (by simp)
  have h1 := congrArg Prod.fst hcomp
  have h2 := congrArg Prod.snd hcomp
  have htake : List.take rest.length (rest ++ [">", f]) = rest := List.take_left _ _
  have hdrop : List.drop 1 (cmd :: rest ++ [">", f]) = rest ++ [">", f] := rfl
  simp only [Nat.add_sub_cancel, hdrop, htake] at h1 h2
  have hat : group_at (cmd :: rest ++ [">", f]) (rest.length + 1 + 1) = Slot.str f := by
    unfold group_at
    rw [List.getElem?_append_right (by simp)]
    simp
  unfold execute_group
  simp only [hv, Bool.false_eq_true, if_false]
  simp only [compose_args, hidx, List.length_cons, hat, Nat.add_sub_cancel]
  rw [h1, h2]

theorem run_command_rc {σ : Type} (os : OS σ) (sh : Shell σ) (group : List String)
    (ridx : Option Nat) (args : List Slot) (num_args : Nat) (fd : Int) (pids : List Int)
    (index : Nat) (r : GroupResult σ)
    (h : run_command os sh group ridx args num_args fd pids index = some r) :
    r.rc = 1 ↔ group.head? = some "exit" := by
  cases group with
  | nil => simp [run_command, group_at] at h
  | cons cmd rest =>
    simp only [run_command, group_at, List.getElem?_cons_zero] at h
    simp only [List.head?_cons, Option.some.injEq]
    split at h
    · simp at h; subst h; simpa
    · split at h
      · split at h
        · simp at h; subst h; simpa
        · split at h
          · simp at h; subst h; simpa
          · simp at h
      · split at h
        · split at h
          · simp at h; subst h; simpa
          · simp at h
        · split at h
          · simp at h; subst h; simpa
          · simp at h; subst h; simpa

theorem argv_terminated (xs : List String) :
    argv (xs.map Slot.str ++ [Slot.null]) = some xs := by
  induction xs with
  | nil => rfl
  | cons x xs ih => simp [argv, ih]

/-- The dispatch of a command that is no builtin and that resolves to
`cmd1`: a child is created and its handle recorded. -/
theorem run_command_launch {σ : Type} (os : OS σ) (sh : Shell σ) (cmd : String)
    (tail : List String) (ridx : Option Nat) (args : List Slot) (num_args : Nat) (fd : Int)
    (pids : List Int) (index : Nat) (cmd1 : String)
    (hb : cmd ≠ "exit" ∧ cmd ≠ "cd" ∧ cmd ≠ "path")
    (hr : resolve os sh.os sh.path cmd = some cmd1) :
    run_command os sh (cmd :: tail) ridx (Slot.uninit :: args) num_args fd pids index
      = some { rc := 0,
               sh := { sh with
                 os := (os.fork sh.os).2,
                 trace := sh.trace ++ [Event.fork (os.fork sh.os).1.val
                   { cmd := cmd1, args := Slot.str cmd :: args,
                     redirect := if ridx ≠ none then some fd else none }] },
               pids := writeAt pids index (os.fork sh.os).1.val 0,
               index := index + 1 } := by
  obtain ⟨h1, h2, h3⟩ := hb
  simp [run_command, group_at, h1, h2, h3, hr, writeAt]

/-- The dispatch of a command that is no builtin and that does not resolve:
an error is reported. -/
theorem run_command_unresolved {σ : Type} (os : OS σ) (sh : Shell σ) (cmd : String)
    (tail : List String) (ridx : Option Nat) (args : List Slot) (num_args : Nat) (fd : Int)
    (pids : List Int) (index : Nat)
    (hb : cmd ≠ "exit" ∧ cmd ≠ "cd" ∧ cmd ≠ "path")
    (hr : resolve os sh.os sh.path cmd = none) :
    run_command os sh (cmd :: tail) ridx args num_args fd pids index
      = some { rc := 0, sh := log_error sh, pids := pids, index := index } := by
  obtain ⟨h1, h2, h3⟩ := hb
  simp [run_command, group_at, h1, h2, h3, hr]

/-- A group that passes the check of lines 102-103 has no `">"`, or ends in
one `">"` and one token after it. -/
theorem valid_group_shape (group : List String)
    (h : redir_invalid (scan_redir group) = false) :
    ">" ∉ group ∨ ∃ pre f, group = pre ++ [">", f] ∧ ">" ∉ pre ∧ f ≠ ">" := by
  have hiff := redir_invalid_iff group
  rw [h] at hiff
  have hnot : ¬ (2 ≤ group.count ">" ∨ (group.count ">" = 1 ∧ 2 ≤ tokens_after_redir group) ∨
      (group.count ">" = 1 ∧ tokens_after_redir group = 0)) := fun hh => by
    have := hiff.mpr hh
    simp at this
  by_cases hc : group.count ">" = 0
  · left; exact List.count_eq_zero.mp hc
  · right
    have hc1 : group.count ">" = 1 := by omega
    have ha : tokens_after_redir group = 1 := by omega
    have hsplit := List.takeWhile_append_dropWhile (fun t => decide (t ≠ ">")) group
    have hpre : ">" ∉ group.takeWhile (fun t => decide (t ≠ ">")) := by
      intro hm
      have := List.mem_takeWhile_imp hm
      simp at this
    cases hd : group.dropWhile (fun t => decide (t ≠ ">")) with
    | nil =>
      rw [hd, List.append_nil] at hsplit
      rw [hsplit] at hpre
      have := List.count_eq_zero.mpr hpre
      omega
    | cons x xs =>
      have hx : x = ">" := by
        have := dropWhile_cons_head (fun t => decide (t ≠ ">")) group x xs hd
        simpa using this
      subst hx
      have hxs : xs.length = 1 := by
        have : tokens_after_redir group = xs.length := by
          unfold tokens_after_redir
          rw [hd]
          rfl
        omega
      obtain ⟨f, rfl⟩ := List.length_eq_one.mp hxs
      refine ⟨_, f, by rw [← hd, hsplit], hpre, ?_⟩
      rintro rfl
      rw [← hsplit, hd, List.count_append, List.count_eq_zero.mpr hpre] at hc1
      simp at hc1

theorem search_loop_eq {σ : Type} (os : OS σ) (s : σ) (path : List String) (cmd : String) :
    ∀ (n i : Nat), i + n = path.length →
      search_loop os s path cmd n i
        = ((path.drop i).map (fun dir => dir ++ "/" ++ cmd)).find? (executable os s) := by
  intro n
  induction n with
  | zero =>
    intro i h
    rw [List.drop_eq_nil_of_le (by omega)]
    rfl
  | succ k ih =>
    intro i h
    have hlt : i < path.length := by omega
    rw [search_loop, drop_eq_getD_cons path i hlt, List.map_cons, List.find?_cons]
    by_cases hx : os.access s (path.getD i "" ++ "/" ++ cmd) Mode.X_OK ≠ -1
    · have he : executable os s (path.getD i "" ++ "/" ++ cmd) = true := by
        simpa [executable] using hx
      rw [if_pos hx, he]
    · have he : executable os s (path.getD i "" ++ "/" ++ cmd) = false := by
        simpa [executable] using hx
      rw [if_neg hx, he, ih (i + 1) (by omega)]

theorem resolve_eq {σ : Type} (os : OS σ) (s : σ) (path : List String) (cmd : String) :
    resolve os s path cmd = resolve_ref (executable os s) path cmd := by
  unfold resolve resolve_ref
  by_cases hx : os.access s cmd Mode.X_OK = -1
  · have he : executable os s cmd = false := by simpa [executable] using hx
    rw [if_pos hx, he, search_loop_eq os s path cmd path.length 0 (by omega)]
    simp
  · have he : executable os s cmd = true := by simpa [executable] using hx
    rw [if_neg hx, he]
    rfl

theorem path_loop_eq (args : List String) (A : List Slot)
    (hA : ∀ i, i < args.length → A.getD (i + 1) Slot.uninit = Slot.str (args.getD i "")) :
    ∀ (n i : Nat) (path : List String), i + n = args.length → path.length + n ≤ MAX_PATHS + 1 →
      path_loop A n i path = some (true, path ++ args.drop i) := by
  intro n
  induction n with
  | zero =>
    intro i path h _
    rw [List.drop_eq_nil_of_le (by omega)]
    simp [path_loop]
  | succ k ih =>
    intro i path h hp
    have hlt : i < args.length := by omega
    have happ : append_path path (args.getD i "") = (0, path ++ [args.getD i ""]) := by
      unfold append_path
      rw [if_neg (by omega)]
    rw [path_loop, hA i hlt]
    simp only [happ]
    rw [if_neg (by decide), ih (i + 1) _ (by omega) (by simp; omega),
      drop_eq_getD_cons args i hlt]
    simp

theorem args_getD_succ (args : List String) (i : Nat) (h : i < args.length) :
    (Slot.uninit :: args.map Slot.str ++ [Slot.null]).getD (i + 1) Slot.uninit
      = Slot.str (args.getD i "") := by
  have h1 : i < (args.map Slot.str).length := by simpa using h
  simp [List.getD_eq_getElem?_getD, List.getElem?_append_left h1, List.getElem?_eq_getElem h]

/-- The builtin `path` without redirection installs its arguments as the
registry. -/
theorem execute_group_path {σ : Type} (os : OS σ) (sh : Shell σ) (args : List String)
    (pids : List Int) (index : Nat) (hno : ">" ∉ args) (hn : args.length ≤ MAX_PATHS) :
    execute_group os sh ("path" :: args) pids index
      = some { rc := 0, sh := { sh with path := args }, pids := pids, index := index } := by
  have hmem : ">" ∉ "path" :: args := by
    simp only [List.mem_cons, not_or]
    exact ⟨by decide, hno⟩
  rw [execute_group_plain os sh "path" args pids index hmem]
  have hloop := path_loop_eq args (Slot.uninit :: args.map Slot.str ++ [Slot.null])
    (args_getD_succ args) args.length 0 free_path (by omega)
    (by simp [free_path]; omega)
  simp only [List.drop_zero, free_path, List.nil_append, List.cons_append] at hloop
  simp [run_command, group_at, hloop, free_path]

/-! ## `execute_group` is defined on every non-empty group -/

theorem path_loop_total (args : List Slot) :
    ∀ (n i : Nat) (path : List String),
      (∀ k, i ≤ k → k < i + n → ∃ a, args.getD (k + 1) Slot.uninit = Slot.str a) →
      ∃ res, path_loop args n i path = some res := by
  intro n
  induction n with
  | zero => intro i path _; exact ⟨_, rfl⟩
  | succ m ih =>
    intro i path h
    obtain ⟨a, ha⟩ := h i (le_refl _) (by omega)
    rw [path_loop, ha]
    simp only []
    split
    · exact ⟨_, rfl⟩
    · exact ih (i + 1) _ (fun k hk1 hk2 => h k (by omega) (by omega))

theorem run_command_total {σ : Type} (os : OS σ) (sh : Shell σ) (cmd : String)
    (rest : List String) (ridx : Option Nat) (args : List Slot) (num_args : Nat) (fd : Int)
    (pids : List Int) (index : Nat)
    (hargs : ∀ k, k < num_args → ∃ a, args.getD (k + 1) Slot.uninit = Slot.str a) :
    ∃ r, run_command os sh (cmd :: rest) ridx args num_args fd pids index = some r := by
  simp only [run_command, group_at, List.getElem?_cons_zero]
  split
  · exact ⟨_, rfl⟩
  · split
    · split
      · exact ⟨_, rfl⟩
      · rename_i hn
        obtain ⟨d, hd⟩ := hargs 0 (by omega)
        rw [hd]
        exact ⟨_, rfl⟩
    · split
      · obtain ⟨res, hres⟩ := path_loop_total args num_args 0 free_path
          (fun k _ hk => hargs k (by omega))
        rw [hres]
        exact ⟨_, rfl⟩
      · split
        · exact ⟨_, rfl⟩
        · exact ⟨_, rfl⟩

theorem compose_slots (group : List String) (bound : Nat) (h : bound ≤ group.length) :
    ∀ k, k < (copy_args group (bound - 1) 1 ([], 0)).2 →
      ∃ a, (writeAt (copy_args group (bound - 1) 1 ([], 0)).1 bound Slot.null
        Slot.uninit).getD (k + 1) Slot.uninit = Slot.str a := by
  by_cases hb : bound = 0
  · subst hb
    intro k hk
    simp [copy_args] at hk
  · have hcomp := copy_then_terminate group bound (by omega) h
    have h1 := congrArg Prod.fst hcomp
    have h2 := congrArg Prod.snd hcomp
    simp only [] at h1 h2
    rw [h1, h2]
    intro k hk
    have hlen : k < (((group.drop 1).take (bound - 1)).map Slot.str).length := by
      simp only [List.length_map, List.length_take, List.length_drop]
      omega
    have hlen2 : k < ((group.drop 1).take (bound - 1)).length := by simpa using hlen
    refine ⟨((group.drop 1).take (bound - 1)).get ⟨k, hlen2⟩, ?_⟩
    rw [List.cons_append, List.getD_eq_getElem?_getD, List.getElem?_cons_succ,
      List.getElem?_append_left hlen, List.getElem?_eq_getElem hlen]
    simp

/-- On a non-empty group `execute_group` returns. -/
theorem execute_group_total {σ : Type} (os : OS σ) (sh : Shell σ) (cmd : String)
    (rest : List String) (pids : List Int) (index : Nat) :
    ∃ r, execute_group os sh (cmd :: rest) pids index = some r := by
  unfold execute_group
  simp only []
  cases hv : redir_invalid (scan_redir (cmd :: rest)) with
  | true => exact ⟨_, if_pos rfl⟩
  | false =>
    simp only [Bool.false_eq_true, if_false]
    obtain ⟨hi, _, _, hnone, _⟩ := scan_redir_spec (cmd :: rest)
    rcases valid_group_shape (cmd :: rest) hv with hno | ⟨pre, f, hshape, hpre, hf⟩
    · have hidx := hnone (List.count_eq_zero.mpr hno)
      rw [hidx]
      simp only []
      apply run_command_total
      have := compose_slots (cmd :: rest) (cmd :: rest).length (le_refl _)
      simpa [compose_args, hidx, hi] using this
    · obtain ⟨hidx, _⟩ := scan_redir_shape pre f hpre hf
      rw [← hshape] at hidx
      rw [hidx]
      simp only []
      have hat : group_at (cmd :: rest) (pre.length + 1) = Slot.str f := by
        rw [hshape]
        unfold group_at
        rw [List.getElem?_append_right (by omega)]
        simp
      rw [hat]
      simp only []
      rcases open_redir os sh f with ⟨_ | fd, sh1⟩
      · exact ⟨_, rfl⟩
      · simp only []
        apply run_command_total
        have := compose_slots (cmd :: rest) pre.length (by rw [hshape]; simp)
        simpa [compose_args, hidx] using this

/-! ## Lemmas on the supervisor -/

theorem calls_append (a b : List Event) : calls (a ++ b) = calls a ++ calls b := by
  simp [calls, List.filterMap_append]

theorem waits_append (a b : List Event) : waits (a ++ b) = waits a ++ waits b := by
  simp [waits, List.filterMap_append]

theorem forks_append (a b : List Event) : forks (a ++ b) = forks a ++ forks b := by
  simp [forks, List.filterMap_append]

theorem errors_append (a b : List Event) : errors (a ++ b) = errors a + errors b := by
  simp [errors, List.count_append]

/-- What `open_redir` adds to the calls made: no call of `execute_group`, no
`waitpid`, no `fork`, and no error when it gives a descriptor. -/
theorem open_redir_trace {σ : Type} (os : OS σ) (sh : Shell σ) (f : String) :
    calls (open_redir os sh f).2.trace = calls sh.trace ∧
    waits (open_redir os sh f).2.trace = waits sh.trace ∧
    forks (open_redir os sh f).2.trace = forks sh.trace ∧
    ((open_redir os sh f).1 ≠ none →
      errors (open_redir os sh f).2.trace = errors sh.trace) := by
  unfold open_redir
  split
  · split
    · simp [log_error, calls_append, waits_append, forks_append, calls, waits, forks]
    · split
      · simp [log_error, calls_append, waits_append, forks_append, calls, waits, forks]
      · simp [log_error, calls_append, waits_append, forks_append, calls, waits, forks]
      · simp only []
        split
        · simp [log_error, calls_append, waits_append, forks_append, calls, waits, forks]
        · simp [calls_append, waits_append, forks_append, errors_append, calls, waits, forks,
            errors]
  · simp only []
    split
    · simp [log_error, calls_append, waits_append, forks_append, calls, waits, forks]
    · simp [calls_append, waits_append, forks_append, errors_append, calls, waits, forks,
        errors]

/-- What the dispatch adds to the calls made: either nothing is launched and
`pids` and the launch count are as before, or one child is created without
any error, its handle stored at `pids[index]`, and `0` is returned. -/
theorem run_command_trace {σ : Type} (os : OS σ) (sh : Shell σ) (group : List String)
    (ridx : Option Nat) (args : List Slot) (num_args : Nat) (fd : Int) (pids : List Int)
    (index : Nat) (r : GroupResult σ)
    (h : run_command os sh group ridx args num_args fd pids index = some r) :
    calls r.sh.trace = calls sh.trace ∧ waits r.sh.trace = waits sh.trace ∧
    ((r.pids = pids ∧ r.index = index ∧ forks r.sh.trace = forks sh.trace) ∨
      (r.rc = 0 ∧ r.index = index + 1 ∧ errors r.sh.trace = errors sh.trace ∧
        ∃ pid, r.pids = writeAt pids index pid 0 ∧
          forks r.sh.trace = forks sh.trace ++ [pid])) := by
  cases group with
  | nil => simp [run_command, group_at] at h
  | cons cmd rest =>
    simp only [run_command, group_at, List.getElem?_cons_zero] at h
    split at h
    · simp at h; subst h
      split <;>
        simp [log_error, calls_append, waits_append, forks_append, calls, waits, forks]
    · split at h
      · split at h
        · simp at h; subst h
          simp [log_error, calls_append, waits_append, forks_append, calls, waits, forks]
        · split at h
          · simp at h; subst h
            split <;>
              simp [log_error, calls_append, waits_append, forks_append, calls, waits, forks]
          · simp at h
      · split at h
        · split at h
          · simp at h; subst h
            split <;>
              simp [log_error, calls_append, waits_append, forks_append, calls, waits, forks]
          · simp at h
        · split at h
          · simp at h; subst h
            simp [log_error, calls_append, waits_append, forks_append, calls, waits, forks]
          · simp at h; subst h
            refine ⟨?_, ?_, Or.inr ⟨rfl, rfl, ?_, _, rfl, ?_⟩⟩ <;>
              simp [calls_append, waits_append, forks_append, errors_append, calls, waits,
                forks, errors]

/-- What one call of `execute_group` adds to the calls made. -/
theorem execute_group_trace {σ : Type} (os : OS σ) (sh : Shell σ) (group : List String)
    (pids : List Int) (index : Nat) (r : GroupResult σ)
    (h : execute_group os sh group pids index = some r) :
    calls r.sh.trace = calls sh.trace ∧ waits r.sh.trace = waits sh.trace ∧
    ((r.pids = pids ∧ r.index = index ∧ forks r.sh.trace = forks sh.trace) ∨
      (r.rc = 0 ∧ r.index = index + 1 ∧ errors r.sh.trace = errors sh.trace ∧
        ∃ pid, r.pids = writeAt pids index pid 0 ∧
          forks r.sh.trace = forks sh.trace ++ [pid])) := by
  unfold execute_group at h
  simp only [] at h
  split at h
  · simp at h; subst h
    simp [log_error, calls_append, waits_append, forks_append, calls, waits, forks]
  · split at h
    · exact run_command_trace _ _ _ _ _ _ _ _ _ _ h
    · split at h
      · rename_i f hf
        obtain ⟨hc, hw, hfk, herr⟩ := open_redir_trace os sh f
        split at h
        · rename_i sh1 ho
          simp at h; subst h
          rw [ho] at hc hw hfk
          exact ⟨hc, hw, Or.inl ⟨rfl, rfl, hfk⟩⟩
        · rename_i fd sh1 ho
          rw [ho] at hc hw hfk herr
          obtain ⟨h1, h2, h3⟩ := run_command_trace _ _ _ _ _ _ _ _ _ _ h
          refine ⟨h1.trans hc, h2.trans hw, ?_⟩
          rcases h3 with ⟨a, b, c⟩ | ⟨a, b, c, pid, d, e⟩
          · exact Or.inl ⟨a, b, c.trans hfk⟩
          · exact Or.inr ⟨a, b, c.trans (herr (by simp)), pid, d, by rw [e, hfk]⟩
      · simp at h

theorem getElem?_of_drop_eq_cons {α : Type} (l : List α) (i : Nat) (x : α) (xs : List α)
    (h : l.drop i = x :: xs) : l[i]? = some x ∧ l.drop (i + 1) = xs := by
  have hlt : i < l.length := by
    by_contra hc
    rw [List.drop_eq_nil_of_le (by omega)] at h
    simp at h
  rw [List.drop_eq_getElem_cons hlt] at h
  injection h with h1 h2
  exact ⟨by rw [List.getElem?_eq_getElem hlt, h1], h2⟩

theorem take_set_succ {α : Type} (xs : List α) (i : Nat) (v : α) (h : i < xs.length) :
    (xs.set i v).take (i + 1) = xs.take i ++ [v] := by
  induction xs generalizing i with
  | nil => simp at h
  | cons x xs ih =>
    cases i with
    | zero => simp
    | succ k => simp [ih k (by simpa using h)]

theorem take_writeAt {α : Type} (xs : List α) (i : Nat) (v pad : α) (h : i ≤ xs.length) :
    (writeAt xs i v pad).take (i + 1) = xs.take i ++ [v] ∧
      i + 1 ≤ (writeAt xs i v pad).length := by
  unfold writeAt
  split
  · rename_i hlt
    exact ⟨take_set_succ xs i v hlt, by simp; omega⟩
  · have he : xs.length = i := by omega
    subst he
    simp

/-- The loop over the groups, as long as the groups return `0`, does what
`continue_all` does. -/
theorem group_loop_continue {σ : Type} (os : OS σ) (groups : List (List String)) :
    ∀ (pre rest : List (List String)) (i : Nat) (st st1 : GroupResult σ),
      groups.drop i = pre ++ rest → continue_all os pre st = some st1 →
      group_loop os groups (pre.length + rest.length) i st.sh st.pids st.index
        = group_loop os groups rest.length (i + pre.length) st1.sh st1.pids st1.index := by
  intro pre
  induction pre with
  | nil =>
    intro rest i st st1 _ hc
    simp only [continue_all, Option.some.injEq] at hc
    subst hc
    simp
  | cons g gs ih =>
    intro rest i st st1 hd hc
    obtain ⟨hget, hdrop⟩ := getElem?_of_drop_eq_cons groups i g (gs ++ rest) hd
    have hn : (g :: gs).length + rest.length = (gs.length + rest.length) + 1 := by
      simp; omega
    rw [hn, group_loop]
    simp only [hget]
    rw [continue_all] at hc
    cases hr : execute_group os { st.sh with trace := st.sh.trace ++ [Event.call g] } g
        st.pids st.index with
    | none => simp [hr] at hc
    | some r =>
      simp only [hr] at hc ⊢
      by_cases hrc : r.rc = 0
      · rw [if_pos hrc] at hc
        rw [if_neg (by simpa using hrc), ih rest (i + 1) r st1 hdrop hc]
        congr 1
        simp; omega
      · rw [if_neg hrc] at hc
        simp at hc

/-- What `continue_all` adds to the calls made: the groups are called in
order, nothing is waited for, and the handles stored in `pids` are the
results of the `fork` calls, in order. -/
theorem continue_all_trace {σ : Type} (os : OS σ) :
    ∀ (gs : List (List String)) (st st1 : GroupResult σ),
      continue_all os gs st = some st1 → st.index ≤ st.pids.length →
      calls st1.sh.trace = calls st.sh.trace ++ gs ∧
      waits st1.sh.trace = waits st.sh.trace ∧
      st1.index ≤ st1.pids.length ∧
      ∃ launched, forks st1.sh.trace = forks st.sh.trace ++ launched ∧
        st1.pids.take st1.index = st.pids.take st.index ++ launched := by
  intro gs
  induction gs with
  | nil =>
    intro st st1 hc hle
    simp only [continue_all, Option.some.injEq] at hc
    subst hc
    exact ⟨by simp, rfl, hle, [], by simp, by simp⟩
  | cons g gs ih =>
    intro st st1 hc hle
    rw [continue_all] at hc
    cases hr : execute_group os { st.sh with trace := st.sh.trace ++ [Event.call g] } g
        st.pids st.index with
    | none => simp [hr] at hc
    | some r =>
      simp only [hr] at hc
      by_cases hrc : r.rc = 0
      · rw [if_pos hrc] at hc
        obtain ⟨h1, h2, h3⟩ := execute_group_trace _ _ _ _ _ _ hr
        simp only [calls_append, waits_append, forks_append] at h1 h2 h3
        have hcall : calls [Event.call g] = [g] := rfl
        have hwait : waits [Event.call g] = [] := rfl
        have hfork : forks [Event.call g] = [] := rfl
        rw [hcall] at h1
        rw [hwait, List.append_nil] at h2
        rw [hfork, List.append_nil] at h3
        rcases h3 with ⟨a, b, c⟩ | ⟨_, b, _, pid, d, e⟩
        · obtain ⟨k1, k2, k3, launched, k4, k5⟩ := ih r st1 hc (by rw [a, b]; exact hle)
          refine ⟨by rw [k1, h1]; simp, by rw [k2, h2], k3, launched, by rw [k4, c], ?_⟩
          rw [k5, a, b]
        · obtain ⟨htk, hln⟩ := take_writeAt st.pids st.index pid 0 hle
          have hlen : r.index ≤ r.pids.length := by rw [b, d]; exact hln
          have htake : r.pids.take r.index = st.pids.take st.index ++ [pid] := by
            rw [b, d]; exact htk
          obtain ⟨k1, k2, k3, launched, k4, k5⟩ := ih r st1 hc hlen
          refine ⟨by rw [k1, h1]; simp, by rw [k2, h2], k3, pid :: launched, ?_, ?_⟩
          · rw [k4, e]; simp
          · rw [k5, htake]; simp
      · rw [if_neg hrc] at hc
        simp at hc

/-- What the wait loop adds to the calls made: it waits for the handles
`pids[i..]` in order and leaves at the first `waitpid` that returns `-1`. -/
theorem wait_loop_trace {σ : Type} (os : OS σ) (pids : List Int) :
    ∀ (n i : Nat) (sh : Shell σ), i + n ≤ pids.length →
      calls (wait_loop os pids n i sh).2.trace = calls sh.trace ∧
      forks (wait_loop os pids n i sh).2.trace = forks sh.trace ∧
      (∃ m, m ≤ n ∧
        waits (wait_loop os pids n i sh).2.trace = waits sh.trace ++ (pids.drop i).take m ∧
        (((wait_loop os pids n i sh).1 = Outcome.ret 0 ∧ m = n ∧
            errors (wait_loop os pids n i sh).2.trace = errors sh.trace ∧
            (wait_loop os pids n i sh).2.path = sh.path) ∨
          ((wait_loop os pids n i sh).1 = Outcome.exited 1 ∧ 0 < m ∧
            errors (wait_loop os pids n i sh).2.trace = errors sh.trace + 1))) ∧
      ((∀ s pid, (os.waitpid s pid).1 ≠ -1) →
        (wait_loop os pids n i sh).1 = Outcome.ret 0) := by
  intro n
  induction n with
  | zero =>
    intro i sh _
    exact ⟨rfl, rfl, ⟨0, le_refl _, by simp [wait_loop], Or.inl ⟨rfl, rfl, rfl, rfl⟩⟩,
      fun _ => rfl⟩
  | succ k ih =>
    intro i sh hle
    have hlt : i < pids.length := by omega
    have hpid : pids.getD i 0 = pids[i] := List.getD_eq_getElem _ _ hlt
    have hdrop : pids.drop i = pids[i] :: pids.drop (i + 1) := List.drop_eq_getElem_cons hlt
    rw [wait_loop]
    simp only [hpid]
    by_cases hrc : (os.waitpid sh.os pids[i]).1 = -1
    · rw [if_pos hrc]
      refine ⟨?_, ?_, ⟨1, by omega, ?_, Or.inr ⟨rfl, by omega, ?_⟩⟩, ?_⟩
      · simp [log_error, calls_append, calls]
      · simp [log_error, forks_append, forks]
      · rw [hdrop]
        simp only [log_error, waits_append, List.take_succ_cons, List.take_zero,
          List.append_assoc]
        rfl
      · simp [log_error, errors_append, errors]
      · intro hall
        exact absurd hrc (hall _ _)
    · rw [if_neg hrc]
      obtain ⟨h1, h2, ⟨m, hm, h3, h4⟩, h5⟩ := ih (i + 1)
        { sh with os := (os.waitpid sh.os pids[i]).2,
                  trace := sh.trace ++ [Event.waitpid pids[i] (os.waitpid sh.os pids[i]).1] }
        (by omega)
      refine ⟨?_, ?_, ⟨m + 1, by omega, ?_, ?_⟩, h5⟩
      · rw [h1]; simp [calls_append, calls]
      · rw [h2]; simp [forks_append, forks]
      · rw [h3, hdrop, List.take_succ_cons, waits_append, List.append_assoc]
        rfl
      · rcases h4 with ⟨a, b, c, d⟩ | ⟨a, b, c⟩
        · refine Or.inl ⟨a, by omega, ?_, d⟩
          rw [c]; simp [errors_append, errors]
        · refine Or.inr ⟨a, by omega, ?_⟩
          rw [c]; simp [errors_append, errors]

/-- A line whose tokens make at least one group is handed to the
supervisor. -/
theorem execute_line_eq_run_groups {σ : Type} (os : OS σ) (sh : Shell σ) (line_ buf : List Char)
    (groups : List (List String)) (hbuf : erase_tabs line_ 0 = some buf)
    (hne : buf.head? ≠ some '\n')
    (hg : build_groups (tokens_of (normalize (cstr buf))) = groups) (hgs : groups ≠ []) :
    execute_line os sh line_ = run_groups os sh groups groups.length := by
  have hcount := count_groups_eq (tokens_of (normalize (cstr buf)))
  rw [hg] at hcount
  have hpos : 0 < groups.length := List.length_pos.mpr hgs
  have htok : (tokens_of (normalize (cstr buf))).length ≠ 0 := by
    intro h0
    have : tokens_of (normalize (cstr buf)) = [] := List.length_eq_zero.mp h0
    rw [this] at hg
    have hb : build_groups [] = [] := by decide
    rw [hb] at hg
    exact hgs hg.symm
  unfold execute_line
  simp only [hbuf]
  rw [if_neg hne]
  rw [if_neg htok, if_neg (by omega), hg, hcount]

/-- The supervisor on groups of which the first that returns non-zero is
`g`, after the groups `pre`. -/
theorem run_groups_terminate {σ : Type} (os : OS σ) (sh : Shell σ)
    (pre post : List (List String)) (g : List String) (st1 r : GroupResult σ)
    (hpre : continue_all os pre
      { rc := 0, sh := sh, pids := List.replicate (pre ++ g :: post).length 0, index := 0 }
      = some st1)
    (hr : execute_group os { st1.sh with trace := st1.sh.trace ++ [Event.call g] } g
      st1.pids st1.index = some r)
    (hrc : r.rc ≠ 0) :
    run_groups os sh (pre ++ g :: post) (pre ++ g :: post).length
      = some (Outcome.ret 1, r.sh) := by
  have hloop := group_loop_continue os (pre ++ g :: post) pre (g :: post) 0 _ st1
    (by simp) hpre
  have hlen : (pre ++ g :: post).length = pre.length + (g :: post).length := by simp
  have hget : (pre ++ g :: post)[0 + pre.length]? = some g := by
    rw [Nat.zero_add, List.getElem?_append_right (le_refl _)]
    simp
  unfold run_groups
  rw [hlen] at hloop ⊢
  rw [hloop, show (g :: post).length = post.length + 1 from rfl, group_loop]
  simp only [hget, hr, if_pos hrc]
  rw [if_pos (by decide)]

/-- The supervisor on groups that all return `0`. -/
theorem run_groups_continue {σ : Type} (os : OS σ) (sh : Shell σ)
    (groups : List (List String)) (st1 : GroupResult σ)
    (hall : continue_all os groups
      { rc := 0, sh := sh, pids := List.replicate groups.length 0, index := 0 } = some st1) :
    run_groups os sh groups groups.length
      = some (wait_loop os st1.pids st1.index 0 st1.sh) := by
  have hloop := group_loop_continue os groups groups [] 0 _ st1 (by simp) hall
  simp only [List.length_nil, Nat.add_zero] at hloop
  unfold run_groups
  rw [hloop]
  simp [group_loop]

/-- A builtin leaves `pids` and the launch count as they are. -/
theorem execute_group_builtin {σ : Type} (os : OS σ) (sh : Shell σ) (cmd : String)
    (rest : List String) (pids : List Int) (index : Nat) (r : GroupResult σ)
    (hb : cmd = "exit" ∨ cmd = "cd" ∨ cmd = "path")
    (h : execute_group os sh (cmd :: rest) pids index = some r) :
    r.pids = pids ∧ r.index = index ∧ forks r.sh.trace = forks sh.trace := by
  have hidx : r.index = index := by
    have hrun : ∀ (sh1 : Shell σ) (ridx : Option Nat) (args : List Slot) (n : Nat) (fd : Int),
        run_command os sh1 (cmd :: rest) ridx args n fd pids index = some r →
          r.index = index := by
      intro sh1 ridx args n fd h1
      simp only [run_command, group_at, List.getElem?_cons_zero] at h1
      split at h1
      · simp at h1; subst h1; rfl
      · split at h1
        · split at h1
          · simp at h1; subst h1; rfl
          · split at h1
            · simp at h1; subst h1; rfl
            · simp at h1
        · split at h1
          · split at h1
            · simp at h1; subst h1; rfl
            · simp at h1
          · rename_i h2 h3 h4
            rcases hb with hb | hb | hb
            · exact absurd hb h2
            · exact absurd hb h3
            · exact absurd hb h4
    unfold execute_group at h
    simp only [] at h
    split at h
    · simp at h; subst h; rfl
    · split at h
      · exact hrun _ _ _ _ _ h
      · split at h
        · split at h
          · simp at h; subst h; rfl
          · exact hrun _ _ _ _ _ h
        · simp at h
  obtain ⟨_, _, h3⟩ := execute_group_trace os sh (cmd :: rest) pids index r h
  rcases h3 with ⟨a, b, c⟩ | ⟨_, b, _⟩
  · exact ⟨a, b, c⟩
  · omega

/-! ## Lemmas on the normaliser and the tokenizer -/

theorem strchr_of_not_mem (s : List Char) (c : Char) (h : c ∉ s) : strchr s c = none := by
  induction s with
  | nil => rfl
  | cons x xs ih =>
    have hx : x ≠ c := fun e => h (by simp [e])
    have hxs : c ∉ xs := fun e => h (by simp [e])
    simp [strchr, hx, ih hxs]

theorem strchr_append (a b : List Char) (c : Char) (h : c ∉ a) :
    strchr (a ++ c :: b) c = some a.length := by
  induction a with
  | nil => simp [strchr]
  | cons x xs ih =>
    have hx : x ≠ c := fun e => h (by simp [e])
    have hxs : c ∉ xs := fun e => h (by simp [e])
    simp [strchr, hx, ih hxs]

/-- The loop of lines 310-343 leaves the buffer as it is once no `&` is left
after `ll`. -/
theorem pad_amps_done (fuel : Nat) (pre v : List Char) (h : '&' ∉ v) :
    pad_amps fuel (pre ++ v) pre.length = pre ++ v := by
  cases fuel with
  | zero => rfl
  | succ k =>
    rw [pad_amps]
    simp only [List.drop_left, strchr_of_not_mem v '&' h]

/-- One turn of the loop of lines 310-343 on a buffer whose first `&` after
`ll` comes after `a` and before `b`: the `&` is padded when the character
before it, if any, is no space, or when it is not the last character before
the end of the line and the character after it is no space. -/
theorem pad_amps_step (fuel : Nat) (pre a b : List Char) (h : '&' ∉ a) :
    pad_amps (fuel + 1) (pre ++ (a ++ '&' :: b)) pre.length
      = if ((decide (0 < a.length) && a.getD (a.length - 1) ' ' != ' ') ||
            (decide (1 < b.length) && b.getD 0 ' ' != ' ')) = true then
          pad_amps fuel ((pre ++ (a ++ [' ', '&'])) ++ ' ' :: b) (pre ++ (a ++ [' ', '&'])).length
        else
          pad_amps fuel ((pre ++ (a ++ ['&'])) ++ b) (pre ++ (a ++ ['&'])).length := by
  rw [pad_amps]
  simp only [List.drop_left, strchr_append a b '&' h]
  have h1 : (a ++ '&' :: b).getD (a.length - 1) ' ' = a.getD (a.length - 1) ' ' ∨ a.length = 0 := by
    by_cases ha : a.length = 0
    · exact Or.inr ha
    · left
      have hlt : a.length - 1 < a.length := by omega
      simp [List.getD_eq_getElem?_getD, List.getElem?_append_left hlt]
  have h2 : (a ++ '&' :: b).getD (a.length + 1) ' ' = b.getD 0 ' ' := by
    simp [List.getD_eq_getElem?_getD, List.getElem?_append_right]
  have h3 : (decide (a.length + 2 < (a ++ '&' :: b).length)) = decide (1 < b.length) := by
    simp only [List.length_append, List.length_cons]
    congr 1
    apply propext
    omega
  have hb1 : (decide (0 < a.length) && (a ++ '&' :: b).getD (a.length - 1) ' ' != ' ')
      = (decide (0 < a.length) && a.getD (a.length - 1) ' ' != ' ') := by
    rcases h1 with h1 | h1
    · rw [h1]
    · simp [h1]
  rw [hb1, h2, h3]
  have e1 : List.take pre.length (pre ++ (a ++ '&' :: b)) ++
      (List.take a.length (a ++ '&' :: b) ++ [' ', '&', ' '] ++
        List.drop (a.length + 1) (a ++ '&' :: b))
      = (pre ++ (a ++ [' ', '&'])) ++ ' ' :: b := by
    have t1 : List.drop (a.length + 1) (a ++ '&' :: b) = b := by
      rw [← List.drop_drop, List.drop_left]
      rfl
    rw [List.take_left, List.take_left, t1]
    simp
  have e2 : pre ++ (a ++ '&' :: b) = (pre ++ (a ++ ['&'])) ++ b := by simp
  have l1 : pre.length + a.length + 2 = (pre ++ (a ++ [' ', '&'])).length := by
    simp; omega
  have l2 : pre.length + a.length + 1 = (pre ++ (a ++ ['&'])).length := by
    simp; omega
  rw [e1, l1, l2]
  split
  · rw [if_neg]
    simp only [List.drop_left, List.length_append, List.length_cons]
    omega
  · rw [if_neg]
    · rw [← e2]
    · simp only [List.length_append, List.length_cons]
      omega

theorem first_amp_split (v : List Char) (h : '&' ∈ v) :
    ∃ a rest, v = a ++ '&' :: rest ∧ '&' ∉ a := by
  induction v with
  | nil => simp at h
  | cons x xs ih =>
    by_cases hx : x = '&'
    · exact ⟨[], xs, by simp [hx], by simp⟩
    · have hxs : '&' ∈ xs := by
        rcases List.mem_cons.mp h with e | e
        · exact absurd e.symm hx
        · exact e
      obtain ⟨a, rest, e, ha⟩ := ih hxs
      refine ⟨x :: a, rest, by simp [e], ?_⟩
      intro hm
      rcases List.mem_cons.mp hm with e1 | e1
      · exact hx e1.symm
      · exact ha e1

theorem amps_apart_append_spaces (p a : List Char) (hp : amps_apart p)
    (ha : ∀ c ∈ a, c = ' ') : amps_apart (p ++ a) := by
  induction a using List.reverseRecOn with
  | nil => simpa using hp
  | append_singleton xs x ih =>
    have hx : x = ' ' := ha x (by simp)
    have hxs : ∀ c ∈ xs, c = ' ' := fun c hc => ha c (by simp [hc])
    rw [← List.append_assoc]
    unfold amps_apart
    rw [List.chain'_append]
    refine ⟨ih hxs, List.chain'_singleton x, ?_⟩
    intro y _ z hz
    simp only [List.head?_cons, Option.mem_def, Option.some.injEq] at hz
    subst hz
    subst hx
    intro hc
    exact absurd hc.2 (by decide)

theorem amps_apart_append_amp (p : List Char) (hp : amps_apart p)
    (hlast : p = [] ∨ p.getLast? = some ' ') : amps_apart (p ++ ['&']) := by
  unfold amps_apart
  rw [List.chain'_append]
  refine ⟨hp, List.chain'_singleton _, ?_⟩
  intro y hy z _
  rcases hlast with e | e
  · subst e
    simp at hy
  · rw [e] at hy
    simp only [Option.mem_def, Option.some.injEq] at hy
    subst hy
    intro hc
    exact absurd hc.1 (by decide)

theorem getD_spaces (a : List Char) (k : Nat) (ha : ∀ c ∈ a, c = ' ') : a.getD k ' ' = ' ' := by
  rw [List.getD_eq_getElem?_getD]
  cases hk : a[k]? with
  | none => rfl
  | some c =>
    have := ha c (List.mem_iff_getElem?.mpr ⟨k, hk⟩)
    simp [this]

theorem getLast?_append_spaces (p a : List Char) (ha : ∀ c ∈ a, c = ' ') (hne : a ≠ []) :
    (p ++ a).getLast? = some ' ' := by
  rw [List.getLast?_append_of_ne_nil _ hne, List.getLast?_eq_getLast _ hne]
  exact congrArg some (ha _ (List.getLast_mem hne))

/-- On a line of `&` and spaces the loop of lines 310-343 leaves a line of
`&` and spaces in which no two `&` are next to each other. -/
theorem pad_amps_good :
    ∀ (fuel : Nat) (pre v : List Char),
      (∀ c ∈ pre, c = '&' ∨ c = ' ') → amps_apart pre → (∀ c ∈ v, c = '&' ∨ c = ' ') →
      (pre = [] ∨ (pre.getLast? = some '&' ∧ (v = [] ∨ v.head? = some ' '))) →
      v.count '&' < fuel →
      ∃ u, pad_amps fuel (pre ++ (v ++ ['\n'])) pre.length = u ++ ['\n'] ∧
        (∀ c ∈ u, c = '&' ∨ c = ' ') ∧ amps_apart u := by
  intro fuel
  induction fuel with
  | zero => intro pre v _ _ _ _ h; omega
  | succ k ih =>
    intro pre v hpre hchain hv hbound hcount
    by_cases hmem : '&' ∈ v
    · obtain ⟨a, rest, hsplit, ha⟩ := first_amp_split v hmem
      subst hsplit
      have haspace : ∀ c ∈ a, c = ' ' := by
        intro c hc
        rcases hv c (by simp [hc]) with e | e
        · exact absurd (e ▸ hc) ha
        · exact e
      have hrest : ∀ c ∈ rest, c = '&' ∨ c = ' ' := fun c hc => hv c (by simp [hc])
      have hcnt : rest.count '&' < k := by
        have : (a ++ '&' :: rest).count '&' = rest.count '&' + 1 := by
          rw [List.count_append, List.count_eq_zero.mpr ha]
          simp
        omega
      have hane : pre ≠ [] → a ≠ [] := by
        intro hp hnil
        subst hnil
        rcases hbound with e | ⟨_, e | e⟩
        · exact hp e
        · simp at e
        · simp at e
      have hstep := pad_amps_step k pre a (rest ++ ['\n']) ha
      have hl : pre ++ ((a ++ '&' :: rest) ++ ['\n']) = pre ++ (a ++ '&' :: (rest ++ ['\n'])) := by
        simp
      rw [hl, hstep, getD_spaces a _ haspace]
      simp only [bne_self_eq_false, Bool.and_false, Bool.false_or]
      cases rest with
      | nil =>
        simp only [List.nil_append, List.length_singleton, lt_self_iff_false, decide_False,
          Bool.false_and, Bool.false_eq_true, if_false]
        have hchain1 : amps_apart (pre ++ (a ++ ['&'])) := by
          rw [← List.append_assoc]
          apply amps_apart_append_amp _ (amps_apart_append_spaces pre a hchain haspace)
          by_cases hp : pre = []
          · by_cases hna : a = []
            · left; simp [hp, hna]
            · right; exact getLast?_append_spaces pre a haspace hna
          · right; exact getLast?_append_spaces pre a haspace (hane hp)
        have := ih (pre ++ (a ++ ['&'])) [] ?_ hchain1 (by simp) ?_ (by simp; omega)
        · simpa using this
        · intro c hc
          simp only [List.mem_append, List.mem_singleton] at hc
          rcases hc with hc | hc | hc
          · exact hpre c hc
          · exact Or.inr (haspace c hc)
          · exact Or.inl hc
        · right
          exact ⟨by simp [← List.append_assoc], Or.inl rfl⟩
      | cons x xs =>
        rcases hrest x (by simp) with hx | hx
        · subst hx
          have hcond : (decide (1 < ('&' :: xs ++ ['\n']).length) &&
              ('&' :: xs ++ ['\n']).getD 0 ' ' != ' ') = true := by
            simp
          rw [if_pos hcond]
          have hchain1 : amps_apart (pre ++ (a ++ [' ', '&'])) := by
            have e : pre ++ (a ++ [' ', '&']) = (pre ++ (a ++ [' '])) ++ ['&'] := by simp
            rw [e]
            apply amps_apart_append_amp
            · apply amps_apart_append_spaces pre (a ++ [' ']) hchain
              intro c hc
              simp only [List.mem_append, List.mem_singleton] at hc
              rcases hc with hc | hc
              · exact haspace c hc
              · exact hc
            · right
              simp [← List.append_assoc]
          have := ih (pre ++ (a ++ [' ', '&'])) (' ' :: '&' :: xs) ?_ hchain1 ?_ ?_ ?_
          · simpa using this
          · intro c hc
            simp only [List.mem_append, List.mem_cons, List.mem_singleton, List.not_mem_nil,
              or_false] at hc
            rcases hc with hc | hc | hc | hc
            · exact hpre c hc
            · exact Or.inr (haspace c hc)
            · exact Or.inr hc
            · exact Or.inl hc
          · intro c hc
            rcases List.mem_cons.mp hc with e | e
            · exact Or.inr e
            · exact hrest c e
          · right
            exact ⟨by simp [← List.append_assoc], Or.inr rfl⟩
          · simp only [List.count_cons] at hcnt ⊢
            simpa using hcnt
        · subst hx
          have hcond : ¬ (decide (1 < (' ' :: xs ++ ['\n']).length) &&
              (' ' :: xs ++ ['\n']).getD 0 ' ' != ' ') = true := by
            simp
          rw [if_neg hcond]
          have hchain1 : amps_apart (pre ++ (a ++ ['&'])) := by
            rw [← List.append_assoc]
            apply amps_apart_append_amp _ (amps_apart_append_spaces pre a hchain haspace)
            by_cases hp : pre = []
            · by_cases hna : a = []
              · left; simp [hp, hna]
              · right; exact getLast?_append_spaces pre a haspace hna
            · right; exact getLast?_append_spaces pre a haspace (hane hp)
          have := ih (pre ++ (a ++ ['&'])) (' ' :: xs) ?_ hchain1 hrest ?_ hcnt
          · simpa using this
          · intro c hc
            simp only [List.mem_append, List.mem_singleton] at hc
            rcases hc with hc | hc | hc
            · exact hpre c hc
            · exact Or.inr (haspace c hc)
            · exact Or.inl hc
          · right
            exact ⟨by simp [← List.append_assoc], Or.inr rfl⟩
    · have hvspace : ∀ c ∈ v, c = ' ' := by
        intro c hc
        rcases hv c hc with e | e
        · exact absurd (e ▸ hc) hmem
        · exact e
      refine ⟨pre ++ v, ?_, ?_, amps_apart_append_spaces pre v hchain hvspace⟩
      · have hnl : '&' ∉ v ++ ['\n'] := by
          simp only [List.mem_append, List.mem_singleton, not_or]
          exact ⟨hmem, by decide⟩
        rw [pad_amps_done _ pre (v ++ ['\n']) hnl]
        simp
      · intro c hc
        rcases List.mem_append.mp hc with e | e
        · exact hpre c e
        · exact hv c e

theorem tokenize_nil (fuel : Nat) (tokens : List String) : tokenize fuel [] tokens = tokens := by
  cases fuel with
  | zero => rfl
  | succ k => simp [tokenize, strtok]

theorem dropWhile_space_append_newline (u : List Char) :
    (u ++ ['\n']).dropWhile (fun c => decide (c = ' '))
      = u.dropWhile (fun c => decide (c = ' ')) ++ ['\n'] := by
  induction u with
  | nil => simp [List.dropWhile_cons]
  | cons x xs ih =>
    by_cases hx : x = ' '
    · simp [List.dropWhile_cons, hx, ih]
    · simp [List.dropWhile_cons, hx]

/-- The tokens of a line of `&` and spaces in which no two `&` are next to
each other are all `"&"`. -/
theorem tokenize_amps :
    ∀ (fuel : Nat) (u : List Char) (tokens : List String),
      (∀ c ∈ u, c = '&' ∨ c = ' ') → amps_apart u → u.length < fuel →
      (∀ t ∈ tokens, t = "&") →
      ∀ t ∈ tokenize fuel (u ++ ['\n']) tokens, t = "&" := by
  intro fuel
  induction fuel with
  | zero => intro u _ _ _ h; omega
  | succ k ih =>
    intro u tokens hu hchain hlen htok
    have hsplit := List.takeWhile_append_dropWhile (fun c => decide (c = ' ')) u
    have hchain2 : amps_apart (u.dropWhile (fun c => decide (c = ' '))) := by
      unfold amps_apart at hchain ⊢
      rw [← hsplit] at hchain
      exact (List.chain'_append.mp hchain).2.1
    have hlen2 : (u.dropWhile (fun c => decide (c = ' '))).length ≤ u.length := by
      have := congrArg List.length hsplit
      simp only [List.length_append] at this
      omega
    have hu2 : ∀ c ∈ u.dropWhile (fun c => decide (c = ' ')), c = '&' ∨ c = ' ' := by
      intro c hc
      apply hu c
      rw [← hsplit]
      exact List.mem_append_right _ hc
    rw [tokenize]
    simp only [strtok, dropWhile_space_append_newline]
    cases hd : u.dropWhile (fun c => decide (c = ' ')) with
    | nil =>
      intro t ht
      simp [List.takeWhile_cons] at ht
      exact htok t ht
    | cons x xs =>
      rw [hd] at hchain2 hlen2 hu2
      have hxne : x ≠ ' ' := by
        have := dropWhile_cons_head (fun c => decide (c = ' ')) u x xs hd
        simpa using this
      have hx : x = '&' := by
        rcases hu2 x (by simp) with e | e
        · exact e
        · exact absurd e hxne
      subst hx
      cases xs with
      | nil =>
        intro t ht
        have e1 : (['&'] ++ ['\n'] : List Char) = ['&', '\n'] := rfl
        rw [e1] at ht
        simp [List.takeWhile_cons, List.dropWhile_cons, tokenize_nil] at ht
        rcases ht with ht | ht
        · exact htok t ht
        · rw [ht]
      | cons y ys =>
        have hy : y = ' ' := by
          rcases hu2 y (by simp) with e | e
          · exfalso
            unfold amps_apart at hchain2
            rw [List.chain'_cons] at hchain2
            exact hchain2.1 ⟨rfl, e⟩
          · exact e
        subst hy
        have hchain3 : amps_apart ys := by
          unfold amps_apart at hchain2 ⊢
          exact (List.chain'_cons'.mp (List.chain'_cons'.mp hchain2).2).2
        have hys : ∀ c ∈ ys, c = '&' ∨ c = ' ' := fun c hc => hu2 c (by simp [hc])
        have hlen3 : ys.length < k := by
          simp only [List.length_cons] at hlen2
          omega
        have := ih ys (tokens ++ ["&"]) hys hchain3 hlen3 (by
          intro t ht
          rcases List.mem_append.mp ht with e | e
          · exact htok t e
          · simpa using e)
        intro t ht
        apply this t
        have e1 : ('&' :: ' ' :: ys ++ ['\n'] : List Char) = '&' :: ' ' :: (ys ++ ['\n']) := rfl
        rw [e1] at ht
        simp only [List.takeWhile_cons, List.dropWhile_cons] at ht
        simpa using ht

theorem count_groups_of_all_amps (tokens : List String) (h : ∀ t ∈ tokens, t = "&") :
    count_groups tokens = 0 := by
  rw [count_groups_eq, build_groups_eq]
  cases hm : maximal_runs tokens with
  | nil => rfl
  | cons g gs =>
    exfalso
    have hg : g ∈ maximal_runs tokens := by rw [hm]; simp
    obtain ⟨hne, _⟩ := maximal_runs_mem tokens g hg
    obtain ⟨x, hx⟩ := List.exists_mem_of_ne_nil g hne
    have hfl : x ∈ (maximal_runs tokens).flatten := List.mem_flatten.mpr ⟨g, hg, hx⟩
    rw [maximal_runs_join] at hfl
    have := List.mem_filter.mp hfl
    have hxa := h x this.1
    simp [hxa] at this

theorem erase_tabs_amps :
    ∀ (s : List Char) (n : Nat), (∀ c ∈ s, c = '&' ∨ c = ' ' ∨ c = '\t') →
      ∃ t, erase_tabs (s ++ ['\n']) n = some (t ++ ['\n']) ∧ ∀ c ∈ t, c = '&' ∨ c = ' ' := by
  intro s
  induction s with
  | nil =>
    intro n _
    exact ⟨[], by simp [erase_tabs], by simp⟩
  | cons x xs ih =>
    intro n h
    have hxs : ∀ c ∈ xs, c = '&' ∨ c = ' ' ∨ c = '\t' := fun c hc => h c (by simp [hc])
    obtain ⟨t, ht, htc⟩ := ih (n + 1) hxs
    have hx := h x (by simp)
    have hxnl : x ≠ '\n' := by
      rcases hx with e | e | e <;> subst e <;> decide
    rw [List.cons_append, erase_tabs, if_neg hxnl]
    simp only []
    by_cases htab : x = '\t'
    · subst htab
      by_cases hmax : n + 1 ≥ MAX_LINE
      · exact ⟨[], by simp [hmax], by simp⟩
      · exact ⟨t, by simp [hmax, ht], htc⟩
    · have hx2 : x = '&' ∨ x = ' ' := by
        rcases hx with e | e | e
        · exact Or.inl e
        · exact Or.inr e
        · exact absurd e htab
      by_cases hmax : n + 1 ≥ MAX_LINE
      · refine ⟨[x], by simp [hmax, htab], ?_⟩
        intro c hc
        simp only [List.mem_singleton] at hc
        subst hc
        exact hx2
      · refine ⟨x :: t, by simp [hmax, htab, ht], ?_⟩
        intro c hc
        rcases List.mem_cons.mp hc with e | e
        · subst e; exact hx2
        · exact htc c e

/-- A line of `&`, spaces and tabs is normalised and tokenized to tokens
that are all `"&"`. -/
theorem tokens_of_operator_line (s : List Char)
    (hs : ∀ c ∈ s, c = '&' ∨ c = ' ' ∨ c = '\t') :
    ∃ buf, erase_tabs (s ++ ['\n']) 0 = some buf ∧
      ∀ t ∈ tokens_of (normalize (cstr buf)), t = "&" := by
  obtain ⟨t, ht, htc⟩ := erase_tabs_amps s 0 hs
  refine ⟨t ++ ['\n'], ht, ?_⟩
  have hcstr : cstr (t ++ ['\n']) = t ++ ['\n'] := by
    unfold cstr
    rw [List.takeWhile_eq_self_iff]
    intro c hc
    rcases List.mem_append.mp hc with e | e
    · rcases htc c e with e1 | e1 <;> subst e1 <;> decide
    · simp only [List.mem_singleton] at e
      subst e
      decide
  have hredir : pad_redirect (t ++ ['\n']) = t ++ ['\n'] := by
    unfold pad_redirect
    rw [strchr_of_not_mem]
    intro hc
    rcases List.mem_append.mp hc with e | e
    · rcases htc _ e with e1 | e1 <;> exact absurd e1 (by decide)
    · simp only [List.mem_singleton] at e
      exact absurd e (by decide)
  have hcount : t.count '&' < (t ++ ['\n']).length + 1 := by
    have := List.count_le_length '&' t
    simp only [List.length_append, List.length_singleton]
    omega
  obtain ⟨u, hu, huc, hchain⟩ := pad_amps_good ((t ++ ['\n']).length + 1) [] t (by simp)
    List.chain'_nil htc (Or.inl rfl) hcount
  simp only [List.nil_append, List.length_nil] at hu
  unfold normalize
  simp only [hcstr, hredir]
  rw [hu]
  unfold tokens_of
  exact tokenize_amps _ u [] huc hchain (by simp; omega) (by simp)

/-- Non-empty groups either all return `0`, or there is a first group that
returns non-zero. -/
theorem continue_or_terminate {σ : Type} (os : OS σ) :
    ∀ (groups : List (List String)) (st : GroupResult σ), (∀ g ∈ groups, g ≠ []) →
      (∃ st1, continue_all os groups st = some st1) ∨
      (∃ pre g post st1 r, groups = pre ++ g :: post ∧ continue_all os pre st = some st1 ∧
        execute_group os { st1.sh with trace := st1.sh.trace ++ [Event.call g] } g
          st1.pids st1.index = some r ∧ r.rc ≠ 0) := by
  intro groups
  induction groups with
  | nil => intro st _; exact Or.inl ⟨st, rfl⟩
  | cons g gs ih =>
    intro st hne
    obtain ⟨cmd, rest, hg⟩ : ∃ cmd rest, g = cmd :: rest := by
      cases g with
      | nil => exact absurd rfl (hne [] (by simp))
      | cons cmd rest => exact ⟨cmd, rest, rfl⟩
    obtain ⟨r, hr⟩ := execute_group_total os
      { st.sh with trace := st.sh.trace ++ [Event.call g] } cmd rest st.pids st.index
    rw [← hg] at hr
    by_cases hrc : r.rc = 0
    · have hstep : ∀ tl, continue_all os (g :: tl) st = continue_all os tl r := by
        intro tl
        rw [continue_all, hr]
        simp only []
        rw [if_pos hrc]
      rcases ih r (fun x hx => hne x (by simp [hx])) with ⟨st1, h1⟩ | ⟨pre, g1, post, st1, r1, h1, h2, h3, h4⟩
      · exact Or.inl ⟨st1, by rw [hstep, h1]⟩
      · exact Or.inr ⟨g :: pre, g1, post, st1, r1, by rw [h1]; rfl, by rw [hstep, h2], h3, h4⟩
    · exact Or.inr ⟨[], g, gs, st, r, rfl, rfl, hr, hrc⟩

/-! ## Lemmas on the tokenizer of any line -/

theorem splitOnP_takeWhile_dropWhile {α : Type} (p : α → Bool) (l : List α) :
    l.splitOnP p = l.takeWhile (fun t => !p t) ::
      (match l.dropWhile (fun t => !p t) with
        | [] => []
        | _ :: r => r.splitOnP p) := by
  induction l with
  | nil => simp
  | cons x xs ih =>
    rw [List.splitOnP_cons]
    by_cases hx : p x = true
    · simp [hx, List.takeWhile_cons, List.dropWhile_cons]
    · simp only [hx, if_false]
      rw [ih]
      simp [hx, List.takeWhile_cons, List.dropWhile_cons, List.modifyHead]

theorem space_free_pieces_nil : space_free_pieces [] = [] := by
  simp [space_free_pieces, List.splitOn]

theorem space_free_pieces_cons_space (xs : List Char) :
    space_free_pieces (' ' :: xs) = space_free_pieces xs := by
  simp [space_free_pieces, List.splitOn, List.splitOnP_cons]

theorem space_free_pieces_cons_ne (x : Char) (xs : List Char) (hx : x ≠ ' ') :
    space_free_pieces (x :: xs)
      = (x :: xs).takeWhile (fun c => !decide (c = ' '))
          :: space_free_pieces ((x :: xs).dropWhile (fun c => !decide (c = ' '))) := by
  unfold space_free_pieces List.splitOn
  rw [splitOnP_takeWhile_dropWhile]
  have hb : ∀ c : Char, (c == ' ') = decide (c = ' ') := fun _ => rfl
  simp only [hb]
  have hne : (x :: xs).takeWhile (fun c => !decide (c = ' ')) ≠ [] := by
    simp [List.takeWhile_cons, hx]
  rw [List.filter_cons, if_pos (by simpa using hne)]
  congr 1
  cases hd : (x :: xs).dropWhile (fun c => !decide (c = ' ')) with
  | nil => simp [List.splitOnP_nil]
  | cons c r =>
    have hc := dropWhile_cons_head (fun c => !decide (c = ' ')) (x :: xs) c r hd
    have hc1 : c = ' ' := by simpa using hc
    subst hc1
    simp [List.splitOnP_cons]

theorem space_free_pieces_dropWhile (l : List Char) :
    space_free_pieces (l.dropWhile (fun c => decide (c = ' '))) = space_free_pieces l := by
  induction l with
  | nil => simp
  | cons x xs ih =>
    by_cases hx : x = ' '
    · subst hx
      simp only [List.dropWhile_cons, decide_True, if_true]
      rw [ih, space_free_pieces_cons_space]
    · simp [List.dropWhile_cons, hx]

/-- The tokenizer on a line that ends in its only newline: the tokens are
the non-empty space-free pieces of the content. -/
theorem tokenize_eq_pieces :
    ∀ (fuel : Nat) (u : List Char) (tokens : List String), '\n' ∉ u → u.length < fuel →
      tokenize fuel (u ++ ['\n']) tokens
        = tokens ++ (space_free_pieces u).map String.mk := by
  intro fuel
  induction fuel with
  | zero => intro u _ _ h; omega
  | succ k ih =>
    intro u tokens hnl hlen
    have hsplit := List.takeWhile_append_dropWhile (fun c => decide (c = ' ')) u
    have hlen2 : (u.dropWhile (fun c => decide (c = ' '))).length ≤ u.length := by
      have := congrArg List.length hsplit
      simp only [List.length_append] at this
      omega
    have hnl2 : '\n' ∉ u.dropWhile (fun c => decide (c = ' ')) := by
      intro hc
      apply hnl
      rw [← hsplit]
      exact List.mem_append_right _ hc
    rw [← space_free_pieces_dropWhile u, tokenize]
    simp only [strtok, dropWhile_space_append_newline]
    cases hd : u.dropWhile (fun c => decide (c = ' ')) with
    | nil => simp [List.takeWhile_cons, space_free_pieces_nil]
    | cons x xs =>
      rw [hd] at hlen2 hnl2
      have hx : x ≠ ' ' := by
        have := dropWhile_cons_head (fun c => decide (c = ' ')) u x xs hd
        simpa using this
      rw [space_free_pieces_cons_ne x xs hx]
      have hall : ∀ c ∈ (x :: xs).takeWhile (fun c => !decide (c = ' ')),
          (fun c : Char => decide (c ≠ ' ')) c = true := by
        intro c hc
        have := List.mem_takeWhile_imp hc
        simpa using this
      have hw := List.takeWhile_append_dropWhile (fun c => !decide (c = ' ')) (x :: xs)
      have hwne : (x :: xs).takeWhile (fun c => !decide (c = ' ')) ≠ [] := by
        simp [List.takeWhile_cons, hx]
      have hnlw : '\n' ∉ (x :: xs).takeWhile (fun c => !decide (c = ' ')) := by
        intro hc
        apply hnl2
        rw [← hw]
        exact List.mem_append_left _ hc
      have hne : ¬ ((x :: xs) ++ ['\n'] = []) := by simp
      rw [if_neg hne]
      simp only []
      cases hr : (x :: xs).dropWhile (fun c => !decide (c = ' ')) with
      | nil =>
        rw [hr, List.append_nil] at hw
        rw [hw] at hall hnlw
        have htw : ((x :: xs) ++ ['\n']).takeWhile (fun c => decide (c ≠ ' '))
            = (x :: xs) ++ ['\n'] := by
          rw [List.takeWhile_eq_self_iff]
          intro c hc
          rcases List.mem_append.mp hc with e | e
          · exact hall c e
          · simp only [List.mem_singleton] at e
            subst e
            decide
        have hdw : ((x :: xs) ++ ['\n']).dropWhile (fun c => decide (c ≠ ' ')) = [] := by
          rw [List.dropWhile_eq_nil_iff]
          intro c hc
          rcases List.mem_append.mp hc with e | e
          · exact hall c e
          · simp only [List.mem_singleton] at e
            subst e
            decide
        rw [htw, hdw, hw, if_pos (by simp), List.dropLast_concat, if_neg (by simp),
          List.drop_nil, tokenize_nil, space_free_pieces_nil]
        simp
      | cons c r =>
        have hc : c = ' ' := by
          have := dropWhile_cons_head (fun c => !decide (c = ' ')) (x :: xs) c r hr
          simpa using this
        subst hc
        rw [hr] at hw
        have htw : ((x :: xs) ++ ['\n']).takeWhile (fun c => decide (c ≠ ' '))
            = (x :: xs).takeWhile (fun c => !decide (c = ' ')) := by
          conv_lhs => rw [← hw, List.append_assoc, List.takeWhile_append_of_pos hall]
          simp [List.takeWhile_cons]
        have hdw : ((x :: xs) ++ ['\n']).dropWhile (fun c => decide (c ≠ ' '))
            = ' ' :: (r ++ ['\n']) := by
          conv_lhs => rw [← hw, List.append_assoc, List.dropWhile_append_of_pos hall]
          simp [List.dropWhile_cons]
        have hrlen : r.length < k := by
          have := congrArg List.length hw
          simp only [List.length_append, List.length_cons] at this hlen2
          omega
        have hrnl : '\n' ∉ r := by
          intro hc
          apply hnl2
          rw [← hw]
          exact List.mem_append_right _ (List.mem_cons_of_mem _ hc)
        rw [htw, hdw, if_neg hnlw, List.drop_succ_cons, List.drop_zero, ih r _ hrnl hrlen,
          space_free_pieces_cons_space]
        simp

/-- The array `tokens` of a line that ends in its only newline. -/
theorem tokens_of_eq_pieces (u : List Char) (hnl : '\n' ∉ u) :
    tokens_of (u ++ ['\n']) = (space_free_pieces u).map String.mk := by
  unfold tokens_of
  rw [tokenize_eq_pieces _ u [] hnl (by simp; omega)]
  simp

/-- Induction along the space-free pieces of a line. -/
theorem pieces_induction (P : List Char → Prop) (hnil : P [])
    (hspace : ∀ xs, P xs → P (' ' :: xs))
    (hrun : ∀ x xs, x ≠ ' ' →
      P ((x :: xs).dropWhile (fun c => !decide (c = ' '))) → P (x :: xs)) :
    ∀ l, P l := by
  intro l
  generalize hn : l.length = n
  induction n using Nat.strong_induction_on generalizing l with
  | _ n ih =>
    cases l with
    | nil => exact hnil
    | cons x xs =>
      by_cases hx : x = ' '
      · subst hx
        exact hspace xs (ih xs.length (by simp at hn; omega) xs rfl)
      · apply hrun x xs hx
        refine ih _ ?_ _ rfl
        have h1 : (x :: xs).dropWhile (fun c => !decide (c = ' '))
            = xs.dropWhile (fun c => !decide (c = ' ')) := by
          simp [List.dropWhile_cons, hx]
        have h2 := congrArg List.length
          (List.takeWhile_append_dropWhile (fun c => !decide (c = ' ')) xs)
        simp only [List.length_append] at h2
        rw [h1]
        simp only [List.length_cons] at hn
        omega

theorem space_free_pieces_mem (l : List Char) :
    ∀ w ∈ space_free_pieces l, w ≠ [] ∧ ' ' ∉ w ∧ ∀ c ∈ w, c ∈ l := by
  induction l using pieces_induction with
  | hnil => simp [space_free_pieces_nil]
  | hspace xs ih =>
    rw [space_free_pieces_cons_space]
    intro w hw
    obtain ⟨h1, h2, h3⟩ := ih w hw
    exact ⟨h1, h2, fun c hc => List.mem_cons_of_mem _ (h3 c hc)⟩
  | hrun x xs hx ih =>
    rw [space_free_pieces_cons_ne x xs hx]
    intro w hw
    have hsplit := List.takeWhile_append_dropWhile (fun c => !decide (c = ' ')) (x :: xs)
    rcases List.mem_cons.mp hw with h | h
    · subst h
      refine ⟨by simp [List.takeWhile_cons, hx], ?_, ?_⟩
      · intro hmem
        have := List.mem_takeWhile_imp hmem
        simp at this
      · intro c hc
        rw [← hsplit]
        exact List.mem_append_left _ hc
    · obtain ⟨h1, h2, h3⟩ := ih w h
      refine ⟨h1, h2, fun c hc => ?_⟩
      rw [← hsplit]
      exact List.mem_append_right _ (h3 c hc)

/-- A line whose tokens make no group is a no-op. -/
theorem execute_line_no_groups {σ : Type} (os : OS σ) (sh : Shell σ) (line_ buf : List Char)
    (hbuf : erase_tabs line_ 0 = some buf)
    (hcount : count_groups (tokens_of (normalize (cstr buf))) = 0) :
    execute_line os sh line_ = some (Outcome.ret 0, sh) := by
  unfold execute_line
  simp only [hbuf]
  split
  · rfl
  · split <;> rfl

/-! ## Lemmas on the redirection file -/

/-- A group that ends in `>` and one token, whatever stands before the `>`:
the token is opened as redirection file, and the dispatch follows only when
a descriptor is obtained. -/
theorem execute_group_redir_any {σ : Type} (os : OS σ) (sh : Shell σ) (pre : List String)
    (f : String) (pids : List Int) (index : Nat) (h : ">" ∉ pre) (hf : f ≠ ">") :
    execute_group os sh (pre ++ [">", f]) pids index
      = match open_redir os sh f with
        | (none, sh1) => some { rc := 0, sh := sh1, pids := pids, index := index }
        | (some fd, sh1) =>
          run_command os sh1 (pre ++ [">", f]) (some pre.length)
            (compose_args (pre ++ [">", f]) (scan_redir (pre ++ [">", f]))).1
            (compose_args (pre ++ [">", f]) (scan_redir (pre ++ [">", f]))).2 fd pids index := by
  obtain ⟨hidx, hv⟩ := scan_redir_shape pre f h hf
  have hat : group_at (pre ++ [">", f]) (pre.length + 1) = Slot.str f := by
    unfold group_at
    rw [List.getElem?_append_right (by omega)]
    simp
  unfold execute_group
  simp only [hv, Bool.false_eq_true, if_false, hidx, hat]

/-- The checks of lines 135-149 on a file that exists and is not writable, or
is a directory: an error, and no `open`. -/
theorem open_redir_unusable {σ : Type} (os : OS σ) (sh : Shell σ) (f : String)
    (hex : os.access sh.os f Mode.F_OK ≠ -1)
    (hbad : os.access sh.os f Mode.W_OK = -1 ∨ os.stat sh.os f = some true) :
    open_redir os sh f = (none, log_error sh) := by
  unfold open_redir
  rw [if_pos hex]
  by_cases hw : os.access sh.os f Mode.W_OK = -1
  · rw [if_pos hw]
  · rw [if_neg hw]
    rcases hbad with e | e
    · exact absurd e hw
    · rw [e]

/-! ## Lemmas on the normaliser of any line -/

/-- The tab loop on a line that fits: every character other than a tab is
kept. -/
theorem erase_tabs_eq :
    ∀ (s : List Char) (n : Nat), '\n' ∉ s → n + s.length ≤ MAX_LINE →
      erase_tabs (s ++ ['\n']) n = some (s.filter (fun c => c ≠ '\t') ++ ['\n']) := by
  intro s
  induction s with
  | nil => intro n _ _; simp [erase_tabs]
  | cons x xs ih =>
    intro n hnl hlen
    have hx : x ≠ '\n' := fun e => hnl (by simp [e])
    have hxs : '\n' ∉ xs := fun e => hnl (by simp [e])
    rw [List.cons_append, erase_tabs, if_neg hx]
    simp only []
    by_cases hmax : n + 1 ≥ MAX_LINE
    · have hnil : xs = [] := by
        apply List.length_eq_zero.mp
        simp only [List.length_cons] at hlen
        omega
      subst hnil
      rw [if_pos hmax]
      by_cases ht : x = '\t' <;> simp [ht]
    · rw [if_neg hmax, ih (n + 1) hxs (by simp only [List.length_cons] at hlen; omega)]
      by_cases ht : x = '\t' <;> simp [ht]

/-- The tab loop on any line that has a newline: what it leaves is free of
tabs, ends in the newline it stores, and is made of characters of the line. -/
theorem erase_tabs_shape :
    ∀ (s : List Char) (n : Nat), '\n' ∉ s →
      ∃ t, erase_tabs (s ++ ['\n']) n = some (t ++ ['\n']) ∧ ∀ c ∈ t, c ∈ s ∧ c ≠ '\t' := by
  intro s
  induction s with
  | nil => intro n _; exact ⟨[], by simp [erase_tabs], by simp⟩
  | cons x xs ih =>
    intro n hnl
    have hx : x ≠ '\n' := fun e => hnl (by simp [e])
    have hxs : '\n' ∉ xs := fun e => hnl (by simp [e])
    obtain ⟨t, ht, htc⟩ := ih (n + 1) hxs
    rw [List.cons_append, erase_tabs, if_neg hx]
    simp only []
    by_cases htab : x = '\t'
    · by_cases hmax : n + 1 ≥ MAX_LINE
      · exact ⟨[], by simp [hmax, htab], by simp⟩
      · exact ⟨t, by simp [hmax, htab, ht], fun c hc => ⟨by simp [(htc c hc).1], (htc c hc).2⟩⟩
    · by_cases hmax : n + 1 ≥ MAX_LINE
      · refine ⟨[x], by simp [hmax, htab], ?_⟩
        intro c hc
        simp only [List.mem_singleton] at hc
        subst hc
        exact ⟨by simp, htab⟩
      · refine ⟨x :: t, by simp [hmax, htab, ht], ?_⟩
        intro c hc
        rcases List.mem_cons.mp hc with e | e
        · subst e; exact ⟨by simp, htab⟩
        · exact ⟨by simp [(htc c e).1], (htc c e).2⟩

theorem amps_spaced_of_no_amp (a : List Char) (h : '&' ∉ a) : amps_spaced a := by
  unfold amps_spaced
  induction a with
  | nil => exact List.chain'_nil
  | cons x xs ih =>
    have hx : x ≠ '&' := fun e => h (by simp [e])
    have hxs : '&' ∉ xs := fun e => h (by simp [e])
    cases xs with
    | nil => exact List.chain'_singleton x
    | cons y ys =>
      have hy : y ≠ '&' := fun e => hxs (by simp [e])
      rw [List.chain'_cons]
      exact ⟨⟨fun e => absurd e hx, fun e => absurd e hy⟩, ih hxs⟩

theorem amps_spaced_append (p a : List Char) (hp : amps_spaced p) (ha : amps_spaced a)
    (hb : ∀ x y, p.getLast? = some x → a.head? = some y →
      (x = '&' → y = ' ') ∧ (y = '&' → x = ' ')) : amps_spaced (p ++ a) := by
  unfold amps_spaced at hp ha ⊢
  rw [List.chain'_append]
  exact ⟨hp, ha, fun x hx y hy => hb x y hx hy⟩

theorem getLast?_eq_getD (a : List Char) (hne : a ≠ []) :
    a.getLast? = some (a.getD (a.length - 1) ' ') := by
  have hlt : a.length - 1 < a.length := by
    have := List.length_pos.mpr hne
    omega
  rw [List.getLast?_eq_getElem?, List.getD_eq_getElem?_getD, List.getElem?_eq_getElem hlt]
  rfl

/-- On any line the loop of lines 310-343 leaves a line in which every `&`
has a space, or an end of the content, on each side; it only adds spaces. -/
theorem pad_amps_spaced :
    ∀ (fuel : Nat) (pre v : List Char), amps_spaced pre →
      (pre = [] ∨ (pre.getLast? = some '&' ∧ (v = [] ∨ v.head? = some ' '))) →
      v.count '&' < fuel →
      ∃ u, pad_amps fuel (pre ++ (v ++ ['\n'])) pre.length = u ++ ['\n'] ∧ amps_spaced u ∧
        u.filter (fun c => c ≠ ' ') = (pre ++ v).filter (fun c => c ≠ ' ') := by
  intro fuel
  induction fuel with
  | zero => intro pre v _ _ h; omega
  | succ k ih =>
    intro pre v hchain hbound hcount
    by_cases hmem : '&' ∈ v
    · obtain ⟨a, rest, hsplit, ha⟩ := first_amp_split v hmem
      subst hsplit
      have hcnt : rest.count '&' < k := by
        have : (a ++ '&' :: rest).count '&' = rest.count '&' + 1 := by
          rw [List.count_append, List.count_eq_zero.mpr ha]
          simp
        omega
      have hane : pre ≠ [] → a ≠ [] ∧ a.head? = some ' ' := by
        intro hp
        rcases hbound with e | ⟨_, e | e⟩
        · exact absurd e hp
        · simp at e
        · cases a with
          | nil => simp at e
          | cons x xs => exact ⟨by simp, by simpa using e⟩
      have hpa : amps_spaced (pre ++ a) := by
        apply amps_spaced_append pre a hchain (amps_spaced_of_no_amp a ha)
        intro x y hx hy
        have hp : pre ≠ [] := by
          intro e
          subst e
          simp at hx
        have hy2 := (hane hp).2
        rw [hy] at hy2
        injection hy2 with hy2
        subst hy2
        exact ⟨fun _ => rfl, fun e => absurd e (by decide)⟩
      have hstep := pad_amps_step k pre a (rest ++ ['\n']) ha
      have hl : pre ++ ((a ++ '&' :: rest) ++ ['\n']) = pre ++ (a ++ '&' :: (rest ++ ['\n'])) := by
        simp
      rw [hl, hstep]
      by_cases hbad : ((decide (0 < a.length) && a.getD (a.length - 1) ' ' != ' ') ||
          (decide (1 < (rest ++ ['\n']).length) && (rest ++ ['\n']).getD 0 ' ' != ' ')) = true
      · rw [if_pos hbad]
        have hchain1 : amps_spaced (pre ++ (a ++ [' ', '&'])) := by
          have e : pre ++ (a ++ [' ', '&']) = ((pre ++ a) ++ [' ']) ++ ['&'] := by simp
          rw [e]
          have hsing : amps_spaced ['&'] := List.chain'_singleton _
          apply amps_spaced_append _ _ _ hsing
          · intro x y hx hy
            have hlast : (pre ++ a ++ [' ']).getLast? = some ' ' := by simp
            rw [hlast] at hx
            injection hx with hx
            simp only [List.head?_cons, Option.some.injEq] at hy
            subst hx
            subst hy
            exact ⟨fun e => absurd e (by decide), fun _ => rfl⟩
          · apply amps_spaced_append _ _ hpa (amps_spaced_of_no_amp _ (by decide))
            intro x y _ hy
            simp only [List.head?_cons, Option.some.injEq] at hy
            subst hy
            exact ⟨fun _ => rfl, fun e => absurd e (by decide)⟩
        obtain ⟨u, hu, huc, huf⟩ := ih (pre ++ (a ++ [' ', '&'])) (' ' :: rest) hchain1
          (Or.inr ⟨by simp [← List.append_assoc], Or.inr rfl⟩)
          (by simpa [List.count_cons] using hcnt)
        refine ⟨u, by simpa using hu, huc, ?_⟩
        rw [huf]
        simp [List.filter_append, List.filter_cons]
      · rw [if_neg hbad]
        simp only [Bool.or_eq_true, Bool.and_eq_true, decide_eq_true_eq, bne_iff_ne, ne_eq,
          not_or, not_and, not_not] at hbad
        obtain ⟨hb1, hb2⟩ := hbad
        have hchain1 : amps_spaced (pre ++ (a ++ ['&'])) := by
          rw [← List.append_assoc]
          have hsing : amps_spaced ['&'] := List.chain'_singleton _
          apply amps_spaced_append _ _ hpa hsing
          intro x y hx hy
          simp only [List.head?_cons, Option.some.injEq] at hy
          subst hy
          refine ⟨fun e => ?_, fun _ => ?_⟩
          · exfalso
            subst e
            by_cases hna : a = []
            · subst hna
              have hp : pre ≠ [] := by
                intro e
                subst e
                simp at hx
              exact (hane hp).1 rfl
            · rw [List.getLast?_append_of_ne_nil _ hna, getLast?_eq_getD a hna,
                hb1 (List.length_pos.mpr hna)] at hx
              injection hx with hx
              exact absurd hx (by decide)
          · by_cases hna : a = []
            · subst hna
              have hp : pre ≠ [] := by
                intro e
                subst e
                simp at hx
              exact absurd rfl (hane hp).1
            · rw [List.getLast?_append_of_ne_nil _ hna, getLast?_eq_getD a hna,
                hb1 (List.length_pos.mpr hna)] at hx
              injection hx with hx
              exact hx.symm
        have hrest : rest = [] ∨ rest.head? = some ' ' := by
          cases rest with
          | nil => exact Or.inl rfl
          | cons x xs =>
            right
            have := hb2 (by simp)
            simpa using this
        obtain ⟨u, hu, huc, huf⟩ := ih (pre ++ (a ++ ['&'])) rest hchain1
          (Or.inr ⟨by simp [← List.append_assoc], hrest⟩) hcnt
        refine ⟨u, by simpa using hu, huc, ?_⟩
        rw [huf]
        simp [List.filter_append, List.filter_cons]
    · refine ⟨pre ++ v, ?_, ?_, rfl⟩
      · have hnl : '&' ∉ v ++ ['\n'] := by
          simp only [List.mem_append, List.mem_singleton, not_or]
          exact ⟨hmem, by decide⟩
        rw [pad_amps_done _ pre (v ++ ['\n']) hnl]
        simp
      · apply amps_spaced_append pre v hchain (amps_spaced_of_no_amp v hmem)
        intro x y hx hy
        have hyne : y ≠ '&' := by
          intro e
          subst e
          exact hmem (List.mem_of_mem_head? hy)
        rcases hbound with e | ⟨e1, e2 | e2⟩
        · subst e
          simp at hx
        · subst e2
          simp at hy
        · rw [e2] at hy
          injection hy with hy
          subst hy
          exact ⟨fun _ => rfl, fun e => absurd e (by decide)⟩

/-- A buffer's content without a zero byte is the C string it holds. -/
theorem cstr_eq (t : List Char) (h : Char.ofNat 0 ∉ t) : cstr t = t := by
  unfold cstr
  rw [List.takeWhile_eq_self_iff]
  intro c hc
  have hne : c ≠ Char.ofNat 0 := fun e => h (e ▸ hc)
  simpa using hne

theorem first_split (c : Char) (v : List Char) (h : c ∈ v) :
    ∃ a rest, v = a ++ c :: rest ∧ c ∉ a := by
  induction v with
  | nil => simp at h
  | cons x xs ih =>
    by_cases hx : x = c
    · exact ⟨[], xs, by simp [hx], by simp⟩
    · have hxs : c ∈ xs := by
        rcases List.mem_cons.mp h with e | e
        · exact absurd e.symm hx
        · exact e
      obtain ⟨a, rest, e, ha⟩ := ih hxs
      refine ⟨x :: a, rest, by simp [e], ?_⟩
      intro hm
      rcases List.mem_cons.mp hm with e1 | e1
      · exact hx e1.symm
      · exact ha e1

/-- Lines 292-303 on a line without `>`: the line is copied. -/
theorem pad_redirect_none (t : List Char) (h : '>' ∉ t) :
    pad_redirect (t ++ ['\n']) = t ++ ['\n'] := by
  have hn : '>' ∉ t ++ ['\n'] := by
    simp only [List.mem_append, List.mem_singleton, not_or]
    exact ⟨h, by decide⟩
  unfold pad_redirect
  rw [strchr_of_not_mem _ _ hn]

/-- Lines 292-303 on a line with `>`: a space is put on each side of the
first `>`, whatever stands there. -/
theorem pad_redirect_split (a b : List Char) (h : '>' ∉ a) :
    pad_redirect (a ++ '>' :: b) = a ++ [' ', '>', ' '] ++ b := by
  have t1 : List.drop (a.length + 1) (a ++ '>' :: b) = b := by
    rw [← List.drop_drop, List.drop_left]
    rfl
  unfold pad_redirect
  rw [strchr_append a b '>' h]
  simp only []
  rw [List.take_left, t1]

/-- The loop of lines 310-343 changes nothing on a line in which every `&`
has a space, or an end of the content, on each side. -/
theorem pad_amps_fixed :
    ∀ (fuel : Nat) (pre v : List Char), amps_spaced (pre ++ v) →
      pad_amps fuel (pre ++ (v ++ ['\n'])) pre.length = pre ++ (v ++ ['\n']) := by
  intro fuel
  induction fuel with
  | zero => intro pre v _; rfl
  | succ k ih =>
    intro pre v hch
    by_cases hmem : '&' ∈ v
    · obtain ⟨a, rest, hsplit, ha⟩ := first_amp_split v hmem
      subst hsplit
      have hl : pre ++ ((a ++ '&' :: rest) ++ ['\n']) = pre ++ (a ++ '&' :: (rest ++ ['\n'])) := by
        simp
      rw [hl, pad_amps_step k pre a (rest ++ ['\n']) ha]
      have hch2 : amps_spaced ((pre ++ a) ++ '&' :: rest) := by
        rw [List.append_assoc]
        exact hch
      obtain ⟨h1, h2⟩ := List.chain'_split.mp hch2
      have hnb : ¬ (((decide (0 < a.length) && a.getD (a.length - 1) ' ' != ' ') ||
          (decide (1 < (rest ++ ['\n']).length) && (rest ++ ['\n']).getD 0 ' ' != ' ')) = true) := by
        simp only [Bool.or_eq_true, Bool.and_eq_true, decide_eq_true_eq, bne_iff_ne, ne_eq,
          not_or, not_and, not_not]
        constructor
        · intro hpos
          have hna : a ≠ [] := List.length_pos.mp hpos
          have hlast : (pre ++ a).getLast? = some (a.getD (a.length - 1) ' ') := by
            rw [List.getLast?_append_of_ne_nil _ hna, getLast?_eq_getD a hna]
          exact ((List.chain'_append.mp h1).2.2 _ hlast '&' rfl).2 rfl
        · intro hpos
          cases rest with
          | nil => simp at hpos
          | cons y r =>
            have hy := ((List.chain'_cons.mp h2).1).1 rfl
            simp [hy]
      rw [if_neg hnb]
      have hrec := ih (pre ++ (a ++ ['&'])) rest (by simpa using hch)
      simpa using hrec
    · have hn : '&' ∉ v ++ ['\n'] := by
        simp only [List.mem_append, List.mem_singleton, not_or]
        exact ⟨hmem, by decide⟩
      exact pad_amps_done _ pre _ hn

/-- Lines 289-346 on any line: every `&` of the result has a space, or an
end of the content, on each side, and only spaces were added. -/
theorem normalize_spaced (t : List Char) :
    ∃ u, normalize (t ++ ['\n']) = u ++ ['\n'] ∧ amps_spaced u ∧
      u.filter (fun c => c ≠ ' ') = t.filter (fun c => c ≠ ' ') := by
  have hred : ∃ t1, pad_redirect (t ++ ['\n']) = t1 ++ ['\n'] ∧
      t1.filter (fun c => c ≠ ' ') = t.filter (fun c => c ≠ ' ') := by
    by_cases hgt : '>' ∈ t
    · obtain ⟨a, b, e, ha⟩ := first_split '>' t hgt
      subst e
      refine ⟨a ++ [' ', '>', ' '] ++ b, ?_, ?_⟩
      · rw [List.append_assoc a, List.cons_append, pad_redirect_split a _ ha]
        simp
      · simp [List.filter_append, List.filter_cons]
    · exact ⟨t, pad_redirect_none t hgt, rfl⟩
  obtain ⟨t1, h1, h2⟩ := hred
  have hcount : t1.count '&' < (t1 ++ ['\n']).length + 1 := by
    have := List.count_le_length '&' t1
    simp only [List.length_append, List.length_singleton]
    omega
  obtain ⟨u, hu, hsp, hf⟩ := pad_amps_spaced _ [] t1 List.chain'_nil (Or.inl rfl) hcount
  refine ⟨u, ?_, hsp, ?_⟩
  · unfold normalize
    simp only [h1]
    exact hu
  · rw [hf]
    exact h2

/-- Lines 289-346 change nothing on a line without `>` in which every `&`
has a space, or an end of the content, on each side. -/
theorem normalize_fixed (t : List Char) (hgt : '>' ∉ t) (hsp : amps_spaced t) :
    normalize (t ++ ['\n']) = t ++ ['\n'] := by
  unfold normalize
  simp only [pad_redirect_none t hgt]
  exact pad_amps_fixed _ [] t hsp

/-- The normaliser on a line that fits the buffer and holds no zero byte. -/
theorem normalize_line_eq (s : List Char) (hnl : '\n' ∉ s) (hnul : Char.ofNat 0 ∉ s)
    (hlen : s.length ≤ MAX_LINE) :
    normalize_line (s ++ ['\n'])
      = some (normalize (s.filter (fun c => c ≠ '\t') ++ ['\n'])) := by
  have hc : Char.ofNat 0 ∉ s.filter (fun c => c ≠ '\t') ++ ['\n'] := by
    simp only [List.mem_append, List.mem_singleton, not_or]
    exact ⟨fun h => hnul (List.mem_of_mem_filter h), by decide⟩
  unfold normalize_line
  rw [erase_tabs_eq s 0 hnl (by omega)]
  simp only [Option.map_some', cstr_eq _ hc]

/-! ## Lemmas on the `&` tokens of any line -/

theorem space_free_pieces_sub (l : List Char) :
    ∀ w ∈ space_free_pieces l, w <:+: l := by
  induction l using pieces_induction with
  | hnil => simp [space_free_pieces_nil]
  | hspace xs ih =>
    rw [space_free_pieces_cons_space]
    intro w hw
    exact List.infix_cons (ih w hw)
  | hrun x xs hx ih =>
    rw [space_free_pieces_cons_ne x xs hx]
    intro w hw
    rcases List.mem_cons.mp hw with h | h
    · subst h
      exact (List.takeWhile_prefix _).isInfix
    · exact (ih w h).trans (List.dropWhile_suffix _).isInfix

theorem space_free_pieces_flatten (l : List Char) :
    (space_free_pieces l).flatten = l.filter (fun c => c ≠ ' ') := by
  induction l using pieces_induction with
  | hnil => simp [space_free_pieces_nil]
  | hspace xs ih =>
    rw [space_free_pieces_cons_space, ih]
    simp [List.filter_cons]
  | hrun x xs hx ih =>
    rw [space_free_pieces_cons_ne x xs hx, List.flatten_cons, ih]
    have hsplit := List.takeWhile_append_dropWhile (fun c => !decide (c = ' ')) (x :: xs)
    have htw : ((x :: xs).takeWhile (fun c => !decide (c = ' '))).filter (fun c => c ≠ ' ')
        = (x :: xs).takeWhile (fun c => !decide (c = ' ')) := by
      rw [List.filter_eq_self]
      intro c hc
      have := List.mem_takeWhile_imp hc
      simpa using this
    conv_rhs => rw [← hsplit, List.filter_append, htw]

/-- A space-free run of a line in which every `&` has a space or an end on
each side: when it holds a `&` it is the run `&`. -/
theorem amp_piece (w : List Char) (hch : amps_spaced w) (hsp : ' ' ∉ w) (hamp : '&' ∈ w) :
    w = ['&'] := by
  induction w with
  | nil => simp at hamp
  | cons x xs ih =>
    cases xs with
    | nil => simpa [eq_comm] using hamp
    | cons y r =>
      exfalso
      unfold amps_spaced at hch
      rw [List.chain'_cons] at hch
      have hx : x ≠ ' ' := fun e => hsp (by simp [e])
      have hy : y ≠ ' ' := fun e => hsp (by simp [e])
      have hxa : x ≠ '&' := fun e => hy (hch.1.1 e)
      have hya : y ≠ '&' := fun e => hx (hch.1.2 e)
      have hmem : '&' ∈ y :: r := by
        rcases List.mem_cons.mp hamp with e | e
        · exact absurd e.symm hxa
        · exact e
      have := ih hch.2 (fun e => hsp (List.mem_cons_of_mem _ e)) hmem
      injection this with h1 _
      exact hya h1

theorem count_amp_pieces (L : List (List Char)) (h : ∀ w ∈ L, '&' ∈ w → w = ['&']) :
    L.flatten.count '&' = L.countP (fun w => decide (w = ['&'])) := by
  induction L with
  | nil => rfl
  | cons w L ih =>
    have ih2 := ih (fun v hv => h v (List.mem_cons_of_mem _ hv))
    rw [List.flatten_cons, List.count_append, ih2, List.countP_cons]
    by_cases hw : '&' ∈ w
    · have e := h w (List.mem_cons_self _ _) hw
      subst e
      simp
      omega
    · have hne : w ≠ ['&'] := fun e => hw (by simp [e])
      rw [List.count_eq_zero.mpr hw]
      simp [hne]

/-- The tokens of a line in which every `&` has a space or an end on each
side: a token that holds a `&` is the token `&`, and there are as many such
tokens as the line has `&`. -/
theorem tokens_amp (u : List Char) (hnl : '\n' ∉ u) (hsp : amps_spaced u) :
    (∀ t ∈ tokens_of (u ++ ['\n']), '&' ∈ t.data → t = "&") ∧
      (tokens_of (u ++ ['\n'])).count "&" = u.count '&' := by
  have hpieces : ∀ w ∈ space_free_pieces u, '&' ∈ w → w = ['&'] := by
    intro w hw hamp
    obtain ⟨p, q, e⟩ := space_free_pieces_sub u w hw
    have hc : amps_spaced (p ++ w ++ q) := by
      rw [e]
      exact hsp
    exact amp_piece w (List.chain'_append.mp (List.chain'_append.mp hc).1).2.1
      (space_free_pieces_mem u w hw).2.1 hamp
  have hinj : Function.Injective String.mk := by
    intro a b e
    injection e
  rw [tokens_of_eq_pieces u hnl]
  constructor
  · intro t ht hamp
    obtain ⟨w, hw, e⟩ := List.mem_map.mp ht
    subst e
    rw [hpieces w hw hamp]
  · have e : ("&" : String) = String.mk ['&'] := rfl
    have h1 := count_amp_pieces _ hpieces
    rw [space_free_pieces_flatten] at h1
    have h2 : (u.filter (fun c => c ≠ ' ')).count '&' = u.count '&' :=
      List.count_filter (by decide)
    rw [e, List.count_map_of_injective _ _ hinj]
    exact h1.symm.trans h2

/-! ## Lemmas on passes of the normaliser -/

/-- The normaliser on a line that fits the buffer and holds neither a zero
byte nor a tab. -/
theorem normalize_line_plain (s : List Char)
    (hs : ∀ c ∈ s, c ≠ '\n' ∧ c ≠ Char.ofNat 0 ∧ c ≠ '\t') (hlen : s.length ≤ MAX_LINE) :
    normalize_line (s ++ ['\n']) = some (normalize (s ++ ['\n'])) := by
  have hf : s.filter (fun c => c ≠ '\t') = s := by
    rw [List.filter_eq_self]
    intro c hc
    simpa using (hs c hc).2.2
  have h := normalize_line_eq s (fun h => (hs _ h).1 rfl) (fun h => (hs _ h).2.1 rfl) hlen
  rw [hf] at h
  exact h

/-- A pass of the normaliser over a line whose first `>` stands after `a` and
before `b` and whose `&` have a space or an end on each side: a space is put
on each side of that `>` and nothing else changes. -/
theorem normalize_line_redirect (a b : List Char)
    (hs : ∀ c ∈ a ++ '>' :: b, c ≠ '\n' ∧ c ≠ Char.ofNat 0 ∧ c ≠ '\t')
    (hlen : (a ++ '>' :: b).length ≤ MAX_LINE) (ha : '>' ∉ a)
    (hsp : amps_spaced (a ++ '>' :: b)) :
    normalize_line ((a ++ '>' :: b) ++ ['\n'])
      = some (((a ++ [' ']) ++ '>' :: ' ' :: b) ++ ['\n']) ∧
    amps_spaced ((a ++ [' ']) ++ '>' :: ' ' :: b) := by
  obtain ⟨h1, h2⟩ := List.chain'_split.mp hsp
  have hca : amps_spaced a := (List.chain'_append.mp h1).1
  have hcb : amps_spaced b := List.Chain'.tail h2
  have hsp1 : amps_spaced ((a ++ [' ']) ++ '>' :: ' ' :: b) := by
    have e : (a ++ [' ']) ++ '>' :: ' ' :: b = a ++ ([' ', '>', ' '] ++ b) := by simp
    rw [e]
    apply amps_spaced_append a _ hca
    · apply amps_spaced_append _ b (amps_spaced_of_no_amp _ (by decide)) hcb
      intro x y hx hy
      have hx2 : x = ' ' := by
        have hl : ([' ', '>', ' '] : List Char).getLast? = some ' ' := rfl
        rw [hl] at hx
        injection hx with hx
        exact hx.symm
      subst hx2
      exact ⟨fun e => absurd e (by decide), fun _ => rfl⟩
    · intro x y _ hy
      have hy2 : y = ' ' := by
        simp only [List.cons_append, List.head?_cons, Option.some.injEq] at hy
        exact hy.symm
      subst hy2
      exact ⟨fun _ => rfl, fun e => absurd e (by decide)⟩
  refine ⟨?_, hsp1⟩
  rw [normalize_line_plain _ hs hlen]
  congr 1
  unfold normalize
  have hp : pad_redirect ((a ++ '>' :: b) ++ ['\n'])
      = ((a ++ [' ']) ++ '>' :: ' ' :: b) ++ ['\n'] := by
    rw [List.append_assoc a, List.cons_append, pad_redirect_split a _ ha]
    simp
  simp only [hp]
  exact pad_amps_fixed _ [] _ hsp1

/-- The normaliser on any line that fits the buffer: in what it returns
every `&` has a space or an end of the content on each side, and what it
returns is the line without its tabs and with spaces added. -/
theorem normalize_line_shape (s : List Char) (hnl : '\n' ∉ s) (hnul : Char.ofNat 0 ∉ s)
    (hlen : s.length ≤ MAX_LINE) :
    ∃ u, normalize_line (s ++ ['\n']) = some (u ++ ['\n']) ∧ amps_spaced u ∧
      u.filter (fun c => c ≠ ' ')
        = (s.filter (fun c => c ≠ '\t')).filter (fun c => c ≠ ' ') ∧
      ∀ c ∈ u, c = ' ' ∨ (c ∈ s ∧ c ≠ '\t') := by
  obtain ⟨u, hu, hsp, hf⟩ := normalize_spaced (s.filter (fun c => c ≠ '\t'))
  refine ⟨u, ?_, hsp, hf, ?_⟩
  · rw [normalize_line_eq s hnl hnul hlen, hu]
  · intro c hc
    by_cases hsp2 : c = ' '
    · exact Or.inl hsp2
    · right
      have h1 : c ∈ u.filter (fun c => c ≠ ' ') := by
        rw [List.mem_filter]
        exact ⟨hc, by simpa using hsp2⟩
      rw [hf] at h1
      have h2 := List.mem_of_mem_filter h1
      rw [List.mem_filter] at h2
      exact ⟨h2.1, by simpa using h2.2⟩

theorem chain_getElem? {α : Type} (R : α → α → Prop) :
    ∀ (l : List α) (i : Nat) (a b : α), List.Chain' R l → l[i]? = some a →
      l[i + 1]? = some b → R a b
  | [], _, _, _, _, h, _ => by simp at h
  | [_], _, _, _, _, _, h2 => by simp at h2
  | x :: y :: r, 0, a, b, hc, h1, h2 => by
    simp only [List.getElem?_cons_zero, Option.some.injEq] at h1
    simp only [zero_add, List.getElem?_cons_succ, List.getElem?_cons_zero,
      Option.some.injEq] at h2
    subst h1
    subst h2
    exact (List.chain'_cons.mp hc).1
  | _ :: y :: r, i + 1, a, b, hc, h1, h2 =>
    chain_getElem? R (y :: r) i a b (List.chain'_cons.mp hc).2
      (by simpa using h1) (by simpa using h2)

/-- Where the `&` of a line stand when each has a space or an end of the
content on each side: at the start or after a space, and before a space or
before the newline. -/
theorem amps_spaced_index (u : List Char) (hsp : amps_spaced u) :
    ∀ i, (u ++ ['\n'])[i]? = some '&' →
      (i = 0 ∨ (u ++ ['\n'])[i - 1]? = some ' ') ∧
      ((u ++ ['\n'])[i + 1]? = some ' ' ∨ (u ++ ['\n'])[i + 1]? = some '\n') := by
  intro i hi
  have hlt : i < u.length := by
    by_contra hge
    rw [List.getElem?_append_right (by omega)] at hi
    cases hk : i - u.length with
    | zero => rw [hk] at hi; simp at hi
    | succ k => rw [hk] at hi; simp at hi
  have hu : u[i]? = some '&' := by
    rw [List.getElem?_append_left hlt] at hi
    exact hi
  constructor
  · cases i with
    | zero => exact Or.inl rfl
    | succ k =>
      right
      have hk : k < u.length := by omega
      have hx : u[k]? = some (u[k]) := List.getElem?_eq_getElem hk
      have hR := chain_getElem? _ u k _ _ hsp hx hu
      rw [Nat.add_sub_cancel, List.getElem?_append_left (by omega), hx, hR.2 rfl]
  · by_cases hnext : i + 1 < u.length
    · left
      have hy : u[i + 1]? = some (u[i + 1]) := List.getElem?_eq_getElem hnext
      have hR := chain_getElem? _ u i _ _ hsp hu hy
      rw [List.getElem?_append_left hnext, hy, hR.1 rfl]
    · right
      have e : i + 1 = u.length := by omega
      rw [List.getElem?_append_right (by omega), e]
      simp

/-- The tab loop stores at most `MAX_LINE - n` characters of the line, and
then the newline. -/
theorem erase_tabs_length :
    ∀ (line_ : List Char) (n : Nat) (out : List Char), n < MAX_LINE →
      erase_tabs line_ n = some out → out.length + n ≤ MAX_LINE + 1 := by
  intro line_
  induction line_ with
  | nil => intro n out _ h; simp [erase_tabs] at h
  | cons c rest ih =>
    intro n out hn h
    rw [erase_tabs] at h
    by_cases hc : c = '\n'
    · rw [if_pos hc] at h
      injection h with h
      subst h
      simp only [List.length_singleton]
      omega
    · rw [if_neg hc] at h
      simp only [] at h
      by_cases hmax : n + 1 ≥ MAX_LINE
      · rw [if_pos hmax] at h
        injection h with h
        subst h
        by_cases ht : c = '\t' <;> simp [ht] <;> omega
      · rw [if_neg hmax] at h
        cases hr : erase_tabs rest (n + 1) with
        | none => rw [hr] at h; simp at h
        | some r =>
          rw [hr] at h
          simp only [Option.map_some', Option.some.injEq] at h
          subst h
          have := ih (n + 1) r (by omega) hr
          by_cases ht : c = '\t' <;> simp [ht] <;> omega

/-! ## Lemmas on the order of the calls of a group -/

/-- The dispatch only adds to the calls made. -/
theorem run_command_extends {σ : Type} (os : OS σ) (sh : Shell σ) (group : List String)
    (ridx : Option Nat) (args : List Slot) (num_args : Nat) (fd : Int) (pids : List Int)
    (index : Nat) (r : GroupResult σ)
    (h : run_command os sh group ridx args num_args fd pids index = some r) :
    ∃ tail, r.sh.trace = sh.trace ++ tail := by
  cases group with
  | nil => simp [run_command, group_at] at h
  | cons cmd rest =>
    simp only [run_command, group_at, List.getElem?_cons_zero] at h
    split at h
    · simp at h; subst h
      split
      · exact ⟨_, rfl⟩
      · exact ⟨[], (List.append_nil _).symm⟩
    · split at h
      · split at h
        · simp at h; subst h
          exact ⟨_, rfl⟩
        · split at h
          · simp at h; subst h
            split
            · exact ⟨_, List.append_assoc _ _ _⟩
            · exact ⟨_, rfl⟩
          · simp at h
      · split at h
        · split at h
          · simp at h; subst h
            split
            · exact ⟨[], (List.append_nil _).symm⟩
            · exact ⟨_, rfl⟩
          · simp at h
        · split at h
          · simp at h; subst h
            exact ⟨_, rfl⟩
          · simp at h; subst h
            exact ⟨_, rfl⟩

/-- The checks of lines 135-164 on a file that is absent, or exists, can be
written and is no directory: the file is opened, and the descriptor is given
unless `open` failed. -/
theorem open_redir_usable {σ : Type} (os : OS σ) (sh : Shell σ) (f : String)
    (husable : os.access sh.os f Mode.F_OK = -1 ∨
      (os.access sh.os f Mode.W_OK ≠ -1 ∧ os.stat sh.os f = some false)) :
    ∃ (fd : Int) (s1 : σ) (ev : Event),
      ((os.access sh.os f Mode.F_OK = -1 ∧ os.open_creat sh.os f = (fd, s1) ∧
          ev = Event.open_creat f fd) ∨
        (os.access sh.os f Mode.F_OK ≠ -1 ∧ os.open_trunc sh.os f = (fd, s1) ∧
          ev = Event.open_trunc f fd)) ∧
      open_redir os sh f
        = if fd = -1 then
            (none, log_error { sh with os := s1, trace := sh.trace ++ [ev] })
          else (some fd, { sh with os := s1, trace := sh.trace ++ [ev] }) := by
  by_cases habs : os.access sh.os f Mode.F_OK = -1
  · refine ⟨(os.open_creat sh.os f).1, (os.open_creat sh.os f).2, _,
      Or.inl ⟨habs, rfl, rfl⟩, ?_⟩
    unfold open_redir
    rw [if_neg (not_not.mpr habs)]
  · have hw : os.access sh.os f Mode.W_OK ≠ -1 ∧ os.stat sh.os f = some false := by
      rcases husable with e | e
      · exact absurd e habs
      · exact e
    refine ⟨(os.open_trunc sh.os f).1, (os.open_trunc sh.os f).2, _,
      Or.inr ⟨habs, rfl, rfl⟩, ?_⟩
    unfold open_redir
    rw [if_pos habs, if_neg hw.1, hw.2]

/-! ## Lemmas on the capacity of `args` -/

theorem writeAt_length_le {α : Type} (xs : List α) (i b : Nat) (v pad : α)
    (hx : xs.length ≤ b) (hi : i < b) : (writeAt xs i v pad).length ≤ b := by
  unfold writeAt
  split
  · simpa using hx
  · simp only [List.length_append, List.length_replicate, List.length_singleton]
    omega

theorem copy_args_length (group : List String) :
    ∀ (n j : Nat) (st : List Slot × Nat) (b : Nat), st.1.length ≤ b → j + n ≤ b →
      (copy_args group n j st).1.length ≤ b := by
  intro n
  induction n with
  | zero => intro j st b h _; exact h
  | succ k ih =>
    intro j st b h hj
    rw [copy_args]
    exact ih (j + 1) _ b (writeAt_length_le _ _ _ _ _ h (by omega)) (by omega)

/-- The slots of `args` written by lines 116-131 are those up to the index of
the terminator. -/
theorem compose_args_length (group : List String) (sc : RedirScan) :
    (compose_args group sc).1.length
      ≤ (match sc.redir_op_index with
          | none => sc.i
          | some k => k) + 1 := by
  unfold compose_args
  simp only []
  apply writeAt_length_le
  · exact copy_args_length group _ 1 ([], 0) _ (by simp) (by omega)
  · omega

/-- A group without `>` of fewer than `MAX_TOKENS` tokens: every slot of
`args` written is one of its `MAX_TOKENS` slots. -/
theorem compose_args_in_bounds (group : List String) (hno : ">" ∉ group)
    (hcap : group.length < MAX_TOKENS) :
    (compose_args group (scan_redir group)).1.length ≤ MAX_TOKENS := by
  obtain ⟨hi, _, _, hidx, _⟩ := scan_redir_spec group
  have h := compose_args_length group (scan_redir group)
  rw [hidx (List.count_eq_zero.mpr hno)] at h
  simp only [hi] at h
  omega

/-- A group `pre > f` with fewer than `MAX_TOKENS` tokens before the `>`:
every slot of `args` written is one of its `MAX_TOKENS` slots. -/
theorem compose_args_in_bounds_redir (pre : List String) (f : String) (hno : ">" ∉ pre)
    (hf : f ≠ ">") (hcap : pre.length < MAX_TOKENS) :
    (compose_args (pre ++ [">", f]) (scan_redir (pre ++ [">", f]))).1.length ≤ MAX_TOKENS := by
  obtain ⟨hidx, _⟩ := scan_redir_shape pre f hno hf
  have h := compose_args_length (pre ++ [">", f]) (scan_redir (pre ++ [">", f]))
  rw [hidx] at h
  simp only [] at h
  omega

/-! ## Lemmas on the tabs of a line and on the wait loop -/

/-- Erasing the tabs of a line keeps a space, or an end, on each side of
every `&` that had one. -/
theorem amps_spaced_erase_tabs (s : List Char) :
    (amps_spaced s → amps_spaced (s.filter (fun c => c ≠ '\t'))) ∧
    (∀ x, x ≠ '\t' → amps_spaced (x :: s) →
      amps_spaced (x :: s.filter (fun c => c ≠ '\t'))) ∧
    (amps_spaced ('\t' :: s) → (s.filter (fun c => c ≠ '\t')).head? ≠ some '&') := by
  induction s with
  | nil =>
    refine ⟨fun h => h, fun x _ h => h, fun _ => by simp⟩
  | cons y ys ih =>
    obtain ⟨ih1, ih2, ih3⟩ := ih
    by_cases hy : y = '\t'
    · subst hy
      have hf : (('\t' :: ys).filter (fun c => c ≠ '\t')) = ys.filter (fun c => c ≠ '\t') := by
        simp [List.filter_cons]
      rw [hf]
      refine ⟨fun h => ih1 (List.Chain'.tail h), ?_, ?_⟩
      · intro x _ h
        unfold amps_spaced at h
        rw [List.chain'_cons] at h
        have hxa : x ≠ '&' := fun e => absurd (h.1.1 e) (by decide)
        have hhead := ih3 h.2
        have htail := ih1 (List.Chain'.tail h.2)
        cases hfy : ys.filter (fun c => c ≠ '\t') with
        | nil => exact List.chain'_singleton x
        | cons z r =>
          rw [hfy] at hhead htail
          have hz : z ≠ '&' := fun e => hhead (by simp [e])
          unfold amps_spaced
          rw [List.chain'_cons]
          exact ⟨⟨fun e => absurd e hxa, fun e => absurd e hz⟩, htail⟩
      · intro h
        unfold amps_spaced at h
        rw [List.chain'_cons] at h
        exact ih3 h.2
    · have hf : ((y :: ys).filter (fun c => c ≠ '\t')) = y :: ys.filter (fun c => c ≠ '\t') := by
        simp [List.filter_cons, hy]
      rw [hf]
      refine ⟨fun h => ih2 y hy h, ?_, ?_⟩
      · intro x _ h
        unfold amps_spaced at h
        rw [List.chain'_cons] at h
        have := ih2 y hy h.2
        unfold amps_spaced
        rw [List.chain'_cons]
        exact ⟨h.1, this⟩
      · intro h
        unfold amps_spaced at h
        rw [List.chain'_cons] at h
        intro e
        simp only [List.head?_cons, Option.some.injEq] at e
        exact absurd (h.1.2 e) (by decide)

/-- The wait loop call by call: the handles `pids[i..i+n)` are waited for in
order; `rcs` are the values the calls returned.  Either every call returned
something else than `-1`, all handles were waited for and `0` is returned
with the registry as it was; or the last call made is the first that
returned `-1`, an error follows it, no other handle is waited for, and the
process is left through `Exit(1)` with the registry freed. -/
theorem wait_loop_spec {σ : Type} (os : OS σ) (pids : List Int) :
    ∀ (n i : Nat) (sh : Shell σ), i + n ≤ pids.length →
      ∃ rcs : List Int, rcs.length ≤ n ∧
        (wait_loop os pids n i sh).2.trace
          = sh.trace ++ List.zipWith Event.waitpid ((pids.drop i).take n) rcs
              ++ (if (wait_loop os pids n i sh).1 = Outcome.ret 0 then [] else [Event.error]) ∧
        (∀ rc0 rest, rcs = rc0 :: rest → rc0 = (os.waitpid sh.os (pids.getD i 0)).1) ∧
        (((wait_loop os pids n i sh).1 = Outcome.ret 0 ∧ rcs.length = n ∧
            (∀ rc ∈ rcs, rc ≠ -1) ∧ (wait_loop os pids n i sh).2.path = sh.path) ∨
          ((wait_loop os pids n i sh).1 = Outcome.exited 1 ∧
            (∃ init, rcs = init ++ [-1] ∧ ∀ rc ∈ init, rc ≠ -1) ∧
            (wait_loop os pids n i sh).2.path = free_path)) := by
  intro n
  induction n with
  | zero =>
    intro i sh _
    exact ⟨[], le_refl _, by simp [wait_loop], by simp, Or.inl ⟨rfl, rfl, by simp, rfl⟩⟩
  | succ k ih =>
    intro i sh hle
    have hlt : i < pids.length := by omega
    have hpid : pids.getD i 0 = pids[i] := List.getD_eq_getElem _ _ hlt
    have hdrop : pids.drop i = pids[i] :: pids.drop (i + 1) := List.drop_eq_getElem_cons hlt
    have htake : (pids.drop i).take (k + 1) = pids[i] :: (pids.drop (i + 1)).take k := by
      rw [hdrop, List.take_succ_cons]
    rw [wait_loop, htake]
    simp only [hpid]
    by_cases hrc : (os.waitpid sh.os pids[i]).1 = -1
    · rw [if_pos hrc]
      refine ⟨[-1], by simp, ?_, ?_, Or.inr ⟨rfl, ⟨[], rfl, by simp⟩, rfl⟩⟩
      · simp [log_error, hrc]
      · intro rc0 rest e
        injection e with e1 _
        rw [← e1, hrc]
    · rw [if_neg hrc]
      obtain ⟨rcs, hlen, htr, _, hcase⟩ := ih (i + 1)
        { sh with os := (os.waitpid sh.os pids[i]).2,
                  trace := sh.trace ++ [Event.waitpid pids[i] (os.waitpid sh.os pids[i]).1] }
        (by omega)
      refine ⟨(os.waitpid sh.os pids[i]).1 :: rcs, by simp; omega, ?_, ?_, ?_⟩
      · rw [htr]
        simp
      · intro rc0 rest e
        injection e with e1 _
        exact e1.symm
      · rcases hcase with ⟨a, b, c, d⟩ | ⟨a, ⟨init, e1, e2⟩, d⟩
        · refine Or.inl ⟨a, by simp [b], ?_, d⟩
          intro rc hmem
          rcases List.mem_cons.mp hmem with e | e
          · rw [e]; exact hrc
          · exact c rc e
        · refine Or.inr ⟨a, ⟨(os.waitpid sh.os pids[i]).1 :: init, by simp [e1], ?_⟩, d⟩
          intro rc hmem
          rcases List.mem_cons.mp hmem with e | e
          · rw [e]; exact hrc
          · exact e2 rc e

theorem waits_zipWith :
    ∀ (l rcs : List Int), rcs.length ≤ l.length →
      waits (List.zipWith Event.waitpid l rcs) = l.take rcs.length
  | _, [], _ => by simp [waits]
  | [], _ :: _, h => by simp at h
  | x :: xs, r :: rs, h => by
    have ih := waits_zipWith xs rs (by simpa using h)
    simp only [List.zipWith_cons_cons, List.length_cons, List.take_succ_cons]
    rw [← ih]
    rfl

theorem length_le_flatten {α : Type} (L : List (List α)) (g : List α) (h : g ∈ L) :
    g.length ≤ L.flatten.length := by
  induction L with
  | nil => simp at h
  | cons x xs ih =>
    rw [List.flatten_cons, List.length_append]
    rcases List.mem_cons.mp h with e | e
    · subst e
      omega
    · have := ih e
      omega

/-- Every group of a line has at most as many tokens as the line. -/
theorem group_length_le (tokens g : List String) (h : g ∈ build_groups tokens) :
    g.length ≤ tokens.length := by
  have h1 := length_le_flatten _ g h
  rw [build_groups_eq, maximal_runs_join] at h1
  exact le_trans h1 (List.length_filter_le _ _)

/-- The end of the wait loop when its first call, if there is one, is known:
from what the loop is call by call. -/
theorem wait_loop_first {σ : Type} (os : OS σ) (pids : List Int) (n : Nat) (sh : Shell σ)
    (hle : n ≤ pids.length) :
    ∃ rcs : List Int, rcs.length ≤ n ∧
      (wait_loop os pids n 0 sh).2.trace
        = sh.trace ++ List.zipWith Event.waitpid (pids.take n) rcs
            ++ (if (wait_loop os pids n 0 sh).1 = Outcome.ret 0 then [] else [Event.error]) ∧
      (((wait_loop os pids n 0 sh).1 = Outcome.ret 0 ∧ rcs.length = n ∧
          (∀ rc ∈ rcs, rc ≠ -1) ∧ (wait_loop os pids n 0 sh).2.path = sh.path) ∨
        ((wait_loop os pids n 0 sh).1 = Outcome.exited 1 ∧
          (∃ init, rcs = init ++ [-1] ∧ ∀ rc ∈ init, rc ≠ -1) ∧
          (wait_loop os pids n 0 sh).2.path = [])) ∧
      ((os.waitpid sh.os (pids.getD 0 0)).1 = -1 → 0 < n →
        (wait_loop os pids n 0 sh).1 = Outcome.exited 1 ∧ rcs = [-1]) := by
  obtain ⟨rcs, hlen, htr, hhead, hcase⟩ := wait_loop_spec os pids n 0 sh (by omega)
  rw [List.drop_zero] at htr
  refine ⟨rcs, hlen, htr, hcase, ?_⟩
  intro hfail hpos
  rcases hcase with ⟨_, b, c, _⟩ | ⟨a, ⟨init, e1, e2⟩, _⟩
  · exfalso
    cases rcs with
    | nil => simp at b; omega
    | cons rc0 rest =>
      have := hhead rc0 rest rfl
      exact c rc0 (by simp) (this.trans hfail)
  · refine ⟨a, ?_⟩
    cases init with
    | nil => exact e1
    | cons x t =>
      exfalso
      have := hhead x (t ++ [-1]) (by rw [e1]; rfl)
      exact e2 x (by simp) (this.trans hfail)

/-! ## The padding only adds characters -/

theorem pad_amps_length_le :
    ∀ (fuel : Nat) (l : List Char) (ll : Nat), l.length ≤ (pad_amps fuel l ll).length := by
  intro fuel
  induction fuel with
  | zero => intro l ll; exact le_refl _
  | succ k ih =>
    intro l ll
    rw [pad_amps]
    simp only []
    split
    · exact le_refl _
    · rename_i off _
      have hl1 : l.length ≤ (l.take ll ++ ((l.drop ll).take off ++ [' ', '&', ' ']
          ++ (l.drop ll).drop (off + 1))).length := by
        simp only [List.length_append, List.length_take, List.length_drop, List.length_cons,
          List.length_nil]
        omega
      split
      · split
        · exact hl1
        · exact le_trans hl1 (ih _ _)
      · split
        · exact le_refl _
        · exact ih _ _

theorem pad_redirect_length_le (line0 : List Char) :
    line0.length ≤ (pad_redirect line0).length := by
  unfold pad_redirect
  split
  · simp only [List.length_append, List.length_take, List.length_drop, List.length_cons,
      List.length_nil]
    omega
  · exact le_refl _

/-- The normalised line is at least as long as the line: a padded line that
fits a buffer was never longer than the buffer. -/
theorem normalize_length_le (line0 : List Char) : line0.length ≤ (normalize line0).length := by
  unfold normalize
  exact le_trans (pad_redirect_length_le line0) (pad_amps_length_le _ _ _)

/-! ## The claims -/

/-- C1. For every token list the grouper of `execute_line` yields exactly the
maximal runs of tokens different from `"&"`, in order: the groups built by the
second pass are the non-empty pieces of the list cut at the `"&"` tokens, the
first pass counts as many groups as the second builds, every group is
non-empty and holds no `"&"`, and the groups concatenated are the token list
with every `"&"` removed. -/
theorem C1_grouper_maximal_runs (tokens : List String) :
    build_groups tokens = (tokens.splitOn "&").filter (fun g => g ≠ []) ∧
    count_groups tokens = (build_groups tokens).length ∧
    (∀ g ∈ build_groups tokens, g ≠ [] ∧ "&" ∉ g) ∧
    (build_groups tokens).flatten = tokens.filter (fun t => t ≠ "&") := by
  refine ⟨build_groups_eq tokens, count_groups_eq tokens, ?_, ?_⟩
  · rw [build_groups_eq]; exact maximal_runs_mem tokens
  · rw [build_groups_eq]; exact maximal_runs_join tokens

/-- C1 at the tokens `& a & & b c &`: two runs, two groups. -/
theorem C1_grouper_maximal_runs_witness :
    build_groups ["&", "a", "&", "&", "b", "c", "&"] = [["a"], ["b", "c"]] ∧
    count_groups ["&", "a", "&", "&", "b", "c", "&"] = 2 :=
  ⟨(C1_grouper_maximal_runs ["&", "a", "&", "&", "b", "c", "&"]).1.trans (by decide),
    (C1_grouper_maximal_runs ["&", "a", "&", "&", "b", "c", "&"]).2.1.trans (by decide)⟩

/-- C2. The redirection check of `execute_group` fails exactly for a group
with two or more `">"` tokens, or with one `">"` followed by two or more
tokens, or with one `">"` followed by no token; for such a group
`execute_group` reports an error and returns `0` with the registry, the
system state, `pids` and the launch count unchanged, nothing else being
called.  A group without `">"`, or with one `">"` followed by exactly one
token, passes the check. -/
theorem C2_redirection_validation {σ : Type} (os : OS σ) (sh : Shell σ)
    (group : List String) (pids : List Int) (index : Nat) :
    ((2 ≤ group.count ">" ∨ (group.count ">" = 1 ∧ 2 ≤ tokens_after_redir group) ∨
        (group.count ">" = 1 ∧ tokens_after_redir group = 0)) →
      redir_invalid (scan_redir group) = true ∧
      execute_group os sh group pids index
        = some { rc := 0, sh := { sh with trace := sh.trace ++ [Event.error] },
                 pids := pids, index := index }) ∧
    ((group.count ">" = 0 ∨ (group.count ">" = 1 ∧ tokens_after_redir group = 1)) →
      redir_invalid (scan_redir group) = false) := by
  constructor
  · intro h
    have hi := (redir_invalid_iff group).mpr h
    refine ⟨hi, ?_⟩
    simp [execute_group, hi, log_error]
  · intro h
    rw [← Bool.not_eq_true, redir_invalid_iff]
    rcases h with h | ⟨h, h'⟩ <;> omega

/-- C2 at the groups `ls > a > b`, `ls > a b` and `ls >`, which fail the
check, and at `ls` and `ls > a`, which pass it. -/
theorem C2_redirection_validation_witness :
    execute_group (demo_os ["/bin/ls"] [] 0) demo_sh ["ls", ">", "a", ">", "b"] [] 0
      = some { rc := 0, sh := { path := ["/bin"], os := 0, trace := [Event.error] },
               pids := [], index := 0 } ∧
    execute_group (demo_os ["/bin/ls"] [] 0) demo_sh ["ls", ">", "a", "b"] [] 0
      = some { rc := 0, sh := { path := ["/bin"], os := 0, trace := [Event.error] },
               pids := [], index := 0 } ∧
    execute_group (demo_os ["/bin/ls"] [] 0) demo_sh ["ls", ">"] [] 0
      = some { rc := 0, sh := { path := ["/bin"], os := 0, trace := [Event.error] },
               pids := [], index := 0 } ∧
    redir_invalid (scan_redir ["ls"]) = false ∧
    redir_invalid (scan_redir ["ls", ">", "a"]) = false :=
  ⟨((C2_redirection_validation (demo_os ["/bin/ls"] [] 0) demo_sh
        ["ls", ">", "a", ">", "b"] [] 0).1 (by decide)).2,
    ((C2_redirection_validation (demo_os ["/bin/ls"] [] 0) demo_sh
        ["ls", ">", "a", "b"] [] 0).1 (by decide)).2,
    ((C2_redirection_validation (demo_os ["/bin/ls"] [] 0) demo_sh
        ["ls", ">"] [] 0).1 (by decide)).2,
    (C2_redirection_validation (demo_os ["/bin/ls"] [] 0) demo_sh ["ls"] [] 0).2 (by decide),
    (C2_redirection_validation (demo_os ["/bin/ls"] [] 0) demo_sh ["ls", ">", "a"] [] 0).2
      (by decide)⟩

/-- C3, as the code has it. The group `exit foo` makes `execute_group`
report an error and return `1`, not `0`. -/
theorem C3_exit_with_argument_terminates :
    execute_group (demo_os [] [] 0) demo_sh ["exit", "foo"] [] 0
      = some { rc := 1, sh := { demo_sh with trace := [Event.error] }, pids := [], index := 0 } := by
  decide

/-- C3, amended. For every group of fewer than `MAX_TOKENS` tokens, so that
every store into `args` is inside the array: `execute_group` returns `1` if
and only if the command name is exactly `"exit"` and the group gets past the
redirection checks, whatever the number of arguments; a group
`exit a1 .. an` without redirection returns `1` with the state unchanged when
`n = 0` and returns `1` after reporting an error when `n > 0`.  On every
non-empty group `execute_group` returns. -/
theorem C3_exit_terminates {σ : Type} (os : OS σ) (sh : Shell σ) (group : List String)
    (pids : List Int) (index : Nat) (hcap : group.length < MAX_TOKENS) :
    (∀ r, execute_group os sh group pids index = some r →
      (r.rc = 1 ↔ (group.head? = some "exit" ∧ passes_redirection os sh group = true))) ∧
    (∀ args : List String, ">" ∉ args → args.length + 1 < MAX_TOKENS →
      execute_group os sh ("exit" :: args) pids index
        = some { rc := 1, sh := if args = [] then sh else log_error sh,
                 pids := pids, index := index } ∧
      (compose_args ("exit" :: args) (scan_redir ("exit" :: args))).1.length ≤ MAX_TOKENS) ∧
    (group ≠ [] → ∃ r, execute_group os sh group pids index = some r) ∧
    (">" ∉ group → (compose_args group (scan_redir group)).1.length ≤ MAX_TOKENS) := by
  refine ⟨?_, ?_, fun hne => by
    cases group with
    | nil => exact absurd rfl hne
    | cons cmd rest => exact execute_group_total os sh cmd rest pids index,
    fun hno => compose_args_in_bounds group hno hcap⟩
  · intro r h
    unfold execute_group at h
    unfold passes_redirection
    cases hv : redir_invalid (scan_redir group) with
    | true =>
      simp only [hv, if_true, Option.some.injEq] at h
      subst h
      simp
    | false =>
      simp only [hv, Bool.false_eq_true, if_false] at h
      cases hk : (scan_redir group).redir_op_index with
      | none =>
        simp only [hk] at h
        simpa using run_command_rc _ _ _ _ _ _ _ _ _ _ h
      | some k =>
        simp only [hk] at h
        cases hf : group_at group (k + 1) with
        | uninit => simp [hf] at h
        | null => simp [hf] at h
        | str f =>
          simp only [hf] at h
          rcases ho : open_redir os sh f with ⟨_ | fd, sh1⟩
          · simp only [ho, Option.some.injEq] at h
            subst h
            simp [hf, ho]
          · simp only [ho] at h
            simpa [hf, ho] using run_command_rc _ _ _ _ _ _ _ _ _ _ h
  · intro args hargs hlen
    have hmem : ">" ∉ "exit" :: args := by
      simp only [List.mem_cons, not_or]
      exact ⟨by decide, hargs⟩
    refine ⟨?_, compose_args_in_bounds _ hmem (by simpa using hlen)⟩
    rw [execute_group_plain os sh "exit" args pids index hmem]
    cases args with
    | nil => simp [run_command, group_at]
    | cons a as => simp [run_command, group_at]

/-- C3 at the groups `exit`, which returns `1` with nothing reported, and
`exit > /etc`, which returns `0` because the redirection file is a
directory. -/
theorem C3_exit_terminates_witness :
    execute_group (demo_os [] ["/etc"] 0) demo_sh ["exit"] [] 0
      = some { rc := 1, sh := demo_sh, pids := [], index := 0 } ∧
    ((0 : Int) = 1 ↔
      ((["exit", ">", "/etc"] : List String).head? = some "exit" ∧
        passes_redirection (demo_os [] ["/etc"] 0) demo_sh ["exit", ">", "/etc"] = true)) :=
  ⟨((C3_exit_terminates (demo_os [] ["/etc"] 0) demo_sh ["exit"] [] 0 (by decide)).2.1 []
      (by decide) (by decide)).1,
    (C3_exit_terminates (demo_os [] ["/etc"] 0) demo_sh ["exit", ">", "/etc"] [] 0
      (by decide)).1
      { rc := 0, sh := { path := ["/bin"], os := 0, trace := [Event.error] },
        pids := [], index := 0 } (by decide)⟩

/-- C4, as the code has it. For the group `> f` with an executable named `>`
the vector handed to the child has `">"` as argument zero and no terminator
after it, the store of the command name having overwritten `args[0] = NULL`. -/
theorem C4_operator_first_in_vector :
    execute_group (demo_os [">"] [] 0) demo_sh [">", "f"] [] 0
      = some { rc := 0,
               sh := { path := ["/bin"], os := 1,
                       trace := [Event.open_creat "f" 3,
                         Event.fork 1 { cmd := ">", args := [Slot.str ">"],
                                        redirect := some 3 }] },
               pids := [1], index := 1 } ∧
    argv [Slot.str ">"] = none := by
  decide

/-- C4, amended. For every group whose first token is a command other than
`">"` and the builtins, that resolves to a program `cmd1`, and whose command
and arguments are fewer than `MAX_TOKENS` tokens, so that every store into
`args` is inside the array: without redirection the child runs `cmd1` on the
vector made of the command name as written followed by all the other tokens;
with a redirection `> f` after the tokens `rest` the file `f` is opened and
the child runs `cmd1` on the command name followed by `rest`, the `">"` and
`f` left out.  Every group that passes the redirection check has one of these
two shapes or starts with `">"`. -/
theorem C4_argument_vector {σ : Type} (os : OS σ) (sh : Shell σ) (cmd : String)
    (rest : List String) (pids : List Int) (index : Nat)
    (hb : cmd ≠ "exit" ∧ cmd ≠ "cd" ∧ cmd ≠ "path") (hno : ">" ∉ cmd :: rest)
    (hcap : (cmd :: rest).length < MAX_TOKENS) :
    (∀ cmd1, resolve os sh.os sh.path cmd = some cmd1 →
      execute_group os sh (cmd :: rest) pids index
        = some { rc := 0,
                 sh := { sh with
                   os := (os.fork sh.os).2,
                   trace := sh.trace ++ [Event.fork (os.fork sh.os).1.val
                     { cmd := cmd1, args := Slot.str cmd :: rest.map Slot.str ++ [Slot.null],
                       redirect := none }] },
                 pids := writeAt pids index (os.fork sh.os).1.val 0,
                 index := index + 1 }) ∧
    (∀ f fd sh1 cmd1, f ≠ ">" → open_redir os sh f = (some fd, sh1) →
      resolve os sh1.os sh1.path cmd = some cmd1 →
      execute_group os sh (cmd :: rest ++ [">", f]) pids index
        = some { rc := 0,
                 sh := { sh1 with
                   os := (os.fork sh1.os).2,
                   trace := sh1.trace ++ [Event.fork (os.fork sh1.os).1.val
                     { cmd := cmd1, args := Slot.str cmd :: rest.map Slot.str ++ [Slot.null],
                       redirect := some fd }] },
                 pids := writeAt pids index (os.fork sh1.os).1.val 0,
                 index := index + 1 }) ∧
    argv (Slot.str cmd :: rest.map Slot.str ++ [Slot.null]) = some (cmd :: rest) ∧
    (∀ group : List String, redir_invalid (scan_redir group) = false →
      ">" ∉ group ∨ ∃ pre f, group = pre ++ [">", f] ∧ ">" ∉ pre ∧ f ≠ ">") ∧
    (compose_args (cmd :: rest) (scan_redir (cmd :: rest))).1.length ≤ MAX_TOKENS ∧
    (∀ f, f ≠ ">" →
      (compose_args (cmd :: rest ++ [">", f]) (scan_redir (cmd :: rest ++ [">", f]))).1.length
        ≤ MAX_TOKENS) := by
  refine ⟨?_, ?_, argv_terminated (cmd :: rest), valid_group_shape,
    compose_args_in_bounds _ hno hcap,
    fun f hf => compose_args_in_bounds_redir (cmd :: rest) f hno hf hcap⟩
  · intro cmd1 hr
    rw [execute_group_plain os sh cmd rest pids index hno, List.cons_append,
      run_command_launch os sh cmd rest none _ _ _ pids index cmd1 hb hr]
    simp
  · intro f fd sh1 cmd1 hf ho hr
    rw [execute_group_redir os sh cmd rest f pids index hno hf, ho]
    simp only []
    rw [List.cons_append, List.cons_append,
      run_command_launch os sh1 cmd _ _ _ _ _ pids index cmd1 hb hr]
    simp

/-- C4 at the group `ls -la > out`, with `/bin/ls` the only executable. -/
theorem C4_argument_vector_witness :
    execute_group (demo_os ["/bin/ls"] [] 0) demo_sh ["ls", "-la", ">", "out"] [] 0
      = some { rc := 0,
               sh := { path := ["/bin"], os := 1,
                       trace := [Event.open_creat "out" 3,
                         Event.fork 1
                           { cmd := "/bin/ls",
                             args := [Slot.str "ls", Slot.str "-la", Slot.null],
                             redirect := some 3 }] },
               pids := [1], index := 1 } :=
  (C4_argument_vector (demo_os ["/bin/ls"] [] 0) demo_sh "ls" ["-la"] [] 0
    (by decide) (by decide) (by decide)).2.1 "out" 3
    { path := ["/bin"], os := 0, trace := [Event.open_creat "out" 3] } "/bin/ls"
    (by decide) (by decide) (by decide)

/-- C5. Command resolution in `execute_group` is the reference resolution
over the executability probe: the name itself when it can be executed,
otherwise the first `dir/name` in registry order that can.  When nothing
matches, a group whose command is no builtin and whose command and arguments
are fewer than `MAX_TOKENS` tokens (every store into `args` is then inside
the array) reports an error and returns `0` with no process created, without
a redirection and after the opening of the redirection file alike; this is
so for every name that cannot be executed when the registry is empty.  After `path /a /b` the registry is `/a`, `/b`,
and `c` resolves to `c`, else `/a/c`, else `/b/c`, the first that can be
executed. -/
theorem C5_command_resolution {σ : Type} (os : OS σ) (sh : Shell σ) (cmd : String)
    (pids : List Int) (index : Nat) :
    resolve os sh.os sh.path cmd = resolve_ref (executable os sh.os) sh.path cmd ∧
    (∀ rest : List String, (cmd :: rest).length < MAX_TOKENS →
      cmd ≠ "exit" ∧ cmd ≠ "cd" ∧ cmd ≠ "path" → ">" ∉ cmd :: rest →
      resolve_ref (executable os sh.os) sh.path cmd = none →
      execute_group os sh (cmd :: rest) pids index
        = some { rc := 0, sh := { sh with trace := sh.trace ++ [Event.error] },
                 pids := pids, index := index } ∧
      (compose_args (cmd :: rest) (scan_redir (cmd :: rest))).1.length ≤ MAX_TOKENS) ∧
    (∀ (rest : List String) f fd sh1, (cmd :: rest).length < MAX_TOKENS →
      cmd ≠ "exit" ∧ cmd ≠ "cd" ∧ cmd ≠ "path" →
      ">" ∉ cmd :: rest → f ≠ ">" → open_redir os sh f = (some fd, sh1) →
      resolve_ref (executable os sh1.os) sh1.path cmd = none →
      execute_group os sh (cmd :: rest ++ [">", f]) pids index
        = some { rc := 0, sh := { sh1 with trace := sh1.trace ++ [Event.error] },
                 pids := pids, index := index } ∧
      (compose_args (cmd :: rest ++ [">", f]) (scan_redir (cmd :: rest ++ [">", f]))).1.length
        ≤ MAX_TOKENS) ∧
    (executable os sh.os cmd = false → resolve_ref (executable os sh.os) [] cmd = none) ∧
    execute_group os sh ["path", "/a", "/b"] pids index
      = some { rc := 0, sh := { sh with path := ["/a", "/b"] }, pids := pids, index := index } ∧
    resolve os sh.os ["/a", "/b"] "c"
      = (if executable os sh.os "c" then some "c"
          else if executable os sh.os "/a/c" then some "/a/c"
          else if executable os sh.os "/b/c" then some "/b/c"
          else none) := by
  refine ⟨resolve_eq os sh.os sh.path cmd, ?_, ?_, ?_, ?_, ?_⟩
  · intro rest hcap hb hno hr
    rw [← resolve_eq] at hr
    refine ⟨?_, compose_args_in_bounds _ hno hcap⟩
    rw [execute_group_plain os sh cmd rest pids index hno,
      run_command_unresolved os sh cmd rest none _ _ _ pids index hb hr]
    rfl
  · intro rest f fd sh1 hcap hb hno hf ho hr
    rw [← resolve_eq] at hr
    refine ⟨?_, compose_args_in_bounds_redir (cmd :: rest) f hno hf hcap⟩
    rw [execute_group_redir os sh cmd rest f pids index hno hf, ho]
    simp only []
    rw [List.cons_append, run_command_unresolved os sh1 cmd _ _ _ _ _ pids index hb hr]
    rfl
  · intro hx
    simp [resolve_ref, hx]
  · exact execute_group_path os sh ["/a", "/b"] pids index (by decide) (by decide)
  · rw [resolve_eq]
    have e1 : "/a" ++ "/" ++ "c" = "/a/c" := by decide
    have e2 : "/b" ++ "/" ++ "c" = "/b/c" := by decide
    simp only [resolve_ref, List.map_cons, List.map_nil, List.find?_cons, List.find?_nil, e1, e2]
    cases executable os sh.os "c" <;> cases executable os sh.os "/a/c" <;>
      cases executable os sh.os "/b/c" <;> rfl

/-- C5 at the command `c` after `path /a /b`: when only `/b/c` can be
executed the resolution is `/b/c`, and when nothing can be executed the group
`c x` reports an error and launches nothing. -/
theorem C5_command_resolution_witness :
    resolve (demo_os ["/b/c"] [] 0) 0 ["/a", "/b"] "c" = some "/b/c" ∧
    execute_group (demo_os [] [] 0) { path := ["/a", "/b"], os := 0, trace := [] }
        ["c", "x"] [] 0
      = some { rc := 0, sh := { path := ["/a", "/b"], os := 0, trace := [Event.error] },
               pids := [], index := 0 } :=
  ⟨((C5_command_resolution (demo_os ["/b/c"] [] 0)
        { path := ["/a", "/b"], os := 0, trace := [] } "c" [] 0).1).trans (by decide),
    ((C5_command_resolution (demo_os [] [] 0)
        { path := ["/a", "/b"], os := 0, trace := [] } "c" [] 0).2.1 ["x"]
      (by decide) (by decide) (by decide) (by decide)).1⟩

set_option maxRecDepth 100000 in
/-- C6, as the code has it. `path` with 99 arguments, which are no more than
`MAX_PATHS`, is a group of 100 tokens: lines 118-122 copy the arguments to
`args[1..99]` and store the terminator at `args[100]`, the slots written
being `MAX_TOKENS + 1`.  With fewer than `MAX_TOKENS` tokens in the group,
that is up to 98 arguments, every store into `args` is inside the array, and
the builtin returns `0` and leaves the registry equal to its arguments,
whatever the registry held before; the system state, the calls made, `pids`
and the launch count are unchanged. -/
theorem C6_path_replaces_registry :
    (List.replicate 99 "d").length ≤ MAX_PATHS ∧
    (compose_args ("path" :: List.replicate 99 "d")
      (scan_redir ("path" :: List.replicate 99 "d"))).1.length = MAX_TOKENS + 1 ∧
    (∀ {σ : Type} (os : OS σ) (sh : Shell σ) (args : List String) (pids : List Int)
        (index : Nat), ">" ∉ args → ("path" :: args).length < MAX_TOKENS →
      (compose_args ("path" :: args) (scan_redir ("path" :: args))).1.length ≤ MAX_TOKENS ∧
      execute_group os sh ("path" :: args) pids index
        = some { rc := 0, sh := { path := args, os := sh.os, trace := sh.trace },
                 pids := pids, index := index } ∧
      ∀ r, execute_group os sh ("path" :: args) pids index = some r →
        r.sh.path = args ∧ r.sh.num_path = args.length) := by
  refine ⟨by decide, by decide, ?_⟩
  intro σ os sh args pids index hno hcap
  have hmem : ">" ∉ "path" :: args := by
    simp only [List.mem_cons, not_or]
    exact ⟨by decide, hno⟩
  have hn : args.length ≤ MAX_PATHS := by
    simp only [List.length_cons] at hcap
    have h1 : MAX_TOKENS = 100 := rfl
    have h2 : MAX_PATHS = 128 := rfl
    omega
  have h := execute_group_path os sh args pids index hno hn
  refine ⟨compose_args_in_bounds _ hmem hcap, h, ?_⟩
  intro r hr
  rw [h] at hr
  injection hr with hr
  subst hr
  exact ⟨rfl, rfl⟩

/-- C6 at `path /a /b` on the registry `/bin`, and at `path` alone. -/
theorem C6_path_replaces_registry_witness :
    execute_group (demo_os [] [] 0) demo_sh ["path", "/a", "/b"] [] 0
      = some { rc := 0, sh := { path := ["/a", "/b"], os := 0, trace := [] },
               pids := [], index := 0 } ∧
    execute_group (demo_os [] [] 0) demo_sh ["path"] [] 0
      = some { rc := 0, sh := { path := [], os := 0, trace := [] }, pids := [], index := 0 } :=
  ⟨(C6_path_replaces_registry.2.2 (demo_os [] [] 0) demo_sh ["/a", "/b"] [] 0
      (by decide) (by decide)).2.1,
    (C6_path_replaces_registry.2.2 (demo_os [] [] 0) demo_sh [] [] 0
      (by decide) (by decide)).2.1⟩

/-- C7, as the code has it. The redirection checks come before the builtin:
`cd /tmp > /etc`, with one argument and a directory as redirection file,
reports an error without calling `chdir`, and `cd /tmp > out`, with three
tokens after the command, opens `out` and calls `chdir` on `/tmp`. -/
theorem C7_cd_behind_redirection :
    execute_group (demo_os [] ["/tmp", "/etc"] 0) demo_sh ["cd", "/tmp", ">", "/etc"] [] 0
      = some { rc := 0, sh := { path := ["/bin"], os := 0, trace := [Event.error] },
               pids := [], index := 0 } ∧
    execute_group (demo_os [] ["/tmp", "/etc"] 0) demo_sh ["cd", "/tmp", ">", "out"] [] 0
      = some { rc := 0,
               sh := { path := ["/bin"], os := 0,
                       trace := [Event.open_creat "out" 3, Event.chdir "/tmp" 0] },
               pids := [], index := 0 } := by
  decide

/-- C7, amended. For every group whose command is `cd`, that has no
redirection and that has fewer than `MAX_TOKENS` tokens, so that every store
into `args` is inside the array: with no argument or with two or more,
`execute_group` reports an error and returns `0` without calling `chdir`;
with exactly one argument `d` it calls `chdir` once, on `d`, returns `0`, and
reports an error exactly when the call returned `-1`.  The registry, `pids`
and the launch count are unchanged in all cases. -/
theorem C7_cd_arity {σ : Type} (os : OS σ) (sh : Shell σ) (args : List String)
    (pids : List Int) (index : Nat) (hno : ">" ∉ args)
    (hcap : ("cd" :: args).length < MAX_TOKENS) :
    (args.length ≠ 1 →
      execute_group os sh ("cd" :: args) pids index
        = some { rc := 0, sh := { sh with trace := sh.trace ++ [Event.error] },
                 pids := pids, index := index }) ∧
    (∀ d, args = [d] →
      execute_group os sh ("cd" :: args) pids index
        = some { rc := 0,
                 sh := { path := sh.path, os := (os.chdir sh.os d).2,
                         trace := sh.trace ++ [Event.chdir d (os.chdir sh.os d).1]
                           ++ (if (os.chdir sh.os d).1 = -1 then [Event.error] else []) },
                 pids := pids, index := index }) ∧
    (compose_args ("cd" :: args) (scan_redir ("cd" :: args))).1.length ≤ MAX_TOKENS := by
  have hmem : ">" ∉ "cd" :: args := by
    simp only [List.mem_cons, not_or]
    exact ⟨by decide, hno⟩
  rw [execute_group_plain os sh "cd" args pids index hmem]
  refine ⟨?_, ?_, compose_args_in_bounds _ hmem hcap⟩
  · intro hlen
    have hn : args.length = 0 ∨ args.length > 1 := by omega
    simp only [run_command, group_at, List.getElem?_cons_zero]
    rw [if_neg (by decide), if_pos trivial, if_pos hn]
    rfl
  · intro d hd
    subst hd
    by_cases hrc : (os.chdir sh.os d).1 = -1
    · simp [run_command, group_at, hrc, log_error]
    · simp [run_command, group_at, hrc, log_error]

/-- C7 at `cd /tmp`, which succeeds, at `cd /nowhere`, which fails, and at
`cd` and `cd /tmp /etc`. -/
theorem C7_cd_arity_witness :
    execute_group (demo_os [] ["/tmp"] 0) demo_sh ["cd", "/tmp"] [] 0
      = some { rc := 0, sh := { path := ["/bin"], os := 0, trace := [Event.chdir "/tmp" 0] },
               pids := [], index := 0 } ∧
    execute_group (demo_os [] ["/tmp"] 0) demo_sh ["cd", "/nowhere"] [] 0
      = some { rc := 0,
               sh := { path := ["/bin"], os := 0,
                       trace := [Event.chdir "/nowhere" (-1), Event.error] },
               pids := [], index := 0 } ∧
    execute_group (demo_os [] ["/tmp"] 0) demo_sh ["cd"] [] 0
      = some { rc := 0, sh := { path := ["/bin"], os := 0, trace := [Event.error] },
               pids := [], index := 0 } ∧
    execute_group (demo_os [] ["/tmp"] 0) demo_sh ["cd", "/tmp", "/etc"] [] 0
      = some { rc := 0, sh := { path := ["/bin"], os := 0, trace := [Event.error] },
               pids := [], index := 0 } :=
  ⟨(C7_cd_arity (demo_os [] ["/tmp"] 0) demo_sh ["/tmp"] [] 0 (by decide)
      (by decide)).2.1 "/tmp" rfl,
    (C7_cd_arity (demo_os [] ["/tmp"] 0) demo_sh ["/nowhere"] [] 0 (by decide)
      (by decide)).2.1 "/nowhere" rfl,
    (C7_cd_arity (demo_os [] ["/tmp"] 0) demo_sh [] [] 0 (by decide) (by decide)).1
      (by decide),
    (C7_cd_arity (demo_os [] ["/tmp"] 0) demo_sh ["/tmp", "/etc"] [] 0 (by decide)
      (by decide)).1 (by decide)⟩

/-- C8, as the code has it. On the line `ls`, whose only group does not
signal terminate, a `waitpid` that returns `-1` makes `execute_line` report an
error and leave through `Exit(1)`: it does not return `0`. -/
theorem C8_wait_failure_exits :
    execute_line (demo_os ["/bin/ls"] [] (-1)) demo_sh ['l', 's', '\n']
      = some (Outcome.exited 1,
          { path := [], os := 1,
            trace := [Event.call ["ls"],
              Event.fork 1 { cmd := "/bin/ls", args := [Slot.str "ls", Slot.null],
                             redirect := none },
              Event.waitpid 1 (-1), Event.error] }) := by
  decide

/-- C8, amended. On a line whose stripped and padded forms fit the line
buffers and that yields fewer than `MAX_TOKENS` tokens, making the groups
`groups`: if the group `g` is the first that returns non-zero, after the
groups `pre` that all returned `0`, then `execute_line` returns `1` in the
state `g` left, the groups called are `pre` and `g` in order, and nothing was
waited for.  If every group returns `0`, then every group was called once, in
order, and the handles stored are waited for in order: `rcs` are the values
the `waitpid` calls returned; either none is `-1`, every handle was waited
for and `0` is returned, or the last call made is the first that returned
`-1`, an error follows it and the process is left through `Exit(1)` with the
registry freed.  In particular `0` is returned when no `waitpid` can return
`-1`, and when the first `waitpid` returns `-1` the process is left through
`Exit(1)` after this one call.  One of the two cases always holds, and every
group has fewer than `MAX_TOKENS` tokens. -/
theorem C8_terminate_short_circuits {σ : Type} (os : OS σ) (sh : Shell σ)
    (line_ buf : List Char) (groups : List (List String))
    (hbuf : erase_tabs line_ 0 = some buf) (hne : buf.head? ≠ some '\n')
    (hfit0 : buf.length < MAX_LINE) (hfit : (normalize (cstr buf)).length < MAX_LINE)
    (htok : (tokens_of (normalize (cstr buf))).length < MAX_TOKENS)
    (hg : build_groups (tokens_of (normalize (cstr buf))) = groups) (hgs : groups ≠ []) :
    (∀ pre g post st1 r, groups = pre ++ g :: post →
      continue_all os pre
        { rc := 0, sh := sh, pids := List.replicate groups.length 0, index := 0 } = some st1 →
      execute_group os { st1.sh with trace := st1.sh.trace ++ [Event.call g] } g
        st1.pids st1.index = some r →
      r.rc ≠ 0 →
      execute_line os sh line_ = some (Outcome.ret 1, r.sh) ∧
      calls r.sh.trace = calls sh.trace ++ pre ++ [g] ∧
      waits r.sh.trace = waits sh.trace) ∧
    (∀ st1, continue_all os groups
        { rc := 0, sh := sh, pids := List.replicate groups.length 0, index := 0 } = some st1 →
      ∃ res rcs,
        execute_line os sh line_ = some res ∧
        calls res.2.trace = calls sh.trace ++ groups ∧
        rcs.length ≤ st1.index ∧
        res.2.trace
          = st1.sh.trace ++ List.zipWith Event.waitpid (st1.pids.take st1.index) rcs
              ++ (if res.1 = Outcome.ret 0 then [] else [Event.error]) ∧
        ((res.1 = Outcome.ret 0 ∧ rcs.length = st1.index ∧ (∀ rc ∈ rcs, rc ≠ -1) ∧
            res.2.path = st1.sh.path) ∨
          (res.1 = Outcome.exited 1 ∧ (∃ init, rcs = init ++ [-1] ∧ ∀ rc ∈ init, rc ≠ -1) ∧
            res.2.path = [])) ∧
        ((∀ s pid, (os.waitpid s pid).1 ≠ -1) → res.1 = Outcome.ret 0) ∧
        ((os.waitpid st1.sh.os (st1.pids.getD 0 0)).1 = -1 → 0 < st1.index →
          res.1 = Outcome.exited 1 ∧ rcs = [-1])) ∧
    ((∃ st1, continue_all os groups
        { rc := 0, sh := sh, pids := List.replicate groups.length 0, index := 0 } = some st1) ∨
      (∃ pre g post st1 r, groups = pre ++ g :: post ∧
        continue_all os pre
          { rc := 0, sh := sh, pids := List.replicate groups.length 0, index := 0 }
          = some st1 ∧
        execute_group os { st1.sh with trace := st1.sh.trace ++ [Event.call g] } g
          st1.pids st1.index = some r ∧ r.rc ≠ 0)) ∧
    (buf.length < MAX_LINE ∧ (normalize (cstr buf)).length < MAX_LINE ∧
      ∀ g ∈ groups, g.length < MAX_TOKENS) := by
  have hline := execute_line_eq_run_groups os sh line_ buf groups hbuf hne hg hgs
  refine ⟨?_, ?_, continue_or_terminate os groups _ (fun g hgm => by
    rw [← hg, build_groups_eq] at hgm
    exact (maximal_runs_mem _ g hgm).1), hfit0, hfit, fun g hgm => by
    rw [← hg] at hgm
    exact lt_of_le_of_lt (group_length_le _ g hgm) htok⟩
  · intro pre g post st1 r hsplit hpre hr hrc
    subst hsplit
    obtain ⟨c1, c2, _, _⟩ := continue_all_trace os pre _ st1 hpre (by simp)
    obtain ⟨e1, e2, _⟩ := execute_group_trace _ _ _ _ _ _ hr
    refine ⟨by rw [hline]; exact run_groups_terminate os sh pre post g st1 r hpre hr hrc, ?_, ?_⟩
    · rw [e1, calls_append, c1]; rfl
    · rw [e2, waits_append, c2]; simp [waits]
  · intro st1 hall
    obtain ⟨c1, _, c3, _⟩ := continue_all_trace os groups _ st1 hall (by simp)
    obtain ⟨w1, _, _, w5⟩ := wait_loop_trace os st1.pids st1.index 0 st1.sh (by omega)
    obtain ⟨rcs, hlen, htr, hcase, hfirst⟩ := wait_loop_first os st1.pids st1.index st1.sh c3
    exact ⟨wait_loop os st1.pids st1.index 0 st1.sh, rcs,
      by rw [hline]; exact run_groups_continue os sh groups st1 hall, by rw [w1, c1], hlen, htr,
      hcase, w5, hfirst⟩

/-- C8 at the line `ls & exit & ls`: `ls` is launched, `exit` makes
`execute_line` return `1`, the second `ls` is never called and nothing is
waited for. -/
theorem C8_terminate_short_circuits_witness :
    execute_line (demo_os ["/bin/ls"] [] 0) demo_sh
        ['l', 's', ' ', '&', ' ', 'e', 'x', 'i', 't', ' ', '&', ' ', 'l', 's', '\n']
      = some (Outcome.ret 1,
          { path := ["/bin"], os := 1,
            trace := [Event.call ["ls"],
              Event.fork 1 { cmd := "/bin/ls", args := [Slot.str "ls", Slot.null],
                             redirect := none },
              Event.call ["exit"]] }) :=
  ((C8_terminate_short_circuits (demo_os ["/bin/ls"] [] 0) demo_sh
      ['l', 's', ' ', '&', ' ', 'e', 'x', 'i', 't', ' ', '&', ' ', 'l', 's', '\n']
      ['l', 's', ' ', '&', ' ', 'e', 'x', 'i', 't', ' ', '&', ' ', 'l', 's', '\n']
      [["ls"], ["exit"], ["ls"]] (by decide) (by decide) (by decide) (by decide) (by decide)
      (by decide) (by decide)).1
    [["ls"]] ["exit"] [["ls"]]
    { rc := 0,
      sh := { path := ["/bin"], os := 1,
              trace := [Event.call ["ls"],
                Event.fork 1 { cmd := "/bin/ls", args := [Slot.str "ls", Slot.null],
                               redirect := none }] },
      pids := [1, 0, 0], index := 1 }
    { rc := 1,
      sh := { path := ["/bin"], os := 1,
              trace := [Event.call ["ls"],
                Event.fork 1 { cmd := "/bin/ls", args := [Slot.str "ls", Slot.null],
                               redirect := none },
                Event.call ["exit"]] },
      pids := [1, 0, 0], index := 1 }
    (by decide) (by decide) (by decide) (by decide)).1

/-- C9, as the code has it. On the line `ls & ls` two children are created,
with the handles `1` and `2`; when `waitpid` returns `-1` the only handle
waited for is `1`, and `execute_line` leaves through `Exit(1)`. -/
theorem C9_wait_failure_skips_handles :
    (execute_line (demo_os ["/bin/ls"] [] (-1)) demo_sh
        ['l', 's', ' ', '&', ' ', 'l', 's', '\n']).map
      (fun r => (r.1, forks r.2.trace, waits r.2.trace))
      = some (Outcome.exited 1, [1, 2], [1]) := by
  decide

/-- C9, amended. On a line whose stripped and padded forms fit the line
buffers, that yields fewer than `MAX_TOKENS` tokens and whose groups all
return `0`: the handles stored in `pids[0..num_forks)` are the results of the
`fork` calls of the line, in launch order, and `execute_line` waits for them
in that order, `rcs` being the values the `waitpid` calls returned.  Either
none is `-1`, every handle was waited for once and `0` is returned; or the
last call made is the first that returned `-1`: an error follows it, the
handles after it are not waited for and the process is left through
`Exit(1)`.  In particular `0` is returned when no `waitpid` can return `-1`,
and when the first `waitpid` returns `-1` only the first handle is waited
for.  A group that reports an error, or whose command is a builtin, stores no
handle. -/
theorem C9_waits_follow_launches {σ : Type} (os : OS σ) (sh : Shell σ)
    (line_ buf : List Char) (groups : List (List String)) (st1 : GroupResult σ)
    (hbuf : erase_tabs line_ 0 = some buf) (hne : buf.head? ≠ some '\n')
    (hfit0 : buf.length < MAX_LINE) (hfit : (normalize (cstr buf)).length < MAX_LINE)
    (htok : (tokens_of (normalize (cstr buf))).length < MAX_TOKENS)
    (hg : build_groups (tokens_of (normalize (cstr buf))) = groups) (hgs : groups ≠ [])
    (hall : continue_all os groups
      { rc := 0, sh := sh, pids := List.replicate groups.length 0, index := 0 } = some st1) :
    (∃ launched rcs res,
      execute_line os sh line_ = some res ∧
      forks res.2.trace = forks sh.trace ++ launched ∧
      st1.pids.take st1.index = launched ∧
      rcs.length ≤ launched.length ∧
      res.2.trace
        = st1.sh.trace ++ List.zipWith Event.waitpid launched rcs
            ++ (if res.1 = Outcome.ret 0 then [] else [Event.error]) ∧
      waits res.2.trace = waits sh.trace ++ launched.take rcs.length ∧
      ((res.1 = Outcome.ret 0 ∧ rcs.length = launched.length ∧ (∀ rc ∈ rcs, rc ≠ -1)) ∨
        (res.1 = Outcome.exited 1 ∧ ∃ init, rcs = init ++ [-1] ∧ ∀ rc ∈ init, rc ≠ -1)) ∧
      ((∀ s pid, (os.waitpid s pid).1 ≠ -1) → res.1 = Outcome.ret 0) ∧
      ((os.waitpid st1.sh.os (st1.pids.getD 0 0)).1 = -1 → launched ≠ [] →
        res.1 = Outcome.exited 1 ∧ waits res.2.trace = waits sh.trace ++ launched.take 1)) ∧
    (∀ (sh0 : Shell σ) (g : List String) (pids : List Int) (index : Nat) (r : GroupResult σ),
      execute_group os sh0 g pids index = some r →
      (errors sh0.trace < errors r.sh.trace ∨
        g.head? = some "exit" ∨ g.head? = some "cd" ∨ g.head? = some "path") →
      r.pids = pids ∧ r.index = index ∧ forks r.sh.trace = forks sh0.trace) ∧
    (buf.length < MAX_LINE ∧ (normalize (cstr buf)).length < MAX_LINE ∧
      ∀ g ∈ groups, g.length < MAX_TOKENS) := by
  refine ⟨?_, ?_, hfit0, hfit, fun g hgm => by
    rw [← hg] at hgm
    exact lt_of_le_of_lt (group_length_le _ g hgm) htok⟩
  · have hline := execute_line_eq_run_groups os sh line_ buf groups hbuf hne hg hgs
    obtain ⟨_, c2, c3, launched, c4, c5⟩ := continue_all_trace os groups _ st1 hall (by simp)
    simp only [List.take_zero, List.nil_append] at c5
    have hlen : st1.index = launched.length := by
      have := congrArg List.length c5
      simp only [List.length_take] at this
      omega
    obtain ⟨_, w2, _, w5⟩ := wait_loop_trace os st1.pids st1.index 0 st1.sh (by omega)
    obtain ⟨rcs, hrl, htr, hcase, hfirst⟩ := wait_loop_first os st1.pids st1.index st1.sh c3
    rw [c5] at htr
    have hwaits : waits (wait_loop os st1.pids st1.index 0 st1.sh).2.trace
        = waits sh.trace ++ launched.take rcs.length := by
      rw [htr, waits_append, waits_append, c2, waits_zipWith launched rcs (by omega)]
      split <;> simp [waits]
    refine ⟨launched, rcs, wait_loop os st1.pids st1.index 0 st1.sh, ?_, ?_, c5, by omega, htr,
      hwaits, ?_, w5, ?_⟩
    · rw [hline]; exact run_groups_continue os sh groups st1 hall
    · rw [w2, c4]
    · rcases hcase with ⟨a, b, c, _⟩ | ⟨a, b, _⟩
      · exact Or.inl ⟨a, by omega, c⟩
      · exact Or.inr ⟨a, b⟩
    · intro hfail hne2
      have hpos : 0 < st1.index := by
        rw [hlen]
        exact List.length_pos.mpr hne2
      obtain ⟨h1, h2⟩ := hfirst hfail hpos
      refine ⟨h1, ?_⟩
      rw [hwaits, h2]
      rfl
  · intro sh0 g pids index r hr hcase
    obtain ⟨_, _, h3⟩ := execute_group_trace os sh0 g pids index r hr
    rcases hcase with herr | hb
    · rcases h3 with ⟨a, b, c⟩ | ⟨_, _, e, _⟩
      · exact ⟨a, b, c⟩
      · omega
    · cases g with
      | nil => simp at hb
      | cons cmd rest =>
        simp only [List.head?_cons, Option.some.injEq] at hb
        exact execute_group_builtin os sh0 cmd rest pids index r hb hr

/-- C9 at the line `ls & cd /tmp & ls` with every `waitpid` returning `0`:
the handles `1` and `2` are waited for, in that order, and `0` is returned. -/
theorem C9_waits_follow_launches_witness :
    ∃ launched rcs res,
      execute_line (demo_os ["/bin/ls"] ["/tmp"] 0) demo_sh
          ['l', 's', ' ', '&', ' ', 'c', 'd', ' ', '/', 't', 'm', 'p', ' ', '&', ' ', 'l', 's',
            '\n'] = some res ∧
      forks res.2.trace = forks demo_sh.trace ++ launched ∧
      [(1 : Int), 2] = launched ∧
      rcs.length ≤ launched.length ∧
      waits res.2.trace = waits demo_sh.trace ++ launched.take rcs.length ∧
      ((res.1 = Outcome.ret 0 ∧ rcs.length = launched.length ∧ (∀ rc ∈ rcs, rc ≠ -1)) ∨
        (res.1 = Outcome.exited 1 ∧ ∃ init, rcs = init ++ [-1] ∧ ∀ rc ∈ init, rc ≠ -1)) ∧
      ((∀ s pid, ((demo_os ["/bin/ls"] ["/tmp"] 0).waitpid s pid).1 ≠ -1) →
        res.1 = Outcome.ret 0) :=
  match (C9_waits_follow_launches (demo_os ["/bin/ls"] ["/tmp"] 0) demo_sh
    ['l', 's', ' ', '&', ' ', 'c', 'd', ' ', '/', 't', 'm', 'p', ' ', '&', ' ', 'l', 's', '\n']
    ['l', 's', ' ', '&', ' ', 'c', 'd', ' ', '/', 't', 'm', 'p', ' ', '&', ' ', 'l', 's', '\n']
    [["ls"], ["cd", "/tmp"], ["ls"]]
    { rc := 0,
      sh := { path := ["/bin"], os := 2,
              trace := [Event.call ["ls"],
                Event.fork 1 { cmd := "/bin/ls", args := [Slot.str "ls", Slot.null],
                               redirect := none },
                Event.call ["cd", "/tmp"], Event.chdir "/tmp" 0,
                Event.call ["ls"],
                Event.fork 2 { cmd := "/bin/ls", args := [Slot.str "ls", Slot.null],
                               redirect := none }] },
      pids := [1, 2, 0], index := 2 }
    (by decide) (by decide) (by decide) (by decide) (by decide) (by decide) (by decide)
    (by decide)).1 with
  | ⟨launched, rcs, res, h1, h2, h3, h4, _, h6, h7, h8, _⟩ =>
    ⟨launched, rcs, res, h1, h2, h3, h4, h6, h7, h8⟩

set_option maxRecDepth 100000 in
/-- C10, as the code has it. The line of 101 `&`, 102 characters long with
its newline, is padded to 302 characters, which fit the line buffers, and
gives 101 tokens: line 362 stores `tokens[100]`, outside the `MAX_TOKENS`
slots of `tokens`.  On every line made of `&`, spaces and tabs before its
newline the normaliser returns; and when the line and the padded line fit
the line buffers and give at most `MAX_TOKENS` tokens, `execute_line`
returns `0` with the shell state as it was (no call of `execute_group`, no process, no
wait and no error), the tokens of the line are all `"&"` and the grouper
yields no group. -/
theorem C10_operators_only_noop :
    (normalize_line (List.replicate 101 '&' ++ ['\n'])).map
        (fun l => (l.length, (tokens_of l).length)) = some (302, MAX_TOKENS + 1) ∧
    (∀ s : List Char, (∀ c ∈ s, c = '&' ∨ c = ' ' ∨ c = '\t') →
      ∃ out, normalize_line (s ++ ['\n']) = some out) ∧
    (∀ {σ : Type} (os : OS σ) (sh : Shell σ) (s out : List Char),
      (∀ c ∈ s, c = '&' ∨ c = ' ' ∨ c = '\t') → (s ++ ['\n']).length < MAX_LINE →
      normalize_line (s ++ ['\n']) = some out → out.length < MAX_LINE →
      (tokens_of out).length ≤ MAX_TOKENS →
      execute_line os sh (s ++ ['\n']) = some (Outcome.ret 0, sh) ∧
      (∀ t ∈ tokens_of out, t = "&") ∧ build_groups (tokens_of out) = []) := by
  refine ⟨by decide, ?_, ?_⟩
  · intro s hs
    obtain ⟨buf, hbuf, _⟩ := tokens_of_operator_line s hs
    exact ⟨normalize (cstr buf), by simp [normalize_line, hbuf]⟩
  · intro σ os sh s out hs _ hout _ _
    obtain ⟨buf, hbuf, htok⟩ := tokens_of_operator_line s hs
    have he : out = normalize (cstr buf) := by
      simp only [normalize_line, hbuf, Option.map_some', Option.some.injEq] at hout
      exact hout.symm
    subst he
    have hcount := count_groups_of_all_amps _ htok
    have hbuild : build_groups (tokens_of (normalize (cstr buf))) = [] := by
      have := count_groups_eq (tokens_of (normalize (cstr buf)))
      rw [hcount] at this
      exact List.length_eq_zero.mp this.symm
    refine ⟨?_, htok, hbuild⟩
    unfold execute_line
    simp only [hbuf]
    split
    · rfl
    · split <;> rfl

/-- C10 at the line `& &&`, tab, ` &`, which is padded to `&  & & &`. -/
theorem C10_operators_only_noop_witness :
    execute_line (demo_os ["/bin/ls"] [] 0) demo_sh
        (['&', ' ', '&', '&', '\t', ' ', '&'] ++ ['\n'])
      = some (Outcome.ret 0, demo_sh) :=
  (C10_operators_only_noop.2.2 (demo_os ["/bin/ls"] [] 0) demo_sh
    ['&', ' ', '&', '&', '\t', ' ', '&'] ['&', ' ', ' ', '&', ' ', '&', ' ', '&', '\n']
    (by decide) (by decide) (by decide) (by decide) (by decide)).1

set_option maxRecDepth 100000 in
/-- C11, as the code has it. The normalised line of 101 words `a`, 202
characters long, gives 101 tokens: line 362 stores `tokens[100]`, outside the
`MAX_TOKENS` slots of `tokens`.  On every line that ends in its only newline,
fits the line buffer and has at most `MAX_TOKENS` non-empty space-free
pieces, the tokenizer returns these pieces, in order; every token is
non-empty and holds neither a space nor the newline; when the content is made
of spaces the token list is empty, and `execute_line` on such a line returns
`0` with the shell state, the errors reported included, as it was. -/
theorem C11_tokenizer_pieces :
    many_tokens_line.length < MAX_LINE ∧
    (tokens_of many_tokens_line).length = MAX_TOKENS + 1 ∧
    (∀ u : List Char, '\n' ∉ u → (u ++ ['\n']).length < MAX_LINE →
      ((u.splitOn ' ').filter (fun w => w ≠ [])).length ≤ MAX_TOKENS →
      tokens_of (u ++ ['\n']) = ((u.splitOn ' ').filter (fun w => w ≠ [])).map String.mk ∧
      (∀ t ∈ tokens_of (u ++ ['\n']), t ≠ "" ∧ ' ' ∉ t.data ∧ '\n' ∉ t.data) ∧
      ((∀ c ∈ u, c = ' ') →
        tokens_of (u ++ ['\n']) = [] ∧
        ∀ {σ : Type} (os : OS σ) (sh : Shell σ),
          execute_line os sh (u ++ ['\n']) = some (Outcome.ret 0, sh))) := by
  refine ⟨by decide, by decide, ?_⟩
  intro u hnl _ _
  have htok := tokens_of_eq_pieces u hnl
  refine ⟨htok, ?_, ?_⟩
  · intro t ht
    rw [htok] at ht
    obtain ⟨w, hw, rfl⟩ := List.mem_map.mp ht
    obtain ⟨h1, h2, h3⟩ := space_free_pieces_mem u w hw
    refine ⟨?_, h2, fun hc => hnl (h3 _ hc)⟩
    intro he
    apply h1
    have := congrArg String.data he
    simpa using this
  · intro hsp
    have hempty : ∀ v : List Char, (∀ c ∈ v, c = ' ') → space_free_pieces v = [] := by
      intro v hv
      cases hp : space_free_pieces v with
      | nil => rfl
      | cons w ws =>
        exfalso
        have hw : w ∈ space_free_pieces v := by rw [hp]; simp
        obtain ⟨h1, h2, h3⟩ := space_free_pieces_mem v w hw
        obtain ⟨c, hc⟩ := List.exists_mem_of_ne_nil w h1
        exact h2 (hv c (h3 c hc) ▸ hc)
    refine ⟨by rw [htok, hempty u hsp]; rfl, ?_⟩
    intro σ os sh
    obtain ⟨buf, hbuf, hall⟩ := tokens_of_operator_line u (fun c hc => Or.inr (Or.inl (hsp c hc)))
    exact execute_line_no_groups os sh _ buf hbuf (count_groups_of_all_amps _ hall)

/-- C11 at the normalised line `ls  -la > out`, and at a line of three
spaces. -/
theorem C11_tokenizer_pieces_witness :
    tokens_of (['l', 's', ' ', ' ', '-', 'l', 'a', ' ', '>', ' ', 'o', 'u', 't'] ++ ['\n'])
      = ["ls", "-la", ">", "out"] ∧
    tokens_of ([' ', ' ', ' '] ++ ['\n']) = [] :=
  ⟨(C11_tokenizer_pieces.2.2 ['l', 's', ' ', ' ', '-', 'l', 'a', ' ', '>', ' ', 'o', 'u', 't']
      (by decide) (by decide) (by decide)).1.trans (by decide),
    ((C11_tokenizer_pieces.2.2 [' ', ' ', ' '] (by decide) (by decide) (by decide)).2.2
      (by decide)).1⟩

/-- C12. For every group with valid redirection syntax whose redirection
file exists and is not writable, or is a directory, `execute_group` reports an
error and returns `0` with nothing else done: no `open`, no `chdir`, no
`fork`, the registry, the system state, `pids` and the launch count as they
were, whatever the command is.  Every group with a `>` that passes the check
of lines 102-103 ends in the `>` and the file. -/
theorem C12_unusable_target_aborts {σ : Type} (os : OS σ) (sh : Shell σ) (pre : List String)
    (f : String) (pids : List Int) (index : Nat) (hpre : ">" ∉ pre) (hf : f ≠ ">")
    (hex : os.access sh.os f Mode.F_OK ≠ -1)
    (hbad : os.access sh.os f Mode.W_OK = -1 ∨ os.stat sh.os f = some true) :
    redir_invalid (scan_redir (pre ++ [">", f])) = false ∧
    execute_group os sh (pre ++ [">", f]) pids index
      = some { rc := 0, sh := { path := sh.path, os := sh.os, trace := sh.trace ++ [Event.error] },
               pids := pids, index := index } ∧
    (∀ group : List String, redir_invalid (scan_redir group) = false → ">" ∈ group →
      ∃ pre1 f1, group = pre1 ++ [">", f1] ∧ ">" ∉ pre1 ∧ f1 ≠ ">") := by
  refine ⟨(scan_redir_shape pre f hpre hf).2, ?_, ?_⟩
  · rw [execute_group_redir_any os sh pre f pids index hpre hf,
      open_redir_unusable os sh f hex hbad]
    rfl
  · intro group hv hmem
    rcases valid_group_shape group hv with h | h
    · exact absurd hmem h
    · exact h

/-- C12 at `exit > /etc`, `cd /tmp > /etc`, `path /a > /etc` and `ls > /etc`
with `/etc` a directory: each reports an error and does nothing else. -/
theorem C12_unusable_target_aborts_witness :
    execute_group (demo_os ["/bin/ls"] ["/tmp", "/etc"] 0) demo_sh ["exit", ">", "/etc"] [] 0
      = some { rc := 0, sh := { path := ["/bin"], os := 0, trace := [Event.error] },
               pids := [], index := 0 } ∧
    execute_group (demo_os ["/bin/ls"] ["/tmp", "/etc"] 0) demo_sh
        ["cd", "/tmp", ">", "/etc"] [] 0
      = some { rc := 0, sh := { path := ["/bin"], os := 0, trace := [Event.error] },
               pids := [], index := 0 } ∧
    execute_group (demo_os ["/bin/ls"] ["/tmp", "/etc"] 0) demo_sh
        ["path", "/a", ">", "/etc"] [] 0
      = some { rc := 0, sh := { path := ["/bin"], os := 0, trace := [Event.error] },
               pids := [], index := 0 } ∧
    execute_group (demo_os ["/bin/ls"] ["/tmp", "/etc"] 0) demo_sh ["ls", ">", "/etc"] [] 0
      = some { rc := 0, sh := { path := ["/bin"], os := 0, trace := [Event.error] },
               pids := [], index := 0 } :=
  ⟨(C12_unusable_target_aborts (demo_os ["/bin/ls"] ["/tmp", "/etc"] 0) demo_sh ["exit"]
      "/etc" [] 0 (by decide) (by decide) (by decide) (by decide)).2.1,
    (C12_unusable_target_aborts (demo_os ["/bin/ls"] ["/tmp", "/etc"] 0) demo_sh
      ["cd", "/tmp"] "/etc" [] 0 (by decide) (by decide) (by decide) (by decide)).2.1,
    (C12_unusable_target_aborts (demo_os ["/bin/ls"] ["/tmp", "/etc"] 0) demo_sh
      ["path", "/a"] "/etc" [] 0 (by decide) (by decide) (by decide) (by decide)).2.1,
    (C12_unusable_target_aborts (demo_os ["/bin/ls"] ["/tmp", "/etc"] 0) demo_sh ["ls"]
      "/etc" [] 0 (by decide) (by decide) (by decide) (by decide)).2.1⟩

/-- C13, as the code has it. The line `ls > out`, whose `>` has one space
on each side, is normalised to `ls  >  out`, and that line to `ls   >   out`:
lines 293-300 pad the first `>` without looking at what stands around it, so
normalising twice does not give the same line as normalising once. -/
theorem C13_redirect_padded_again :
    normalize_line ['l', 's', ' ', '>', ' ', 'o', 'u', 't', '\n']
      = some ['l', 's', ' ', ' ', '>', ' ', ' ', 'o', 'u', 't', '\n'] ∧
    normalize_line ['l', 's', ' ', ' ', '>', ' ', ' ', 'o', 'u', 't', '\n']
      = some ['l', 's', ' ', ' ', ' ', '>', ' ', ' ', ' ', 'o', 'u', 't', '\n'] := by
  decide

/-- C13, amended. Take a line, with or without tabs, that ends in its only
newline, fits the line buffer, and in which every `&` has a space, or an end
of the content, on each side.  When the line has no `>` the normaliser
returns it with its tabs erased and nothing else changed, and returns that
result as it is: normalising twice gives the same line as normalising once.
When the line has a `>` and two passes still fit the line buffers, each pass
puts a space on each side of the first `>`: the line grows by two characters
at the first pass and by two more at the second, so the two results differ. -/
theorem C13_normalizer_fixed_points (s : List Char) (hnl : '\n' ∉ s)
    (hnul : Char.ofNat 0 ∉ s) (hlen : (s ++ ['\n']).length < MAX_LINE)
    (hsp : amps_spaced s) :
    ('>' ∉ s →
      normalize_line (s ++ ['\n']) = some (s.filter (fun c => c ≠ '\t') ++ ['\n']) ∧
      normalize_line (s.filter (fun c => c ≠ '\t') ++ ['\n'])
        = some (s.filter (fun c => c ≠ '\t') ++ ['\n'])) ∧
    ('>' ∈ s → (s ++ ['\n']).length + 4 < MAX_LINE →
      ∃ out1 out2, normalize_line (s ++ ['\n']) = some out1 ∧
        normalize_line out1 = some out2 ∧
        out1.length = (s.filter (fun c => c ≠ '\t') ++ ['\n']).length + 2 ∧
        out2.length = out1.length + 2 ∧ out2.length < MAX_LINE ∧ out2 ≠ out1) := by
  have hslen : s.length + 1 < MAX_LINE := by simpa using hlen
  have h0 := normalize_line_eq s hnl hnul (by omega)
  have htsp := (amps_spaced_erase_tabs s).1 hsp
  have htlen := List.length_filter_le (fun c => decide (c ≠ '\t')) s
  have ht : ∀ c ∈ s.filter (fun c => c ≠ '\t'), c ≠ '\n' ∧ c ≠ Char.ofNat 0 ∧ c ≠ '\t' := by
    intro c hc
    rw [List.mem_filter] at hc
    exact ⟨fun e => hnl (e ▸ hc.1), fun e => hnul (e ▸ hc.1), by simpa using hc.2⟩
  have hplain := normalize_line_plain _ ht (by omega)
  have hmem : '>' ∈ s.filter (fun c => c ≠ '\t') ↔ '>' ∈ s := by
    rw [List.mem_filter]
    exact ⟨fun h => h.1, fun h => ⟨h, by decide⟩⟩
  generalize s.filter (fun c => c ≠ '\t') = t at h0 htsp htlen ht hplain hmem ⊢
  constructor
  · intro hgt
    have hgt2 : '>' ∉ t := fun h => hgt (hmem.mp h)
    have hfix := normalize_fixed t hgt2 htsp
    rw [hfix] at h0 hplain
    exact ⟨h0, hplain⟩
  · intro hgt hlen2
    simp only [List.length_append, List.length_singleton] at hlen2
    obtain ⟨a, b, e, ha⟩ := first_split '>' t (hmem.mpr hgt)
    subst e
    obtain ⟨h1, hsp1⟩ := normalize_line_redirect a b ht (by omega) ha htsp
    have h1s : normalize_line (s ++ ['\n'])
        = some (((a ++ [' ']) ++ '>' :: ' ' :: b) ++ ['\n']) := by
      rw [h0, ← hplain, h1]
    have hs1 : ∀ c ∈ (a ++ [' ']) ++ '>' :: ' ' :: b,
        c ≠ '\n' ∧ c ≠ Char.ofNat 0 ∧ c ≠ '\t' := by
      intro c hc
      simp only [List.mem_append, List.mem_cons, List.mem_singleton, List.not_mem_nil,
        or_false] at hc
      rcases hc with (hc | hc) | hc | hc | hc
      · exact ht c (by simp [hc])
      · subst hc; exact ⟨by decide, by decide, by decide⟩
      · subst hc; exact ⟨by decide, by decide, by decide⟩
      · subst hc; exact ⟨by decide, by decide, by decide⟩
      · exact ht c (by simp [hc])
    have ha1 : '>' ∉ a ++ [' '] := by
      simp only [List.mem_append, List.mem_singleton, not_or]
      exact ⟨ha, by decide⟩
    simp only [List.length_append, List.length_cons] at htlen
    have hlen1 : ((a ++ [' ']) ++ '>' :: ' ' :: b).length ≤ MAX_LINE := by
      simp only [List.length_append, List.length_cons, List.length_singleton,
        List.length_nil]
      omega
    obtain ⟨h2, _⟩ := normalize_line_redirect (a ++ [' ']) (' ' :: b) hs1 hlen1 ha1 hsp1
    refine ⟨_, _, h1s, h2, ?_, ?_, ?_, ?_⟩
    · simp only [List.length_append, List.length_cons, List.length_singleton, List.length_nil]
      omega
    · simp only [List.length_append, List.length_cons, List.length_singleton, List.length_nil]
      omega
    · simp only [List.length_append, List.length_cons, List.length_singleton, List.length_nil]
      omega
    · intro e
      have := congrArg List.length e
      simp only [List.length_append, List.length_cons, List.length_singleton,
        List.length_nil] at this
      omega

/-- C13 amended, at the line `a`, tab, ` & b`, which is returned as `a & b`,
itself returned as it is, and at the line `ls > out`, which grows at each
pass. -/
theorem C13_normalizer_fixed_points_witness :
    (normalize_line (['a', '\t', ' ', '&', ' ', 'b'] ++ ['\n'])
        = some ((['a', '\t', ' ', '&', ' ', 'b'] : List Char).filter (fun c => c ≠ '\t')
            ++ ['\n']) ∧
      normalize_line ((['a', '\t', ' ', '&', ' ', 'b'] : List Char).filter (fun c => c ≠ '\t')
          ++ ['\n'])
        = some ((['a', '\t', ' ', '&', ' ', 'b'] : List Char).filter (fun c => c ≠ '\t')
            ++ ['\n'])) ∧
    ∃ out1 out2, normalize_line (['l', 's', ' ', '>', ' ', 'o', 'u', 't'] ++ ['\n']) = some out1 ∧
      normalize_line out1 = some out2 ∧
      out1.length
        = ((['l', 's', ' ', '>', ' ', 'o', 'u', 't'] : List Char).filter (fun c => c ≠ '\t')
            ++ ['\n']).length + 2 ∧
      out2.length = out1.length + 2 ∧ out2.length < MAX_LINE ∧ out2 ≠ out1 :=
  ⟨(C13_normalizer_fixed_points ['a', '\t', ' ', '&', ' ', 'b'] (by decide) (by decide)
      (by decide) (by simp [amps_spaced])).1 (by decide),
    (C13_normalizer_fixed_points ['l', 's', ' ', '>', ' ', 'o', 'u', 't'] (by decide)
      (by decide) (by decide) (by simp [amps_spaced])).2 (by decide) (by decide)⟩

/-- C14, as the code has it. With `fork` returning `-1`, the group `ls`
makes `execute_group` store `-1` in `pids` and count a launch without any
error, and `execute_line` then calls `waitpid` with the handle `-1`.  In
general lines 235-259 store whatever `fork` returns, `-1` included, and add
one to the launch count, with no error reported. -/
theorem C14_fork_failure_recorded :
    execute_group (fork_fail_os ["/bin/ls"]) demo_sh ["ls"] [0] 0
      = some { rc := 0,
               sh := { path := ["/bin"], os := 0,
                       trace := [Event.fork (-1)
                         { cmd := "/bin/ls", args := [Slot.str "ls", Slot.null],
                           redirect := none }] },
               pids := [-1], index := 1 } ∧
    execute_line (fork_fail_os ["/bin/ls"]) demo_sh ['l', 's', '\n']
      = some (Outcome.exited 1,
          { path := [], os := 0,
            trace := [Event.call ["ls"],
              Event.fork (-1)
                { cmd := "/bin/ls", args := [Slot.str "ls", Slot.null], redirect := none },
              Event.waitpid (-1) (-1), Event.error] }) ∧
    (∀ {σ : Type} (os : OS σ) (sh : Shell σ) (cmd : String) (rest : List String)
        (pids : List Int) (index : Nat) (cmd1 : String),
      (cmd ≠ "exit" ∧ cmd ≠ "cd" ∧ cmd ≠ "path") → ">" ∉ cmd :: rest →
      resolve os sh.os sh.path cmd = some cmd1 →
      ∃ r, execute_group os sh (cmd :: rest) pids index = some r ∧
        r.rc = 0 ∧ r.pids = writeAt pids index (os.fork sh.os).1.val 0 ∧
        r.index = index + 1 ∧ errors r.sh.trace = errors sh.trace) := by
  refine ⟨by decide, by decide, ?_⟩
  intro σ os sh cmd rest pids index cmd1 hb hno hr
  rw [execute_group_plain os sh cmd rest pids index hno, List.cons_append,
    run_command_launch os sh cmd rest none _ _ _ pids index cmd1 hb hr]
  exact ⟨_, rfl, rfl, rfl, rfl, by simp [errors_append, errors]⟩

/-- C15, as the code has it. With `MAX_PATHS` entries in the registry,
`append_path` returns `0` and stores the new entry at index `MAX_PATHS`, so
that `num_path` is `MAX_PATHS + 1`; it returns `-1` only from `MAX_PATHS + 1`
entries on (line 39 tests `num_path > MAX_PATHS`).  What holds is
`num_path <= MAX_PATHS + 1`. -/
theorem C15_append_past_capacity :
    append_path (List.replicate MAX_PATHS "d") "x"
      = (0, List.replicate MAX_PATHS "d" ++ ["x"]) ∧
    (append_path (List.replicate MAX_PATHS "d") "x").2.length = MAX_PATHS + 1 ∧
    append_path (List.replicate (MAX_PATHS + 1) "d") "x"
      = (-1, List.replicate (MAX_PATHS + 1) "d") ∧
    (∀ (path : List String) (new_path : String), path.length ≤ MAX_PATHS + 1 →
      (append_path path new_path).2.length ≤ MAX_PATHS + 1) := by
  refine ⟨?_, ?_, ?_, ?_⟩
  · simp [append_path]
  · simp [append_path]
  · simp [append_path]
  · intro path new_path h
    unfold append_path
    split
    · exact h
    · simp only [List.length_append, List.length_singleton]
      omega

/-- C16, as the code has it. On the line of `MAX_LINE` characters `a` and a
newline the tab loop copies the `MAX_LINE` characters and line 282 stores the
newline after them, at index `MAX_LINE` of `line0`: the result has
`MAX_LINE + 1` characters.  On every line the result has at most
`MAX_LINE + 1` characters. -/
theorem C16_newline_stored_past_line0 :
    erase_tabs (List.replicate MAX_LINE 'a' ++ ['\n']) 0
      = some (List.replicate MAX_LINE 'a' ++ ['\n']) ∧
    (List.replicate MAX_LINE 'a' ++ ['\n']).length = MAX_LINE + 1 ∧
    (List.replicate MAX_LINE 'a' ++ ['\n'])[MAX_LINE]? = some '\n' ∧
    (∀ (line_ out : List Char), erase_tabs line_ 0 = some out → out.length ≤ MAX_LINE + 1) := by
  have hf : (List.replicate MAX_LINE 'a').filter (fun c => c ≠ '\t')
      = List.replicate MAX_LINE 'a' := by
    rw [List.filter_eq_self]
    intro c hc
    rw [List.eq_of_mem_replicate hc]
    decide
  have hnl : '\n' ∉ List.replicate MAX_LINE 'a' := by
    intro h
    exact absurd (List.eq_of_mem_replicate h) (by decide)
  refine ⟨?_, by simp, ?_, ?_⟩
  · have h := erase_tabs_eq (List.replicate MAX_LINE 'a') 0 hnl (by simp)
    rw [hf] at h
    exact h
  · rw [List.getElem?_append_right (by simp)]
    simp
  · intro line_ out h
    have := erase_tabs_length line_ 0 out (by decide) h
    omega

set_option maxRecDepth 100000 in
/-- C17, as the code has it. The line of 60 times `a&`, 121 characters long
with its newline, is padded to 241 characters, which fit the line buffers,
and gives 120 tokens: line 362 stores `tokens[100]` to `tokens[119]`,
outside the `MAX_TOKENS` slots of `tokens`.  On every input line that ends in
its only newline, holds no zero byte and fits the buffer, the normaliser
returns; and when the padded line fits the line buffers and gives at most
`MAX_TOKENS` tokens, whatever the spacing around the operators, a token that
holds the character `&` is the token `&`, the number of tokens `&` is the
number of characters `&` of the input, and no token of a group holds a `&`:
every `&` separates groups. -/
theorem C17_every_amp_separates :
    many_amps_line.length < MAX_LINE ∧
    (normalize_line many_amps_line).map (fun l => (l.length, (tokens_of l).length))
      = some (241, 120) ∧
    241 < MAX_LINE ∧ MAX_TOKENS < 120 ∧
    (∀ s : List Char, '\n' ∉ s → Char.ofNat 0 ∉ s → (s ++ ['\n']).length < MAX_LINE →
      ∃ out, normalize_line (s ++ ['\n']) = some out) ∧
    (∀ s out : List Char, '\n' ∉ s → Char.ofNat 0 ∉ s → (s ++ ['\n']).length < MAX_LINE →
      normalize_line (s ++ ['\n']) = some out → out.length < MAX_LINE →
      (tokens_of out).length ≤ MAX_TOKENS →
      (∀ t ∈ tokens_of out, '&' ∈ t.data → t = "&") ∧
      (tokens_of out).count "&" = s.count '&' ∧
      (∀ g ∈ build_groups (tokens_of out), ∀ t ∈ g, '&' ∉ t.data)) := by
  refine ⟨by decide, by decide, by decide, by decide, ?_, ?_⟩
  · intro s hnl hnul hlen
    simp only [List.length_append, List.length_singleton] at hlen
    obtain ⟨u, hu, _⟩ := normalize_line_shape s hnl hnul (by omega)
    exact ⟨_, hu⟩
  · intro s out hnl hnul hlen hout _ _
    simp only [List.length_append, List.length_singleton] at hlen
    obtain ⟨u, hu, hsp, hf, hmem⟩ := normalize_line_shape s hnl hnul (by omega)
    have he : out = u ++ ['\n'] := by
      rw [hu] at hout
      injection hout with hout
      exact hout.symm
    subst he
    have hnlu : '\n' ∉ u := by
      intro h
      rcases hmem _ h with e | ⟨e, _⟩
      · exact absurd e (by decide)
      · exact hnl e
    obtain ⟨h1, h2⟩ := tokens_amp u hnlu hsp
    refine ⟨h1, ?_, ?_⟩
    · have c1 : (u.filter (fun c => c ≠ ' ')).count '&' = u.count '&' :=
        List.count_filter (by decide)
      have c2 : ((s.filter (fun c => c ≠ '\t')).filter (fun c => c ≠ ' ')).count '&'
          = (s.filter (fun c => c ≠ '\t')).count '&' := List.count_filter (by decide)
      have c3 : (s.filter (fun c => c ≠ '\t')).count '&' = s.count '&' :=
        List.count_filter (by decide)
      rw [h2, ← c1, hf, c2, c3]
    · intro g hg t ht hamp
      rw [build_groups_eq] at hg
      have hne : "&" ∉ g := (maximal_runs_mem _ g hg).2
      have hin : t ∈ (maximal_runs (tokens_of (u ++ ['\n']))).flatten :=
        List.mem_flatten.mpr ⟨g, hg, ht⟩
      rw [maximal_runs_join] at hin
      have e := h1 t (List.mem_of_mem_filter hin) hamp
      subst e
      exact hne ht

/-- C17 at the lines `a&b`, `a &b`, `a& b` and `a&&b`: in each the tokens
are `a`, the `&` of the line, and `b`, and the groups are `a` and `b`. -/
theorem C17_every_amp_separates_witness :
    ((∀ t ∈ tokens_of ['a', ' ', '&', ' ', ' ', '&', ' ', 'b', '\n'],
        '&' ∈ t.data → t = "&") ∧
      (tokens_of ['a', ' ', '&', ' ', ' ', '&', ' ', 'b', '\n']).count "&"
        = (['a', '&', '&', 'b'] : List Char).count '&' ∧
      (∀ g ∈ build_groups (tokens_of ['a', ' ', '&', ' ', ' ', '&', ' ', 'b', '\n']),
        ∀ t ∈ g, '&' ∉ t.data)) ∧
    (normalize_line ['a', '&', 'b', '\n']).map tokens_of = some ["a", "&", "b"] ∧
    (normalize_line ['a', ' ', '&', 'b', '\n']).map tokens_of = some ["a", "&", "b"] ∧
    (normalize_line ['a', '&', ' ', 'b', '\n']).map tokens_of = some ["a", "&", "b"] ∧
    (normalize_line ['a', '&', '&', 'b', '\n']).map tokens_of = some ["a", "&", "&", "b"] ∧
    build_groups ["a", "&", "&", "b"] = [["a"], ["b"]] :=
  ⟨C17_every_amp_separates.2.2.2.2.2 ['a', '&', '&', 'b']
      ['a', ' ', '&', ' ', ' ', '&', ' ', 'b', '\n'] (by decide) (by decide) (by decide)
      (by decide) (by decide) (by decide),
    by decide, by decide, by decide, by decide, by decide⟩

/-- C18. For every input line without `>` that ends in its only newline,
holds no zero byte, fits the buffer and whose padded form fits the line
buffers: the line is normalised; in the result every `&` stands at the start
or after a space, and before a space or before the newline; and normalising
the result returns it as it is. -/
theorem C18_amp_padding_idempotent (s : List Char) (hnl : '\n' ∉ s)
    (hnul : Char.ofNat 0 ∉ s) (hgt : '>' ∉ s) (hlen : (s ++ ['\n']).length < MAX_LINE)
    (hfit : ∀ out, normalize_line (s ++ ['\n']) = some out → out.length < MAX_LINE) :
    ∃ out, normalize_line (s ++ ['\n']) = some out ∧ out.length < MAX_LINE ∧
      (∀ i, out[i]? = some '&' →
        (i = 0 ∨ out[i - 1]? = some ' ') ∧
        (out[i + 1]? = some ' ' ∨ out[i + 1]? = some '\n')) ∧
      normalize_line out = some out := by
  simp only [List.length_append, List.length_singleton] at hlen
  obtain ⟨u, hu, hsp, _, hmem⟩ := normalize_line_shape s hnl hnul (by omega)
  have hfitu := hfit _ hu
  refine ⟨u ++ ['\n'], hu, hfitu, amps_spaced_index u hsp, ?_⟩
  have hs : ∀ c ∈ u, c ≠ '\n' ∧ c ≠ Char.ofNat 0 ∧ c ≠ '\t' := by
    intro c hc
    rcases hmem c hc with e | ⟨e, e2⟩
    · subst e
      exact ⟨by decide, by decide, by decide⟩
    · exact ⟨fun h => hnl (h ▸ e), fun h => hnul (h ▸ e), e2⟩
  have hgtu : '>' ∉ u := by
    intro h
    rcases hmem _ h with e | ⟨e, _⟩
    · exact absurd e (by decide)
    · exact hgt e
  have hlenu : u.length ≤ MAX_LINE := by
    simp only [List.length_append, List.length_singleton] at hfitu
    omega
  rw [normalize_line_plain u hs hlenu, normalize_fixed u hgtu hsp]

/-- C18 at the line `a&b &&c`, with a tab in it: it is normalised to
`a & b  &  & c`, which the normaliser returns as it is. -/
theorem C18_amp_padding_idempotent_witness :
    (∃ out, normalize_line (['a', '&', '\t', 'b', ' ', '&', '&', 'c'] ++ ['\n']) = some out ∧
      out.length < MAX_LINE ∧
      (∀ i, out[i]? = some '&' →
        (i = 0 ∨ out[i - 1]? = some ' ') ∧
        (out[i + 1]? = some ' ' ∨ out[i + 1]? = some '\n')) ∧
      normalize_line out = some out) ∧
    normalize_line (['a', '&', '\t', 'b', ' ', '&', '&', 'c'] ++ ['\n'])
      = some ['a', ' ', '&', ' ', 'b', ' ', ' ', '&', ' ', ' ', '&', ' ', 'c', '\n'] ∧
    normalize_line ['a', ' ', '&', ' ', 'b', ' ', ' ', '&', ' ', ' ', '&', ' ', 'c', '\n']
      = some ['a', ' ', '&', ' ', 'b', ' ', ' ', '&', ' ', ' ', '&', ' ', 'c', '\n'] :=
  ⟨C18_amp_padding_idempotent ['a', '&', '\t', 'b', ' ', '&', '&', 'c'] (by decide)
      (by decide) (by decide) (by decide)
      (fun out h => by
        have e : normalize_line (['a', '&', '\t', 'b', ' ', '&', '&', 'c'] ++ ['\n'])
            = some ['a', ' ', '&', ' ', 'b', ' ', ' ', '&', ' ', ' ', '&', ' ', 'c', '\n'] := by
          decide
        rw [e] at h
        injection h with h
        subst h
        decide),
    by decide, by decide⟩

/-- C19. For a group `cmd rest > f` with valid redirection syntax whose
file `f` is absent, or exists, can be written and is no directory:
`execute_group` returns, and the first call it makes is the `open` of `f`,
creating it when it is absent and truncating it when it exists; what the
dispatch does comes after it.  When the `open` gives a descriptor and the
command is no builtin and cannot be resolved, the `open` is followed by one
error only, `0` is returned and nothing is launched; when the command is a
builtin nothing is launched either, and `exit` still returns `1`. -/
theorem C19_target_opened_before_dispatch {σ : Type} (os : OS σ) (sh : Shell σ)
    (cmd : String) (rest : List String) (f : String) (pids : List Int) (index : Nat)
    (hno : ">" ∉ cmd :: rest) (hf : f ≠ ">")
    (husable : os.access sh.os f Mode.F_OK = -1 ∨
      (os.access sh.os f Mode.W_OK ≠ -1 ∧ os.stat sh.os f = some false)) :
    ∃ (r : GroupResult σ) (fd : Int) (s1 : σ) (ev : Event) (tail : List Event),
      execute_group os sh (cmd :: rest ++ [">", f]) pids index = some r ∧
      ((os.access sh.os f Mode.F_OK = -1 ∧ os.open_creat sh.os f = (fd, s1) ∧
          ev = Event.open_creat f fd) ∨
        (os.access sh.os f Mode.F_OK ≠ -1 ∧ os.open_trunc sh.os f = (fd, s1) ∧
          ev = Event.open_trunc f fd)) ∧
      r.sh.trace = sh.trace ++ ev :: tail ∧
      (fd = -1 → r.rc = 0 ∧ tail = [Event.error] ∧ r.pids = pids ∧ r.index = index) ∧
      (fd ≠ -1 → (cmd ≠ "exit" ∧ cmd ≠ "cd" ∧ cmd ≠ "path") →
        resolve os s1 sh.path cmd = none →
        r.rc = 0 ∧ tail = [Event.error] ∧ r.pids = pids ∧ r.index = index) ∧
      ((cmd = "exit" ∨ cmd = "cd" ∨ cmd = "path") →
        r.pids = pids ∧ r.index = index ∧ forks tail = []) ∧
      (fd ≠ -1 → cmd = "exit" → r.rc = 1) := by
  obtain ⟨fd, s1, ev, hcase, hopen⟩ := open_redir_usable os sh f husable
  have hev : forks [ev] = [] := by
    rcases hcase with ⟨_, _, e⟩ | ⟨_, _, e⟩ <;> subst e <;> rfl
  have hany := execute_group_redir_any os sh (cmd :: rest) f pids index hno hf
  rw [hopen] at hany
  by_cases hfd : fd = -1
  · rw [if_pos hfd] at hany
    simp only [] at hany
    refine ⟨_, fd, s1, ev, [Event.error], hany, hcase, ?_, ?_, ?_, ?_, ?_⟩
    · simp [log_error]
    · intro _
      exact ⟨rfl, rfl, rfl, rfl⟩
    · intro h
      exact absurd hfd h
    · intro _
      exact ⟨rfl, rfl, rfl⟩
    · intro h
      exact absurd hfd h
  · rw [if_neg hfd] at hany
    simp only [] at hany
    obtain ⟨r, hr⟩ := execute_group_total os sh cmd (rest ++ [">", f]) pids index
    have hr2 := hr
    rw [← List.cons_append, hany] at hr2
    obtain ⟨tail, ht⟩ := run_command_extends _ _ _ _ _ _ _ _ _ _ hr2
    simp only [] at ht
    refine ⟨r, fd, s1, ev, tail, hr, hcase, ?_, ?_, ?_, ?_, ?_⟩
    · rw [ht]
      simp
    · intro h
      exact absurd h hfd
    · intro _ hb hres
      have hun := run_command_unresolved os
        ({ sh with os := s1, trace := sh.trace ++ [ev] } : Shell σ) cmd (rest ++ [">", f])
        (some (cmd :: rest).length)
        (compose_args (cmd :: rest ++ [">", f]) (scan_redir (cmd :: rest ++ [">", f]))).1
        (compose_args (cmd :: rest ++ [">", f]) (scan_redir (cmd :: rest ++ [">", f]))).2
        fd pids index hb hres
      have e := hun.symm.trans hr2
      injection e with e
      subst e
      refine ⟨rfl, ?_, rfl, rfl⟩
      exact (List.append_cancel_left ht).symm
    · intro hb
      obtain ⟨a, b, c⟩ := execute_group_builtin os sh cmd (rest ++ [">", f]) pids index r hb hr
      refine ⟨a, b, ?_⟩
      rw [ht, forks_append, forks_append, hev, List.append_nil] at c
      exact List.append_right_eq_self.mp c
    · intro _ he
      exact (run_command_rc _ _ _ _ _ _ _ _ _ _ hr2).mpr (by simp [he])

/-- C19 at the groups `nosuch > out`, `cd /tmp > out` and `exit > out` with
no file `out`: in each the file is created first; then `nosuch` gives an
error, `cd` changes the directory and `exit` returns `1`, and no process is
launched. -/
theorem C19_target_opened_before_dispatch_witness :
    (∃ (r : GroupResult Nat) (fd : Int) (s1 : Nat) (ev : Event) (tail : List Event),
      execute_group (demo_os [] ["/tmp"] 0) demo_sh ("nosuch" :: [] ++ [">", "out"]) [] 0
        = some r ∧
      (((demo_os [] ["/tmp"] 0).access demo_sh.os "out" Mode.F_OK = -1 ∧
          (demo_os [] ["/tmp"] 0).open_creat demo_sh.os "out" = (fd, s1) ∧
          ev = Event.open_creat "out" fd) ∨
        ((demo_os [] ["/tmp"] 0).access demo_sh.os "out" Mode.F_OK ≠ -1 ∧
          (demo_os [] ["/tmp"] 0).open_trunc demo_sh.os "out" = (fd, s1) ∧
          ev = Event.open_trunc "out" fd)) ∧
      r.sh.trace = demo_sh.trace ++ ev :: tail ∧
      (fd = -1 → r.rc = 0 ∧ tail = [Event.error] ∧ r.pids = [] ∧ r.index = 0) ∧
      (fd ≠ -1 → ("nosuch" ≠ "exit" ∧ "nosuch" ≠ "cd" ∧ "nosuch" ≠ "path") →
        resolve (demo_os [] ["/tmp"] 0) s1 demo_sh.path "nosuch" = none →
        r.rc = 0 ∧ tail = [Event.error] ∧ r.pids = [] ∧ r.index = 0) ∧
      (("nosuch" = "exit" ∨ "nosuch" = "cd" ∨ "nosuch" = "path") →
        r.pids = [] ∧ r.index = 0 ∧ forks tail = []) ∧
      (fd ≠ -1 → "nosuch" = "exit" → r.rc = 1)) ∧
    execute_group (demo_os [] ["/tmp"] 0) demo_sh ["nosuch", ">", "out"] [] 0
      = some { rc := 0,
               sh := { path := ["/bin"], os := 0,
                       trace := [Event.open_creat "out" 3, Event.error] },
               pids := [], index := 0 } ∧
    execute_group (demo_os [] ["/tmp"] 0) demo_sh ["cd", "/tmp", ">", "out"] [] 0
      = some { rc := 0,
               sh := { path := ["/bin"], os := 0,
                       trace := [Event.open_creat "out" 3, Event.chdir "/tmp" 0] },
               pids := [], index := 0 } ∧
    execute_group (demo_os [] ["/tmp"] 0) demo_sh ["exit", ">", "out"] [] 0
      = some { rc := 1,
               sh := { path := ["/bin"], os := 0, trace := [Event.open_creat "out" 3] },
               pids := [], index := 0 } :=
  ⟨C19_target_opened_before_dispatch (demo_os [] ["/tmp"] 0) demo_sh "nosuch" [] "out" [] 0
      (by decide) (by decide) (Or.inl (by decide)),
    by decide, by decide, by decide⟩

set_option maxRecDepth 100000 in
/-- C20, as the code has it. The line of 101 words `a`, 202 characters long,
gives 101 tokens, so line 362 writes `tokens[100]`; and on the group of these
101 tokens lines 118-122 write `args[100]` and `args[101]`: the slots written
are 102.  A group of 100 tokens already has its terminator written at
`args[100]`.  Neither loop tests its index against `MAX_TOKENS`. -/
theorem C20_tokens_past_capacity :
    many_tokens_line.length = 202 ∧
    (normalize_line many_tokens_line).map tokens_of = some (List.replicate 101 "a") ∧
    (List.replicate 101 "a").length = MAX_TOKENS + 1 ∧
    build_groups (List.replicate 101 "a") = [List.replicate 101 "a"] ∧
    (compose_args (List.replicate 101 "a") (scan_redir (List.replicate 101 "a"))).1.length
      = MAX_TOKENS + 2 ∧
    (compose_args (List.replicate 100 "a") (scan_redir (List.replicate 100 "a"))).1.length
      = MAX_TOKENS + 1 := by
  refine ⟨by decide, by decide, by decide, by decide, by decide, by decide⟩

end Wish
